import Mathlib

/-!
# HPX excerpt: co-array, Jenkins hash, performance counters, benchmarks and tests

A shallow embedding of

* `components/containers/partitioned_vector/.../coarray/coarray.hpp`
* `libs/core/hashing/include/hpx/hashing/jenkins_hash.hpp`
* `libs/full/performance_counters/src/server/arithmetics_counter.cpp`
* `tests/performance/local/nonconcurrent_fifo_overhead.cpp`
* `tests/performance/local/wait_all_timings.cpp`
* `libs/core/resiliency/tests/performance/replay/dataflow_replay.cpp`
* the tests `findif_tests.hpp`, `is_sorted_until.cpp`, `make_heap.cpp` and
  `for_loop_induction_async.cpp` of `libs/core/algorithms/tests/unit/algorithms`
* `libs/core/serialization/tests/unit/polymorphic/polymorphic_pointer.cpp`

Machine integers are natural numbers reduced modulo `2 ^ w` where the C++
arithmetic wraps.  A function that may fail to return (a loop that never
advances, a division by zero, an ill-formed instantiation, an access outside a
vector) returns `Option`.  Library code that the files above call but do not
contain is either a parameter of the definitions or, where a definition says
so, modelled from its documented behaviour.
-/

set_option autoImplicit false

/-! ## Part I: definitions -/

namespace hpx

/-- Number of values of `std::size_t` on the 64-bit targets of the library. -/
def SIZE_MOD : Nat := 2 ^ 64

/-- The value `std::size_t(-1)`. -/
def SIZE_MAX : Nat := SIZE_MOD - 1

/-- One more than the largest `std::ptrdiff_t`. -/
def PTRDIFF_LIMIT : Nat := 2 ^ 63

namespace detail

/-- An argument of a variadic pack `I...` of `coarray`: either the placeholder
`hpx::_` (type `detail::auto_subscript`) or a subscript or size, that is a
non-negative value of an integral type (of at most 64 bits, so below
`2 ^ 64`). -/
inductive subscript where
  | auto_subscript : subscript
  | index (v : { n : Nat // n < SIZE_MOD }) : subscript
  deriving DecidableEq

/-- The test `std::is_same<I, detail::auto_subscript>::value`. -/
def subscript.is_auto : subscript → Bool
  | .auto_subscript => true
  | .index _ => false

/-- The conversion to `std::size_t`: `auto_subscript::operator std::size_t()`
returns `std::size_t(-1)`; a non-negative integral value keeps its value. -/
def subscript.to_size : subscript → Nat
  | .auto_subscript => SIZE_MAX
  | .index v => v.val

/-- The object `detail::coarray_sizes<N>`: the array `sizes_`. -/
structure coarray_sizes where
  sizes_ : List Nat
  deriving DecidableEq

/-- The constructor `coarray_sizes<N>(I... i)`.  The three `static_assert`s
reject a pack whose last element is not `hpx::_` or whose length is not `N`
(every element of `subscript` is integral after `cast_if_autosubscript`);
a rejected instantiation is `none`. -/
def coarray_sizes.mk_sizes (N : Nat) (i : List subscript) : Option coarray_sizes :=
  match i.getLast? with
  | none => none
  | some last =>
    if last.is_auto ∧ N = i.length then some ⟨i.map subscript.to_size⟩ else none

end detail

/-- The part of `hpx::lcos::spmd_block` the co-array reads. -/
structure spmd_block where
  num_images : Nat
  this_image : Nat
  deriving DecidableEq

/-- The algorithm `std::fill(first, last, value)` on positions of `out`:
`count` assignments `*first = value; ++first`. -/
def std_fill {α : Type} (value : α) : Nat → Nat → List α → List α
  | 0, _, out => out
  | count + 1, first, out => std_fill value count (first + 1) (out.set first value)

/-- The loop of `get_unrolled_localities`; `o` and `i` are the positions of the
iterators in `out` and `in`, and one step is
`std::fill(o, min(o + stride, o_end), *i); i = (++i != i_end) ? i : i_begin;
o += stride` with `stride = static_cast<std::ptrdiff_t>(unroll)`.  `none` when
the fuel is used up, when `*i` reads past the end of `in`, and when the stride
is negative (`unroll` above `PTRDIFF_MAX`: the fill would run from `o` to a
position before it). -/
def get_unrolled_localities_loop {α : Type} (inp : List α) (o_end unroll : Nat) :
    Nat → Nat → Nat → List α → Option (List α)
  | 0, _, _, _ => none
  | fuel + 1, o, i, out =>
    if o < o_end then
      if PTRDIFF_LIMIT ≤ unroll then none
      else
        match inp[i]? with
        | none => none
        | some x =>
          get_unrolled_localities_loop inp o_end unroll fuel (o + unroll)
            (if i + 1 ≠ inp.length then i + 1 else 0)
            (std_fill x (min (o + unroll) o_end - o) o out)
    else some out

/-- The function `coarray::get_unrolled_localities(in, num_segments, unroll)`.
`out` starts as `num_segments` default-constructed ids.  With a positive stride
the loop runs at most `num_segments` times, so `num_segments + 1` steps of fuel
reach the exit test whenever the loop ends at all. -/
def get_unrolled_localities {α : Type} [Inhabited α] (inp : List α)
    (num_segments unroll : Nat) : Option (List α) :=
  get_unrolled_localities_loop inp num_segments unroll (num_segments + 1) 0 0
    (List.replicate num_segments default)

/-- What the constructor does with `vector_`. -/
inductive vector_action (α : Type) where
  /-- Image 0: `partitioned_vector(size, T(0), container_layout(num_segments,
  localities))` followed by `register_as(launch::sync, key)`. -/
  | allocate_and_register (size num_segments : Nat) (localities : List α) (key : String)
  /-- Other images: `connect_to(launch::sync, key)`. -/
  | connect_to (key : String)
  deriving DecidableEq

/-- The object `hpx::coarray<T, N, Data>`: `this_image_`, what was done with
`vector_`, and the sizes handed to the base `partitioned_vector_view`
by `update_view`. -/
structure coarray (α : Type) where
  vector_ : vector_action α
  this_image_ : Nat
  view_sizes : List Nat
  deriving DecidableEq

/-- The loop `for (i : cosizes) num_segments *= (i != size_t(-1) ? i : num_images)`
starting from `N > 0 ? 1 : 0`, in `std::size_t` arithmetic. -/
def coarray.num_segments (N num_images : Nat) (cosizes : detail.coarray_sizes) : Nat :=
  cosizes.sizes_.foldl
    (fun acc i => acc * (if i ≠ SIZE_MAX then i else num_images) % SIZE_MOD)
    (if N > 0 then 1 else 0)

/-- The sizes `update_view` passes to the base view. -/
def coarray.update_view (cosizes : detail.coarray_sizes) (num_images : Nat) : List Nat :=
  cosizes.sizes_.map (fun i => if i ≠ SIZE_MAX then i else num_images)

/-- The constructor `coarray(block, name, cosizes, segment_size)`;
`localities` is what `hpx::find_all_localities()` returns.  `none` when the
constructor does not return (division by `localities.size() = 0`, or
`get_unrolled_localities` does not return). -/
def coarray.ctor {α : Type} [Inhabited α] (N : Nat) (block : spmd_block) (name : String)
    (cosizes : detail.coarray_sizes) (segment_size : Nat) (localities : List α) :
    Option (coarray α) :=
  let num_images := block.num_images
  if block.this_image = 0 then
    let num_segments := coarray.num_segments N num_images cosizes
    if localities.length = 0 then none
    else
      match get_unrolled_localities localities num_segments
          (num_segments / localities.length) with
      | none => none
      | some layout =>
        some ⟨.allocate_and_register (segment_size * num_segments % SIZE_MOD) num_segments
                layout (name ++ "_hpx_coarray"),
              block.this_image, coarray.update_view cosizes num_images⟩
  else
    some ⟨.connect_to (name ++ "_hpx_coarray"), block.this_image,
          coarray.update_view cosizes num_images⟩

/-- The pack expansion `(is_same<I, auto_subscript>::value ? this_image_ : index)...`
of both `operator()` overloads: each operand pair has common type
`std::size_t`. -/
def coarray.forwarded {α : Type} (c : coarray α) (index : List detail.subscript) : List Nat :=
  index.map (fun ix => if ix.is_auto then c.this_image_ else ix.to_size)

/-- The call made on the base view by `coarray::operator()`. -/
inductive view_access where
  /-- First overload (last index not `hpx::_`): `base_type::operator()(...)`. -/
  | element (idx : List Nat)
  /-- Second overload (last index `hpx::_`): `base_type::operator()(...).data()`. -/
  | data (idx : List Nat)
  deriving DecidableEq

/-- Overload resolution of `coarray::operator()(I... index)` on
`at_index<sizeof...(I) - 1, I...>`; an empty pack is ill-formed. -/
def coarray.call {α : Type} (c : coarray α) (index : List detail.subscript) :
    Option view_access :=
  match index.getLast? with
  | none => none
  | some last =>
    if last.is_auto then some (.data (c.forwarded index))
    else some (.element (c.forwarded index))

/-- The tuple a `view_access` carries. -/
def view_access.indices : view_access → List Nat
  | .element idx => idx
  | .data idx => idx

end hpx

namespace hpx.util

/-- Number of values of `jenkins_hash::size_type` (`std::uint32_t`). -/
def SIZE_TYPE_MOD : Nat := 2 ^ 32

/-- The operation `x += y` on `std::uint32_t`. -/
def add32 (x y : Nat) : Nat := (x + y) % SIZE_TYPE_MOD

/-- The operation `x -= y` on `std::uint32_t`. -/
def sub32 (x y : Nat) : Nat := (x + (SIZE_TYPE_MOD - y % SIZE_TYPE_MOD)) % SIZE_TYPE_MOD

/-- The operation `x << k` on `std::uint32_t`. -/
def shl32 (x k : Nat) : Nat := (x <<< k) % SIZE_TYPE_MOD

namespace detail

/-- The function `detail::mix(a, b, c)` at `T = std::uint32_t`; the three
references are returned as a triple. -/
def mix (a b c : Nat) : Nat × Nat × Nat :=
  let a := sub32 a b; let a := sub32 a c; let a := a ^^^ (c >>> 13)
  let b := sub32 b c; let b := sub32 b a; let b := b ^^^ shl32 a 8
  let c := sub32 c a; let c := sub32 c b; let c := c ^^^ (b >>> 13)
  let a := sub32 a b; let a := sub32 a c; let a := a ^^^ (c >>> 12)
  let b := sub32 b c; let b := sub32 b a; let b := b ^^^ shl32 a 16
  let c := sub32 c a; let c := sub32 c b; let c := c ^^^ (b >>> 5)
  let a := sub32 a b; let a := sub32 a c; let a := a ^^^ (c >>> 3)
  let b := sub32 b c; let b := sub32 b a; let b := b ^^^ shl32 a 10
  let c := sub32 c a; let c := sub32 c b; let c := c ^^^ (b >>> 15)
  (a, b, c)

/-- The statements of `mix` run backwards: each `x ^= s` is undone by the same
`x ^= s`, each `x -= y` by `x += y`. -/
def unmix (a b c : Nat) : Nat × Nat × Nat :=
  let c := c ^^^ (b >>> 15); let c := add32 c b; let c := add32 c a
  let b := b ^^^ shl32 a 10; let b := add32 b a; let b := add32 b c
  let a := a ^^^ (c >>> 3); let a := add32 a c; let a := add32 a b
  let c := c ^^^ (b >>> 5); let c := add32 c b; let c := add32 c a
  let b := b ^^^ shl32 a 16; let b := add32 b a; let b := add32 b c
  let a := a ^^^ (c >>> 12); let a := add32 a c; let a := add32 a b
  let c := c ^^^ (b >>> 13); let c := add32 c b; let c := add32 c a
  let b := b ^^^ shl32 a 8; let b := add32 b a; let b := add32 b c
  let a := a ^^^ (c >>> 13); let a := add32 a c; let a := add32 a b
  (a, b, c)

end detail

/-- Three consecutive lines of `mix` with shift amounts `k1`, `k2`, `k3`:
`a -= b; a -= c; a ^= (c >> k1); b -= c; b -= a; b ^= (a << k2);
c -= a; c -= b; c ^= (b >> k3)`. -/
def mix_round (k1 k2 k3 : Nat) (t : Nat × Nat × Nat) : Nat × Nat × Nat :=
  let a := sub32 (sub32 t.1 t.2.1) t.2.2 ^^^ (t.2.2 >>> k1)
  let b := sub32 (sub32 t.2.1 t.2.2) a ^^^ shl32 a k2
  let c := sub32 (sub32 t.2.2 a) b ^^^ (b >>> k3)
  (a, b, c)

/-- The three lines of `mix_round` run backwards. -/
def unmix_round (k1 k2 k3 : Nat) (t : Nat × Nat × Nat) : Nat × Nat × Nat :=
  let c := add32 (add32 (t.2.2 ^^^ (t.2.1 >>> k3)) t.2.1) t.1
  let b := add32 (add32 (t.2.1 ^^^ shl32 t.1 k2) t.1) c
  let a := add32 (add32 (t.1 ^^^ (c >>> k1)) c) b
  (a, b, c)

/-- All three components are 32-bit words. -/
def words32 (t : Nat × Nat × Nat) : Prop :=
  t.1 < SIZE_TYPE_MOD ∧ t.2.1 < SIZE_TYPE_MOD ∧ t.2.2 < SIZE_TYPE_MOD

/-- The value of a `char` object holding the byte `byte`, converted to
`size_type` (by `static_cast<size_type>` or by the usual arithmetic conversions
in a sum with a `size_type`).  Where plain `char` is signed a byte of 128 or
more is a negative `char` and is sign-extended. -/
def char_to_size_type (char_is_signed : Bool) (byte : Nat) : Nat :=
  if char_is_signed ∧ 128 ≤ byte then (byte + (SIZE_TYPE_MOD - 256)) % SIZE_TYPE_MOD
  else byte % SIZE_TYPE_MOD

/-- The class `jenkins_hash`: its only member is `seed_`. -/
structure jenkins_hash where
  seed_ : Nat
  deriving DecidableEq

/-- The constructor `jenkins_hash()`. -/
def jenkins_hash.default_ctor : jenkins_hash := ⟨0⟩

/-- The constructor `jenkins_hash(size_type seedval, seedenum)`. -/
def jenkins_hash.seed_ctor (seedval : Nat) : jenkins_hash := ⟨seedval % SIZE_TYPE_MOD⟩

/-- The member `set_seed(size_type seedval)`. -/
def jenkins_hash.set_seed (_self : jenkins_hash) (seedval : Nat) : jenkins_hash :=
  ⟨seedval % SIZE_TYPE_MOD⟩

/-- The sum `k[i] + (size_type(k[i+1]) << 8) + (size_type(k[i+2]) << 16) +
(size_type(k[i+3]) << 24)` of the main loop. -/
def hash_word (char_is_signed : Bool) (k : List Nat) (i : Nat) : Nat :=
  add32 (add32 (add32 (char_to_size_type char_is_signed (k.getD i 0))
      (shl32 (char_to_size_type char_is_signed (k.getD (i + 1) 0)) 8))
      (shl32 (char_to_size_type char_is_signed (k.getD (i + 2) 0)) 16))
      (shl32 (char_to_size_type char_is_signed (k.getD (i + 3) 0)) 24)

/-- The loop `while (len >= 12)` of `hash`: returns the advanced pointer, the
remaining `len` and `(a, b, c)`; `none` when the fuel is used up. -/
def hash_loop (char_is_signed : Bool) :
    Nat → List Nat → Nat → Nat × Nat × Nat → Option (List Nat × Nat × Nat × Nat × Nat)
  | 0, _, _, _ => none
  | fuel + 1, k, len, (a, b, c) =>
    if 12 ≤ len then
      let a := add32 a (hash_word char_is_signed k 0)
      let b := add32 b (hash_word char_is_signed k 4)
      let c := add32 c (hash_word char_is_signed k 8)
      hash_loop char_is_signed fuel (k.drop 12) (len - 12) (detail.mix a b c)
    else some (k, len, a, b, c)

/-- The `switch (len)` of `hash`, every case falling through to the next. -/
def hash_tail (char_is_signed : Bool) (k : List Nat) (len : Nat) (abc : Nat × Nat × Nat) :
    Nat × Nat × Nat :=
  let cv := fun i => char_to_size_type char_is_signed (k.getD i 0)
  let (a, b, c) := abc
  if 12 ≤ len then (a, b, c)
  else
    let c := if 11 ≤ len then add32 c (shl32 (cv 10) 24) else c
    let c := if 10 ≤ len then add32 c (shl32 (cv 9) 16) else c
    let c := if 9 ≤ len then add32 c (shl32 (cv 8) 8) else c
    let b := if 8 ≤ len then add32 b (shl32 (cv 7) 24) else b
    let b := if 7 ≤ len then add32 b (shl32 (cv 6) 16) else b
    let b := if 6 ≤ len then add32 b (shl32 (cv 5) 8) else b
    let b := if 5 ≤ len then add32 b (cv 4) else b
    let a := if 4 ≤ len then add32 a (shl32 (cv 3) 24) else a
    let a := if 3 ≤ len then add32 a (shl32 (cv 2) 16) else a
    let a := if 2 ≤ len then add32 a (shl32 (cv 1) 8) else a
    let a := if 1 ≤ len then add32 a (cv 0) else a
    (a, b, c)

/-- The member `hash(char const* k, std::size_t length)`.  `k` is the content
of the buffer the pointer addresses; a buffer shorter than `length` is read
past its end (undefined): `none`.  The loop runs `length / 12` times. -/
def jenkins_hash.hash (char_is_signed : Bool) (self : jenkins_hash) (k : List Nat)
    (length : Nat) : Option Nat :=
  if k.length < length then none
  else
    match hash_loop char_is_signed (length / 12 + 1) k length
        (0x9e3779b9, 0x9e3779b9, self.seed_) with
    | none => none
    | some (k, len, a, b, c) =>
      let c := add32 c (length % SIZE_TYPE_MOD)
      let (a, b, c) := hash_tail char_is_signed k len (a, b, c)
      some (detail.mix a b c).2.2

/-- A `std::string`: its bytes (any byte, NUL included). -/
abbrev std_string := List Nat

/-- The member `std::string::c_str()`: the bytes followed by a NUL. -/
def c_str (s : std_string) : List Nat := s ++ [0]

/-- The function `std::strlen`: the position of the first NUL of the buffer;
`none` when the buffer holds none (the scan leaves the buffer). -/
def strlen : List Nat → Option Nat
  | [] => none
  | b :: rest => if b = 0 then some 0 else (strlen rest).map (· + 1)

/-- The call `operator()(std::string const& key)`. -/
def jenkins_hash.call_string (char_is_signed : Bool) (self : jenkins_hash)
    (key : std_string) : Option Nat :=
  self.hash char_is_signed (c_str key) key.length

/-- The call `operator()(char const* key)`. -/
def jenkins_hash.call_cstr (char_is_signed : Bool) (self : jenkins_hash)
    (key : List Nat) : Option Nat :=
  match strlen key with
  | none => none
  | some len => self.hash char_is_signed key len

/-- The call `operator()(char const* key, std::size_t len)`. -/
def jenkins_hash.call_buffer (char_is_signed : Bool) (self : jenkins_hash)
    (key : List Nat) (len : Nat) : Option Nat :=
  self.hash char_is_signed key len

/-- The reference of the comparison, after the words "every key byte is read
as an unsigned 8-bit value and packed little-endian": four unsigned 8-bit
values, least significant first. -/
def lookup2_word (k : List Nat) (i : Nat) : Nat :=
  (k.getD i 0 % 256 + 2 ^ 8 * (k.getD (i + 1) 0 % 256) + 2 ^ 16 * (k.getD (i + 2) 0 % 256)
    + 2 ^ 24 * (k.getD (i + 3) 0 % 256)) % 2 ^ 32

/-- Bob Jenkins' published lookup2 `hash(k, length, initval)`, the twelve-byte
rounds: the first `rounds` blocks of the key are added to `(a, b, c)` and mixed. -/
def lookup2_rounds (k : List Nat) : Nat → Nat × Nat × Nat → Nat × Nat × Nat
  | 0, abc => abc
  | rounds + 1, abc =>
    let (a, b, c) := lookup2_rounds k rounds abc
    detail.mix ((a + lookup2_word k (12 * rounds)) % 2 ^ 32)
      ((b + lookup2_word k (12 * rounds + 4)) % 2 ^ 32)
      ((c + lookup2_word k (12 * rounds + 8)) % 2 ^ 32)

/-- Bob Jenkins' published lookup2 `hash(k, length, initval)` on a key of
`length` unsigned bytes: the rounds over the full blocks, then `c += length`,
then the remaining `length mod 12` bytes packed little-endian into `a`, `b`
and the upper three bytes of `c`, then the final `mix`. -/
def lookup2 (k : List Nat) (length initval : Nat) : Nat :=
  let (a, b, c) := lookup2_rounds k (length / 12) (0x9e3779b9, 0x9e3779b9, initval % 2 ^ 32)
  let rest := ((k.drop (12 * (length / 12))).take (length % 12)).map (· % 256)
  let a := (a + lookup2_word rest 0) % 2 ^ 32
  let b := (b + lookup2_word rest 4) % 2 ^ 32
  let c := (c + length + 2 ^ 8 * lookup2_word rest 8) % 2 ^ 32
  (detail.mix a b c).2.2

end hpx.util

namespace hpx

/-- The execution policies the algorithm tests pass: `seq`, `par`, `par_unseq`,
`unseq` and the task policies `seq(task)`, `par(task)`. -/
inductive execution_policy where
  | seq | par | par_unseq | unseq | seq_task | par_task
  deriving DecidableEq

/-- An `hpx::future<T>` that has been made ready with `value`. -/
structure future (α : Type) where
  value : α

/-- The member `future::get()`. -/
def future.get {α : Type} (f : future α) : α := f.value

/-- Modelled from the spec: `hpx::find_if(first, last, pred)` of
`hpx/parallel/algorithms/find.hpp`, which is not among the sources.  The range
is the list of its elements and an iterator is its offset from `first`; the
result is the offset of the first element satisfying `pred`, and the length of
the range (`last`) when there is none. -/
def find_if {α : Type} (pred : α → Bool) : List α → Nat
  | [] => 0
  | x :: rest => if pred x then 0 else find_if pred rest + 1

/-- Modelled from the spec: `hpx::find_if(policy, first, last, pred)` with an
execution policy returns the iterator the call without a policy returns. -/
def find_if_policy {α : Type} (_policy : execution_policy) (pred : α → Bool)
    (c : List α) : Nat :=
  find_if pred c

/-- Modelled from the spec: `hpx::find_if(policy(task), first, last, pred)`
returns a future holding that iterator. -/
def find_if_task {α : Type} (_policy : execution_policy) (pred : α → Bool)
    (c : List α) : future Nat :=
  ⟨find_if pred c⟩

/-- The container of the `find_if` tests: `std::vector<int> c(10007)` filled
with one value `fill = dis(gen)` and `c.at(c.size() / 2) = 1`. -/
def find_if_test_vector (fill : Int) : List Int :=
  let c := List.replicate 10007 fill
  c.set (c.length / 2) 1

/-- The test `test_find_if(IteratorTag)`: the value of its `HPX_TEST`. -/
def test_find_if (fill : Int) : Bool :=
  let c := find_if_test_vector fill
  let index := find_if (fun v => v == 1) c
  let test_index := c.length / 2
  index == test_index

/-- The test `test_find_if(ExPolicy, IteratorTag)`: the value of its `HPX_TEST`. -/
def test_find_if_policy (policy : execution_policy) (fill : Int) : Bool :=
  let c := find_if_test_vector fill
  let index := find_if_policy policy (fun v => v == 1) c
  let test_index := c.length / 2
  index == test_index

/-- The test `test_find_if_async(ExPolicy, IteratorTag)`: the value of its
`HPX_TEST`. -/
def test_find_if_async (p : execution_policy) (fill : Int) : Bool :=
  let c := find_if_test_vector fill
  let f := find_if_task p (fun v => v == 1) c
  let test_index := c.length / 2
  let res := f.get
  res == test_index

/-- Modelled from the spec: `hpx::is_sorted_until(first, last, pred)` of
`hpx/parallel/algorithms/is_sorted.hpp`, which is not among the sources.  The
result is the offset of the first element after the first one for which
`pred(*it, *(it - 1))` holds, and the length of the range (`last`) when there
is none. -/
def is_sorted_until {α : Type} (pred : α → α → Bool) : List α → Nat
  | [] => 0
  | [_] => 1
  | x :: y :: rest => if pred y x then 1 else is_sorted_until pred (y :: rest) + 1

/-- Modelled from the spec: the predicate `is_sorted_until` uses when none is
passed, `std::less`. -/
def default_less (ahead behind : Nat) : Bool := decide (ahead < behind)

/-- Modelled from the spec: the overloads of `is_sorted_until` taking an
execution policy return the iterator the call without a policy returns. -/
def is_sorted_until_policy {α : Type} (_policy : execution_policy) (pred : α → α → Bool)
    (c : List α) : Nat :=
  is_sorted_until pred c

/-- Modelled from the spec: with a task policy the iterator is delivered
through a future. -/
def is_sorted_until_task {α : Type} (_policy : execution_policy) (pred : α → α → Bool)
    (c : List α) : future Nat :=
  ⟨is_sorted_until pred c⟩

/-- The call `std::iota(begin, end, 0)` on a `std::vector<std::size_t>(size)`. -/
def iota_vector (size : Nat) : List Nat := List.range size

/-- The test `test_sorted_until1`: the value of its `HPX_TEST`. -/
def test_sorted_until1 (policy : execution_policy) : Bool :=
  let c := iota_vector 10007
  let until_it := is_sorted_until_policy policy default_less c
  let test_index := c.length
  until_it == test_index

/-- The predicate of `test_sorted_until2`, with `ignore = 20000` captured. -/
def ignore_pred (ignore : Nat) (ahead behind : Nat) : Bool :=
  decide (behind > ahead) && (behind != ignore)

/-- The test `test_sorted_until2`: the value of its `HPX_TEST`. -/
def test_sorted_until2 (policy : execution_policy) : Bool :=
  let c := iota_vector 10007
  let ignore := 20000
  let c := c.set (c.length / 2) ignore
  let until_it := is_sorted_until_policy policy (ignore_pred ignore) c
  let test_index := c.length
  until_it == test_index

/-- The test `test_sorted_until3`: the values of its two `HPX_TEST`s. -/
def test_sorted_until3 (policy : execution_policy) : Bool × Bool :=
  let c1 := iota_vector 10007
  let c2 := iota_vector 10007
  let c1 := c1.set 0 20000
  let c1 := c1.set (c1.length - 1) 0
  let c2 := c2.set (c2.length / 3) 0
  let c2 := c2.set (2 * c2.length / 3) 0
  let until1 := is_sorted_until_policy policy default_less c1
  let until2 := is_sorted_until_policy policy default_less c2
  let test_index1 := 1
  let test_index2 := c2.length / 3
  (until1 == test_index1, until2 == test_index2)

end hpx

/-! ### The FIFO benchmark `nonconcurrent_fifo_overhead.cpp` -/

namespace nonconcurrent_fifo_overhead

/-- Number of values of `std::uint64_t`. -/
def UINT64_MOD : Nat := 2 ^ 64

/-- What `main` has after `store` and `notify`: whether `--help` and
`--no-header` were given, and the globals `threads`, `iterations` and
`blocksize` (`std::uint64_t`). -/
structure command_line where
  help : Bool
  no_header : Bool
  threads : Nat
  iterations : Nat
  blocksize : Nat
  deriving DecidableEq

/-- How `main` ends. -/
inductive main_result where
  /-- The branch `if (vm.count("help"))`: the usage is printed, `return 0`. -/
  | printed_usage
  /-- The statement `throw std::invalid_argument(...)`. -/
  | threw_invalid_argument
  /-- The statement `return app_main(vm)`, reached with the global `header`. -/
  | ran_app_main (header : Bool)
  deriving DecidableEq

/-- The function `main` after the command line is parsed.  `none` when
`iterations % blocksize` is evaluated with `blocksize == 0` (undefined). -/
def main (cl : command_line) : Option main_result :=
  if cl.help then some .printed_usage
  else if cl.blocksize = 0 then none
  else if cl.iterations % cl.blocksize ≠ 0 then some .threw_invalid_argument
  else some (.ran_app_main (if cl.no_header then false else true))

/-- The operations on `double` the benchmark uses, kept abstract: `0.0`,
`x + y`, `x / n` for an unsigned count `n` converted to `double`, and
`x * 1e9`. -/
structure double_ops (α : Type) where
  zero : α
  add : α → α → α
  div_count : α → Nat → α
  times_1e9 : α → α

/-- The line `print_results` writes after the header: fields 0, 1, 2 and the
four `{:.14g}` fields 3, 4, 5, 6 in the order of the arguments of
`format_to`. -/
structure result_row (α : Type) where
  field0 : Nat
  field1 : Nat
  field2 : Nat
  field3 : α
  field4 : α
  field5 : α
  field6 : α

/-- The header lines `print_results` writes for fields 3 to 6: the field
number, its name and the container it is documented to report. -/
def header_fields : List (Nat × String × String) :=
  [(3, "WTIME_CTL_PUSH", "std::vector"), (4, "WTIME_CTL_POP", "std::vector"),
   (5, "WTIME_LF_PUSH", "hpx::lockfree::queue"), (6, "WTIME_LF_POP", "hpx::lockfree::queue")]

/-- The function `print_results(vm, elapsed_control, elapsed_lockfree)`: the
row it formats.  With `iterations != 0` every elapsed time is divided by
`threads * iterations` (a `std::uint64_t` product) and scaled by `1e9`; the
other branch (written without the comma between its fourth and fifth argument
in the source) scales only. -/
def print_results {α : Type} (ops : double_ops α) (threads iterations blocksize : Nat)
    (elapsed_control elapsed_lockfree : α × α) : result_row α :=
  if iterations ≠ 0 then
    { field0 := iterations, field1 := blocksize, field2 := threads,
      field3 := ops.times_1e9 (ops.div_count elapsed_lockfree.1
        (threads * iterations % UINT64_MOD)),
      field4 := ops.times_1e9 (ops.div_count elapsed_lockfree.2
        (threads * iterations % UINT64_MOD)),
      field5 := ops.times_1e9 (ops.div_count elapsed_control.1
        (threads * iterations % UINT64_MOD)),
      field6 := ops.times_1e9 (ops.div_count elapsed_control.2
        (threads * iterations % UINT64_MOD)) }
  else
    { field0 := iterations, field1 := blocksize, field2 := threads,
      field3 := ops.times_1e9 elapsed_lockfree.1,
      field4 := ops.times_1e9 elapsed_lockfree.2,
      field5 := ops.times_1e9 elapsed_control.1,
      field6 := ops.times_1e9 elapsed_control.2 }

/-- The summation loop of `app_main` over the per-thread pairs. -/
def total_elapsed {α : Type} (ops : double_ops α) (elapsed : List (α × α)) : α × α :=
  elapsed.foldl (fun total e => (ops.add total.1 e.1, ops.add total.2 e.2))
    (ops.zero, ops.zero)

/-- The function `app_main`: `elapsed_control[i]` and `elapsed_lockfree[i]` are
the pairs (push time, pop time) thread `i` stored in `perform_iterations`, the
first from `bench_fifo` on the `std::vector`, the second from `bench_fifo` on
the `hpx::lockfree::queue`; the totals are handed to `print_results`. -/
def app_main {α : Type} (ops : double_ops α) (threads iterations blocksize : Nat)
    (elapsed_control elapsed_lockfree : List (α × α)) : result_row α :=
  print_results ops threads iterations blocksize (total_elapsed ops elapsed_control)
    (total_elapsed ops elapsed_lockfree)

/-- Exact rational arithmetic standing in for `double`. -/
def rational_ops : double_ops ℚ :=
  { zero := 0, add := fun x y => x + y, div_count := fun x n => x / n,
    times_1e9 := fun x => x * 1000000000 }

end nonconcurrent_fifo_overhead

/-! ### The stepper of `dataflow_replay.cpp` -/

namespace dataflow_replay

/-- The conversion `static_cast<std::int64_t>(t)` of a `std::size_t`. -/
def to_int64 (t : Nat) : Int :=
  if t % 2 ^ 64 < 2 ^ 63 then ((t % 2 ^ 64 : Nat) : Int)
  else ((t % 2 ^ 64 : Nat) : Int) - 2 ^ 64

/-- Modelled from the spec: `hpx::sliding_semaphore`, declared outside the
sources.  It holds the window `nd` it was made with and a floor; `wait(t)` is
enabled exactly when `t <= floor + nd`, and `signal(s)` raises the floor to
`max(floor, s)`. -/
structure sliding_semaphore where
  max_difference : Int
  lower_limit : Int
  deriving DecidableEq

/-- Modelled from the spec: `std::make_shared<hpx::sliding_semaphore>(nd)`,
window `nd` and floor 0. -/
def sliding_semaphore.make (nd : Nat) : sliding_semaphore := ⟨(nd : Int), 0⟩

/-- Modelled from the spec: whether `sem->wait(upper_limit)` returns without
suspending. -/
def sliding_semaphore.wait_enabled (sem : sliding_semaphore) (upper_limit : Int) : Bool :=
  decide (upper_limit ≤ sem.lower_limit + sem.max_difference)

/-- Modelled from the spec: `sem->signal(lower_limit)`. -/
def sliding_semaphore.signal (sem : sliding_semaphore) (lower_limit : Int) :
    sliding_semaphore :=
  { sem with lower_limit := max sem.lower_limit lower_limit }

/-- Where the thread running the time step loop of `stepper::do_work` stands:
at the top of the body for step `t`, at `sem->wait` of step `t`, or past the
loop. -/
inductive loop_point where
  | body | waiting | finished
  deriving DecidableEq

/-- The state of the time step loop: the loop variable, the semaphore, and
the steps whose continuation `sem->signal(t)` is attached to `next[0]` and has
not run yet. -/
structure loop_state where
  t : Nat
  point : loop_point
  sem : sliding_semaphore
  pending : List Nat
  deriving DecidableEq

/-- What happens next: the loop thread takes its next action, or the
continuation attached at step `m` runs. -/
inductive event where
  | advance
  | fire (m : Nat)
  deriving DecidableEq

/-- The state when the loop of `do_work` is entered from `hpx_main`. -/
def loop_state.init (nd : Nat) : loop_state :=
  ⟨0, .body, sliding_semaphore.make nd, []⟩

/-- One event of `do_work(.., iterations, nd, .., sem)`.  At the top of the
body the dataflows of the step are created and, when `t % nd == 0`, the
continuation signalling `t` is attached; at `sem->wait(t)` the thread moves on
to `++t` only when the wait is enabled; an attached continuation runs at any
time and signals its step.  `none` when the event cannot happen (the thread
is suspended or past the loop, no such continuation is attached) or `t % nd`
is evaluated with `nd == 0`. -/
def loop_step (iterations nd : Nat) (s : loop_state) : event → Option loop_state
  | .advance =>
    match s.point with
    | .body =>
      if s.t = iterations then some { s with point := .finished }
      else if nd = 0 then none
      else some { s with point := .waiting,
                         pending := if s.t % nd = 0 then s.t :: s.pending else s.pending }
    | .waiting =>
      if s.sem.wait_enabled (to_int64 s.t) then some { s with t := s.t + 1, point := .body }
      else none
    | .finished => none
  | .fire m =>
    if m ∈ s.pending then
      some { s with sem := s.sem.signal (to_int64 m), pending := s.pending.erase m }
    else none

/-- A sequence of events from a state. -/
def loop_run (iterations nd : Nat) : loop_state → List event → Option loop_state
  | s, [] => some s
  | s, e :: rest =>
    match loop_step iterations nd s e with
    | none => none
    | some s1 => loop_run iterations nd s1 rest

/-- The most recent step up to `t` at which the loop attaches a continuation:
the largest multiple of `nd` that is at most `t`. -/
def last_signal_step (nd t : Nat) : Nat := t - t % nd

/-- What every state of the loop satisfies: the window is `nd`, and the
continuation of the most recent signalling step is attached or has run. -/
def loop_invariant (iterations nd : Nat) (s : loop_state) : Prop :=
  s.t ≤ iterations ∧ s.sem.max_difference = (nd : Int) ∧
    (s.point = .waiting → s.t < iterations ∧
      (last_signal_step nd s.t ∈ s.pending ∨
        to_int64 (last_signal_step nd s.t) ≤ s.sem.lower_limit)) ∧
    (s.point = .body → s.t ≠ 0 →
      (last_signal_step nd (s.t - 1) ∈ s.pending ∨
        to_int64 (last_signal_step nd (s.t - 1)) ≤ s.sem.lower_limit))

/-- The window every state of the loop stays in: the floor of the semaphore is
a signalling step the loop has reached (a multiple of `nd`), the loop stands
at most `nd + 1` steps above it, and every attached continuation belongs to a
signalling step of the loop that has been reached. -/
def window_invariant (iterations nd : Nat) (s : loop_state) : Prop :=
  s.t ≤ iterations ∧ s.sem.max_difference = (nd : Int) ∧
    0 ≤ s.sem.lower_limit ∧ s.sem.lower_limit ≤ (s.t : Int) ∧
    s.sem.lower_limit % (nd : Int) = 0 ∧
    (s.t : Int) ≤ s.sem.lower_limit + (nd : Int) + 1 ∧
    (∀ m ∈ s.pending, m ≤ s.t ∧ m < iterations ∧ m % nd = 0) ∧
    (s.point = .waiting → s.t < iterations)

instance (iterations nd : Nat) (s : loop_state) :
    Decidable (window_invariant iterations nd s) := by
  unfold window_invariant
  infer_instance

end dataflow_replay

/-! ### The arithmetics counter of `arithmetics_counter.cpp` -/

namespace hpx.performance_counters

/-- The enumeration `counter_type`: the enumerator the two functions test for,
and any other one. -/
inductive counter_type where
  | aggregating
  | other (code : Nat)
  deriving DecidableEq

/-- The enumeration `counter_status`. -/
inductive counter_status where
  | valid_data
  | other (code : Nat)
  deriving DecidableEq

/-- The error an `error_code` holds or an `hpx::exception` carries. -/
inductive error where
  | success
  | bad_parameter
  | other (code : Nat)
  deriving DecidableEq

/-- The members of `counter_path_elements` the two functions read. -/
structure counter_path_elements where
  countername_ : String
  parameters_ : String
  deriving DecidableEq

/-- The members of `counter_info` the two functions read. -/
structure counter_info where
  type_ : counter_type
  fullname_ : String
  deriving DecidableEq

/-- What a call `get_counter_path_elements(name, paths, ec)` leaves behind: the
status it returns, the error in `ec` and the elements stored into `paths`.  The
function itself is declared in `hpx/performance_counters/counters.hpp` and is
a parameter of the definitions below. -/
structure path_elements_result where
  status : counter_status
  ec : error
  paths : counter_path_elements
  deriving DecidableEq

namespace detail

/-- How `arithmetics_counter_creator(info, ec)` ends. -/
inductive creator_result where
  /-- The statement `return naming::invalid_gid;` reached with `ec` holding the
  given error. -/
  | invalid_gid (ec : error)
  /-- The statement `return create_arithmetics_counter(info, names, ec);`. -/
  | create_arithmetics_counter (info : counter_info) (names : List String)
  deriving DecidableEq

/-- The loop `for (std::string const& name : names)` of the creator: `false`
when some iteration takes the branch that reports `bad_parameter`, `true` when
the loop runs to its end. -/
def names_loop (get_counter_path_elements : String → path_elements_result) :
    List String → Bool
  | [] => true
  | name :: names =>
    if counter_status.valid_data ≠ (get_counter_path_elements name).status ∨
        (get_counter_path_elements name).ec ≠ error.success then false
    else names_loop get_counter_path_elements names

/-- The function `arithmetics_counter_creator(info, ec)`, called with an
`error_code` of the caller, so that `HPX_THROWS_IF(ec, e, ...)` stores `e` in
`ec` and the `return naming::invalid_gid;` after it is reached.  The library
functions `get_counter_path_elements` and
`hpx::string_util::split(names, s, is_any_of(","))` are parameters. -/
def arithmetics_counter_creator (get_counter_path_elements : String → path_elements_result)
    (split : String → List String) (info : counter_info) : creator_result :=
  if info.type_ ≠ counter_type.aggregating then
    .invalid_gid .bad_parameter
  else
    let parsed := get_counter_path_elements info.fullname_
    if parsed.ec ≠ error.success then
      .invalid_gid parsed.ec
    else if parsed.paths.parameters_ ≠ "" then
      let names := split parsed.paths.parameters_
      if names.isEmpty then
        .invalid_gid .bad_parameter
      else if names_loop get_counter_path_elements names then
        .create_arithmetics_counter info names
      else
        .invalid_gid .bad_parameter
    else
      .invalid_gid .bad_parameter

end detail

namespace server

/-- How the constructor `arithmetics_counter(info, base_counter_names)` ends:
an exception carrying the given error leaves it, or it runs to its end. -/
inductive ctor_result where
  | threw (e : error)
  | constructed
  deriving DecidableEq

/-- The constructor `arithmetics_counter(info, base_counter_names)`.  The
member initialisers run first: `base_type_holder(info)` keeps `info`, and
`counters_(base_counter_names)` builds a `performance_counter_set`, a class
declared outside the sources; `performance_counter_set names` is the error its
constructor throws, or else `counters_.size()` of the set it builds.  The body
then throws `bad_parameter` for a type other than `aggregating`, calls
`get_counter_path_elements(info.fullname_, paths)` without an `error_code`, so
that the error this function reports leaves the constructor as an exception,
and throws `bad_parameter` for the counter name `divide` with
`counters_.size() < 2`. -/
def arithmetics_counter (get_counter_path_elements : String → path_elements_result)
    (performance_counter_set : List String → Except error Nat) (info : counter_info)
    (base_counter_names : List String) : ctor_result :=
  match performance_counter_set base_counter_names with
  | .error e => .threw e
  | .ok counters_size =>
    if info.type_ ≠ counter_type.aggregating then
      .threw .bad_parameter
    else
      let parsed := get_counter_path_elements info.fullname_
      if parsed.ec ≠ error.success then
        .threw parsed.ec
      else if parsed.paths.countername_ = "divide" then
        if counters_size < 2 then .threw .bad_parameter
        else .constructed
      else .constructed

end server

/-- A name parser for the examples: a name without a leading `/` is
malformed; two arithmetics counter names carry a parameter list; every other name has
none. -/
def example_get_counter_path_elements (name : String) : path_elements_result :=
  if name = "/arithmetics/divide@/threads/count,/threads/idle" then
    ⟨.valid_data, .success, ⟨"divide", "/threads/count,/threads/idle"⟩⟩
  else if name = "/arithmetics/add@/threads/count" then
    ⟨.valid_data, .success, ⟨"add", "/threads/count"⟩⟩
  else if name.get 0 = '/' then ⟨.valid_data, .success, ⟨name, ""⟩⟩
  else ⟨.other 0, .bad_parameter, ⟨"", ""⟩⟩

/-- A counter set for the examples: it holds one counter per name and its
construction does not fail. -/
def example_performance_counter_set (names : List String) : Except error Nat :=
  .ok names.length

/-- The pieces of a character sequence between commas, in their order. -/
def example_split_chars : List Char → List (List Char)
  | [] => [[]]
  | ch :: rest =>
    if ch = ',' then [] :: example_split_chars rest
    else
      match example_split_chars rest with
      | [] => [[ch]]
      | piece :: pieces => (ch :: piece) :: pieces

/-- A splitter for the examples: the pieces of `s` between commas. -/
def example_split (s : String) : List String :=
  (example_split_chars s.toList).map String.mk

end hpx.performance_counters

/-! ### The loop algorithm `for_loop` with induction objects -/

namespace hpx.experimental

/-- Modelled from the spec: the object `induction(value, stride)` creates, its
initial value and its stride. -/
structure induction_object where
  value : Nat
  stride : Nat
  deriving DecidableEq

/-- Modelled from the spec: `hpx::experimental::induction(value)`, stride one. -/
def induction (value : Nat) : induction_object := ⟨value, 1⟩

/-- Modelled from the spec: `hpx::experimental::induction(value, stride)`. -/
def induction_stride (value stride : Nat) : induction_object := ⟨value, stride⟩

/-- Modelled from the spec: the argument an induction object contributes to the
invocation of the body at position `p`. -/
def induction_object.argument (ind : induction_object) (p : Nat) : Nat :=
  ind.value + p * ind.stride

/-- Modelled from the spec: the live-out value after a loop over `n`
positions, stored back into the variable the object was created from. -/
def induction_object.live_out (ind : induction_object) (n : Nat) : Nat :=
  ind.value + n * ind.stride

/-- Modelled from the spec: the scheduler of the policies that are not
sequenced.  It works on the positions not yet visited: each decision picks one
of them (the decision counts into the pending positions, modulo their number),
which is visited next and leaves the pending positions; when the decisions run
out, the pending positions are visited as they stand.  Whatever the decisions
are, the loop ends only when no position is pending. -/
def scheduled_order : List Nat → List Nat → List Nat
  | pending, [] => pending
  | [], _ :: _ => []
  | p :: pending, decision :: decisions =>
    let chosen := (p :: pending).getD (decision % (p :: pending).length) p
    chosen :: scheduled_order ((p :: pending).erase chosen) decisions

/-- Modelled from the spec: the order in which a loop over `n` positions visits
them.  The sequenced policies visit them in increasing order; for the other
policies the scheduler picks the next position among the pending ones,
`schedule` being the decisions it takes (any list of numbers). -/
def visiting_order (policy : execution_policy) (schedule : List Nat) (n : Nat) : List Nat :=
  match policy with
  | .seq => List.range n
  | .seq_task => List.range n
  | _ => scheduled_order (List.range n) schedule

/-- Modelled from the spec: `hpx::experimental::for_loop(policy(task), first,
last, inductions..., body)` over `n` positions, which is not among the
sources.  The body is invoked at every visited position `p` with the
arguments of the induction objects at `p`; the future holds the state the
invocations leave and the live-out values of the induction objects. -/
def for_loop {σ : Type} (policy : execution_policy) (schedule : List Nat) (n : Nat)
    (inductions : List induction_object) (body : Nat → List Nat → σ → σ) (init : σ) :
    future (σ × List Nat) :=
  ⟨((visiting_order policy schedule n).foldl
      (fun s p => body p (inductions.map (fun ind => ind.argument p)) s) init,
    inductions.map (fun ind => ind.live_out n))⟩

/-- A body that only writes down its invocation. -/
def recording_body (p : Nat) (arguments : List Nat)
    (log : List (Nat × List Nat)) : List (Nat × List Nat) :=
  log ++ [(p, arguments)]

/-- What the bodies of the tests work on: the vectors `c` and `d` and whether
every `HPX_TEST_EQ` evaluated so far held. -/
structure loop_test_state where
  c : List Nat
  d : List Nat
  tests_hold : Bool
  deriving DecidableEq

/-- The statement `std::iota(std::begin(c), std::end(c), gen())` on a vector
of `size` elements, `first` being the value `gen()` returned. -/
def iota_from (size first : Nat) : List Nat := (List.range size).map (fun k => first + k)

/-- The verification every test ends with: each element of `c` and of `d` is
42, and `count == c.size()`. -/
def verify_values (s : loop_test_state) : Bool :=
  let count := s.c.foldl (fun count _ => count + 1) 0
  s.c.all (fun v => v == 42) && s.d.all (fun v => v == 42) && (count == s.c.length)

/-- The test `test_for_loop_induction`: body `*it = 42; d[i] = 42;`. -/
def test_for_loop_induction (policy : execution_policy) (schedule : List Nat)
    (first : Nat) : Bool :=
  let c := iota_from 10007 first
  let d := List.replicate 10007 0
  let f := for_loop policy schedule c.length [induction 0]
    (fun p arguments s => { s with c := s.c.set p 42, d := s.d.set (arguments.getD 0 0) 42 })
    ⟨c, d, true⟩
  let s := f.get.1
  s.tests_hold && verify_values s

/-- The test `test_for_loop_induction_stride`: body
`*it = 42; d[i] = 42; HPX_TEST_EQ(2 * i, j);`. -/
def test_for_loop_induction_stride (policy : execution_policy) (schedule : List Nat)
    (first : Nat) : Bool :=
  let c := iota_from 10007 first
  let d := List.replicate 10007 0
  let f := for_loop policy schedule c.length [induction 0, induction_stride 0 2]
    (fun p arguments s =>
      let i := arguments.getD 0 0
      let j := arguments.getD 1 0
      { c := s.c.set p 42, d := s.d.set i 42, tests_hold := s.tests_hold && (2 * i == j) })
    ⟨c, d, true⟩
  let s := f.get.1
  s.tests_hold && verify_values s

/-- The test `test_for_loop_induction_idx`: body
`c[i] = 42; HPX_TEST_EQ(i, j);` (there is no vector `d`). -/
def test_for_loop_induction_idx (policy : execution_policy) (schedule : List Nat)
    (first : Nat) : Bool :=
  let c := iota_from 10007 first
  let f := for_loop policy schedule c.length [induction 0]
    (fun i arguments s =>
      let j := arguments.getD 0 0
      { s with c := s.c.set i 42, tests_hold := s.tests_hold && (i == j) })
    ⟨c, [], true⟩
  let s := f.get.1
  s.tests_hold && verify_values s

/-- The test `test_for_loop_induction_stride_idx`: body
`c[i] = 42; HPX_TEST_EQ(i, j); HPX_TEST_EQ(2 * i, k);`. -/
def test_for_loop_induction_stride_idx (policy : execution_policy) (schedule : List Nat)
    (first : Nat) : Bool :=
  let c := iota_from 10007 first
  let f := for_loop policy schedule c.length [induction 0, induction_stride 0 2]
    (fun i arguments s =>
      let j := arguments.getD 0 0
      let k := arguments.getD 1 0
      { s with c := s.c.set i 42,
               tests_hold := s.tests_hold && (i == j) && (2 * i == k) })
    ⟨c, [], true⟩
  let s := f.get.1
  s.tests_hold && verify_values s

/-- The test `test_for_loop_induction_life_out`: `curr` starts at 0 and is
handed to `induction(curr)`; the first component is
`HPX_TEST_EQ(curr, c.size())`, the second the remaining checks. -/
def test_for_loop_induction_life_out (policy : execution_policy) (schedule : List Nat)
    (first : Nat) : Bool × Bool :=
  let c := iota_from 10007 first
  let d := List.replicate 10007 0
  let curr := 0
  let f := for_loop policy schedule c.length [induction curr]
    (fun p arguments s => { s with c := s.c.set p 42, d := s.d.set (arguments.getD 0 0) 42 })
    ⟨c, d, true⟩
  let curr := f.get.2.getD 0 curr
  let s := f.get.1
  (curr == s.c.length, s.tests_hold && verify_values s)

/-- The test `test_for_loop_induction_stride_life_out`: the first two
components are `HPX_TEST_EQ(curr1, c.size())` and
`HPX_TEST_EQ(curr2, 2 * c.size())`, the third the remaining checks. -/
def test_for_loop_induction_stride_life_out (policy : execution_policy)
    (schedule : List Nat) (first : Nat) : Bool × Bool × Bool :=
  let c := iota_from 10007 first
  let d := List.replicate 10007 0
  let curr1 := 0
  let curr2 := 0
  let f := for_loop policy schedule c.length [induction curr1, induction_stride curr2 2]
    (fun p arguments s =>
      let i := arguments.getD 0 0
      let j := arguments.getD 1 0
      { c := s.c.set p 42, d := s.d.set i 42, tests_hold := s.tests_hold && (2 * i == j) })
    ⟨c, d, true⟩
  let curr1 := f.get.2.getD 0 curr1
  let curr2 := f.get.2.getD 1 curr2
  let s := f.get.1
  (curr1 == s.c.length, curr2 == 2 * s.c.length, s.tests_hold && verify_values s)

end hpx.experimental

/-! ### The benchmark `wait_all_timings.cpp` -/

namespace wait_all_timings

/-- Number of values of `std::size_t`. -/
def SIZE_MOD : Nat := 2 ^ 64

/-- An `hpx::future<void>` as `create_tasks` makes it. -/
inductive task where
  /-- The call `hpx::make_ready_future()`. -/
  | ready
  /-- The call `hpx::make_ready_future_after(std::chrono::microseconds(delay))`. -/
  | ready_after (delay : Nat)
  deriving DecidableEq

/-- The function `create_tasks(num_tasks, delay)`: one `push_back` for every
`i` of the loop `for (i = 0; i != num_tasks; ++i)`. -/
def create_tasks : Nat → Nat → List task
  | 0, _ => []
  | num_tasks + 1, delay =>
    create_tasks num_tasks delay ++ [if delay = 0 then task.ready else task.ready_after delay]

/-- The initialiser `((num_tasks + num_chunks) / num_chunks) - 1` of
`num_chunk_tasks`, in `std::size_t` arithmetic; `none` for the division by
`num_chunks == 0`. -/
def num_chunk_tasks (num_tasks num_chunks : Nat) : Option Nat :=
  if num_chunks = 0 then none
  else some (((num_tasks + num_chunks) % SIZE_MOD / num_chunks + SIZE_MOD - 1) % SIZE_MOD)

/-- The initialiser `num_tasks - (num_chunks - 1) * num_chunk_tasks` of
`last_num_chunk_tasks`, in `std::size_t` arithmetic. -/
def last_num_chunk_tasks (num_tasks num_chunks num_chunk_tasks : Nat) : Nat :=
  (num_tasks + SIZE_MOD -
    ((num_chunks + SIZE_MOD - 1) % SIZE_MOD * num_chunk_tasks) % SIZE_MOD) % SIZE_MOD

/-- The loop `for (c = 0; c != num_chunks - 1; ++c)
chunks.push_back(create_tasks(num_chunk_tasks, delay))`, `count` being the
number of its iterations. -/
def chunks_loop : Nat → Nat → Nat → List (List task)
  | 0, _, _ => []
  | count + 1, num_chunk_tasks, delay =>
    chunks_loop count num_chunk_tasks delay ++ [create_tasks num_chunk_tasks delay]

/-- The vector `chunks` that `wait_tasks(num_samples, num_tasks, num_chunks,
delay)` builds for each sample before it waits. -/
def wait_tasks_chunks (num_tasks num_chunks delay : Nat) : Option (List (List task)) :=
  match num_chunk_tasks num_tasks num_chunks with
  | none => none
  | some chunk_tasks =>
    some (chunks_loop ((num_chunks + SIZE_MOD - 1) % SIZE_MOD) chunk_tasks delay ++
      [create_tasks (last_num_chunk_tasks num_tasks num_chunks chunk_tasks) delay])

/-- The options `hpx_main` reads: `vm.count("no-header")` and, for each of
`samples`, `futures`, `chunks`, `delay`, the value when `vm.count` is not 0. -/
structure variables_map where
  no_header : Bool
  samples : Option Nat
  futures : Option Nat
  chunks : Option Nat
  delay : Option Nat
  deriving DecidableEq

/-- The arguments of one call of `wait_tasks`. -/
structure wait_tasks_call where
  num_samples : Nat
  num_tasks : Nat
  num_chunks : Nat
  delay : Nat
  deriving DecidableEq

/-- The function `hpx_main`: the calls of `wait_tasks` it makes, in order. -/
def hpx_main (vm : variables_map) : List wait_tasks_call :=
  let num_samples := vm.samples.getD 1000
  let num_tasks := vm.futures.getD 100
  let num_chunks := vm.chunks.getD 1
  let delay := vm.delay.getD 0
  let num_chunks := if num_chunks = 0 then 1 else num_chunks
  ⟨num_samples, num_tasks, 1, delay⟩ ::
    (if num_chunks ≠ 1 then [⟨num_samples, num_tasks, num_chunks, delay⟩] else [])

end wait_all_timings

/-! ### The partitions and the stencil of `dataflow_replay.cpp` -/

namespace dataflow_replay

/-- Number of values of `std::size_t` and `std::uint64_t`. -/
def SIZE_MOD : Nat := 2 ^ 64

/-- The index `(i - 1 + subdomains) % subdomains` of the left neighbour in
`do_work`, in `std::size_t` arithmetic; `none` for `subdomains == 0`. -/
def left_index (subdomains i : Nat) : Option Nat :=
  if subdomains = 0 then none
  else some (((i + SIZE_MOD - 1) % SIZE_MOD + subdomains) % SIZE_MOD % subdomains)

/-- The index `(i + 1) % subdomains` of the right neighbour in `do_work`. -/
def right_index (subdomains i : Nat) : Option Nat :=
  if subdomains = 0 then none else some ((i + 1) % SIZE_MOD % subdomains)

/-- The operations on `double` the stepper uses, kept abstract: the value of
a literal, `x + y`, `x - y`, `x * y` and `std::abs(x)`. -/
structure double_ops (α : Type) where
  literal : ℚ → α
  add : α → α → α
  sub : α → α → α
  mul : α → α → α
  abs : α → α

/-- The struct `partition_data`. -/
structure partition_data (α : Type) where
  data_ : List α
  size_ : Nat
  checksum_ : α
  test_value_ : α
  deriving DecidableEq

/-- The constructor `partition_data(std::size_t size)`: `size` doubles of
value `0.0`, `checksum_(0.0)`, `test_value_(0.0)`. -/
def partition_data.of_size {α : Type} (ops : double_ops α) (size : Nat) : partition_data α :=
  ⟨List.replicate size (ops.literal 0), size, ops.literal 0, ops.literal 0⟩

/-- The member `operator[](idx) const`; `none` outside the vector. -/
def partition_data.get {α : Type} (p : partition_data α) (idx : Nat) : Option α :=
  p.data_[idx]?

/-- An assignment `p[idx] = value`; `none` outside the vector. -/
def partition_data.set {α : Type} (p : partition_data α) (idx : Nat) (value : α) :
    Option (partition_data α) :=
  if idx < p.data_.length then some { p with data_ := p.data_.set idx value } else none

/-- The member `size()`. -/
def partition_data.size {α : Type} (p : partition_data α) : Nat := p.size_

/-- The member `checksum()`. -/
def partition_data.checksum {α : Type} (p : partition_data α) : α := p.checksum_

/-- The member `set_checksum()`: its body is the expression statement
`std::accumulate(data_.begin(), data_.end(), 0.0);`, whose value is not
stored anywhere. -/
def partition_data.set_checksum {α : Type} (ops : double_ops α) (p : partition_data α) :
    partition_data α :=
  let _accumulated := p.data_.foldl ops.add (ops.literal 0)
  p

/-- The member `set_test_value(test_value)`. -/
def partition_data.set_test_value {α : Type} (p : partition_data α) (test_value : α) :
    partition_data α :=
  { p with test_value_ := test_value }

/-- The member `verify_result()`: `std::abs(checksum_ - test_value_)`. -/
def partition_data.verify_result {α : Type} (ops : double_ops α) (p : partition_data α) : α :=
  ops.abs (ops.sub p.checksum_ p.test_value_)

/-- The member `resize(size)`: `data_.resize(size); size_ = size;`. -/
def partition_data.resize {α : Type} (ops : double_ops α) (p : partition_data α)
    (size : Nat) : partition_data α :=
  { p with
    data_ := p.data_.take size ++ List.replicate (size - p.data_.length) (ops.literal 0),
    size_ := size }

/-- The function `stepper::stencil`. -/
def stencil {α : Type} (ops : double_ops α) (left center right : α) : α :=
  ops.sub
    (ops.add (ops.mul (ops.mul (ops.literal (1 / 2)) (ops.literal (3 / 4))) left)
      (ops.mul (ops.literal (3 / 4)) center))
    (ops.mul (ops.mul (ops.literal (1 / 2)) (ops.literal (1 / 4))) right)

/-- The function `stepper::left_flux`. -/
def left_flux {α : Type} (ops : double_ops α) (left center : α) : α :=
  ops.sub (ops.mul (ops.literal (5 / 8)) left) (ops.mul (ops.literal (1 / 8)) center)

/-- The function `stepper::right_flux`. -/
def right_flux {α : Type} (ops : double_ops α) (center right : α) : α :=
  ops.add (ops.mul (ops.mul (ops.literal (1 / 2)) (ops.literal (3 / 4))) center)
    (ops.mul (ops.literal (9 / 8)) right)

/-- What the body of `heat_part` works on: `workspace`, the counter `j` and
the local `checksum`. -/
structure heat_state (α : Type) where
  workspace : partition_data α
  j : Nat
  checksum : α
  deriving DecidableEq

/-- A loop `for (v = start; v != start + count; ++v) body`, for a body that
may run into undefined behaviour (`none`). -/
def for_count {σ : Type} (body : Nat → σ → Option σ) : Nat → Nat → σ → Option σ
  | 0, _, s => some s
  | count + 1, start, s =>
    match body start s with
    | none => none
    | some s1 => for_count body count (start + 1) s1

/-- A statement `workspace[idx] = stencil(a, b, c)` whose operands are
element reads. -/
def store_stencil {α : Type} (ops : double_ops α) (s : heat_state α) (idx : Nat)
    (a b c : Option α) : Option (heat_state α) :=
  match a, b, c with
  | some a, some b, some c =>
    match s.workspace.set idx (stencil ops a b c) with
    | some workspace => some { s with workspace := workspace }
    | none => none
  | _, _, _ => none

/-- A statement `checksum -= flux(workspace[a], workspace[b])`. -/
def subtract_flux {α : Type} (ops : double_ops α) (flux : α → α → α) (s : heat_state α)
    (a b : Nat) : Option (heat_state α) :=
  match s.workspace.get a, s.workspace.get b with
  | some x, some y => some { s with checksum := ops.sub s.checksum (flux x y) }
  | _, _ => none

/-- A difference `a - b` of `std::size_t` values. -/
def size_sub (a b : Nat) : Nat := (a + SIZE_MOD - b % SIZE_MOD) % SIZE_MOD

/-- How a call of `heat_part` ends. -/
inductive heat_result (α : Type) where
  /-- The statement `return workspace;`. -/
  | returned (workspace : partition_data α)
  /-- The statement `throw validate_exception();`. -/
  | threw_validate_exception
  deriving DecidableEq

/-- The statements of `heat_part` from the first loop to the end of the loop
over `t`, started with the fresh `workspace`, `j = 0` and the initial
`checksum`. -/
def heat_part_body {α : Type} (ops : double_ops α)
    (left_input center_input right_input : partition_data α) (size : Nat)
    (s : heat_state α) : Option (heat_state α) := do
  let s ← for_count (fun i s => do
      let s ← store_stencil ops s s.j (left_input.get i) (left_input.get (i + 1))
        (left_input.get (i + 2))
      pure { s with j := s.j + 1 }) (size_sub size 2) 0 s
  let s ← store_stencil ops s s.j (left_input.get (size_sub size 2))
    (left_input.get (size_sub size 1)) (center_input.get 0)
  let s ← store_stencil ops s (s.j + 1) (left_input.get (size_sub size 1))
    (center_input.get 0) (center_input.get 1)
  let s := { s with j := s.j + 2 }
  let s ← for_count (fun i s => do
      let s ← store_stencil ops s s.j (center_input.get i) (center_input.get (i + 1))
        (center_input.get (i + 2))
      pure { s with j := s.j + 1 }) (size_sub size 2) 0 s
  let s ← store_stencil ops s s.j (center_input.get (size_sub size 2))
    (center_input.get (size_sub size 1)) (right_input.get 0)
  let s ← store_stencil ops s (s.j + 1) (center_input.get (size_sub size 1))
    (right_input.get 0) (right_input.get 1)
  let s := { s with j := s.j + 2 }
  let s ← for_count (fun i s => do
      let s ← store_stencil ops s s.j (right_input.get i) (right_input.get (i + 1))
        (right_input.get (i + 2))
      pure { s with j := s.j + 1 }) (size_sub size 1) 0 s
  let s ← subtract_flux ops (left_flux ops) s 0 1
  let s ← subtract_flux ops (right_flux ops) s (size_sub (3 * size % SIZE_MOD) 1)
    (3 * size % SIZE_MOD)
  for_count (fun t s => do
      let s ← subtract_flux ops (left_flux ops) s 0 1
      let s ← subtract_flux ops (right_flux ops) s
        (size_sub (size_sub (3 * size % SIZE_MOD) 1) (2 * t % SIZE_MOD))
        (size_sub (3 * size % SIZE_MOD) (2 * t % SIZE_MOD))
      for_count (fun k s =>
          store_stencil ops s k (s.workspace.get k) (s.workspace.get (k + 1))
            (s.workspace.get (k + 2)))
        (size_sub (size_sub (3 * size % SIZE_MOD) 1) (2 * t % SIZE_MOD)) 0 s)
    (size_sub size 1) 1 s

/-- The last statements of `heat_part`: `workspace.resize(size + 1);
workspace.set_checksum(); workspace.set_test_value(checksum);`, then the
`throw` under `error_flag`, else `return workspace;`. -/
def heat_part_finish {α : Type} (ops : double_ops α) (error_flag : Bool) (size : Nat)
    (s : heat_state α) : heat_result α :=
  let workspace := s.workspace.resize ops ((size + 1) % SIZE_MOD)
  let workspace := workspace.set_checksum ops
  let workspace := workspace.set_test_value s.checksum
  if error_flag then .threw_validate_exception else .returned workspace

/-- The state in which the first loop of `heat_part` starts:
`partition_data workspace(3 * size + 1); int j = 0;` and the local `checksum`,
`center0` and `right0` being `center_input[0]` and `right_input[0]`. -/
def heat_part_start {α : Type} (ops : double_ops α)
    (left_input center_input right_input : partition_data α) (size : Nat)
    (center0 right0 : α) : heat_state α :=
  ⟨partition_data.of_size ops ((3 * size + 1) % SIZE_MOD), 0,
    ops.add (ops.sub (ops.add (ops.sub left_input.checksum center0)
      center_input.checksum) right0) right_input.checksum⟩

/-- The function `stepper::heat_part(error, left_input, center_input,
right_input)`, with `size = center_input.size() - 1`; `error_flag` is the
outcome of `num > 1.0` for the random draw `num = dist_(gen)`.  `none` when an
element outside a vector is accessed. -/
def heat_part {α : Type} (ops : double_ops α) (error_flag : Bool)
    (left_input center_input right_input : partition_data α) : Option (heat_result α) :=
  match center_input.get 0, right_input.get 0 with
  | some center0, some right0 =>
    (heat_part_body ops left_input center_input right_input
      (size_sub center_input.size 1)
      (heat_part_start ops left_input center_input right_input
        (size_sub center_input.size 1) center0 right0)).map
      (heat_part_finish ops error_flag (size_sub center_input.size 1))
  | _, _ => none

/-- The fields of the workspace that no statement of `heat_part` before
`set_test_value` writes: both still hold the `0.0` of the constructor. -/
def workspace_untouched {α : Type} (ops : double_ops α) (s : heat_state α) : Prop :=
  s.workspace.checksum_ = ops.literal 0 ∧ s.workspace.test_value_ = ops.literal 0

/-- Exact rational arithmetic standing in for `double`. -/
def rational_ops : double_ops ℚ :=
  { literal := fun q => q, add := fun x y => x + y, sub := fun x y => x - y,
    mul := fun x y => x * y, abs := fun x => |x| }

end dataflow_replay

/-! ### The heap construction `make_heap` -/

namespace hpx

/-- Modelled from the spec: `std::iter_swap` on two positions of a range. -/
def iter_swap {α : Type} (xs : List α) (i j : Nat) : List α :=
  match xs[i]?, xs[j]? with
  | some a, some b => (xs.set i b).set j a
  | _, _ => xs

/-- Modelled from the spec: one comparison of the sift-down step,
`if (child < n && comp(c[largest], c[child])) largest = child;`. -/
def larger_child {α : Type} (comp : α → α → Bool) (xs : List α) (largest child : Nat) : Nat :=
  match xs[largest]?, xs[child]? with
  | some a, some b => if comp a b then child else largest
  | _, _ => largest

/-- Modelled from the spec: sifting the element at position `i` down the
implicit binary tree (children of `i` at `2 * i + 1` and `2 * i + 2`) until
neither child compares above it; `fuel` bounds the number of levels. -/
def sift_down {α : Type} (comp : α → α → Bool) : Nat → List α → Nat → List α
  | 0, xs, _ => xs
  | fuel + 1, xs, i =>
    let largest := larger_child comp xs (larger_child comp xs i (2 * i + 1)) (2 * i + 2)
    if largest = i then xs else sift_down comp fuel (iter_swap xs i largest) largest

/-- Modelled from the spec: the loop of heap construction, sifting down the
positions `start - 1`, ..., `0` in this order. -/
def make_heap_loop {α : Type} (comp : α → α → Bool) : Nat → List α → List α
  | 0, xs => xs
  | start + 1, xs => make_heap_loop comp start (sift_down comp xs.length xs start)

/-- Modelled from the spec: `hpx::make_heap(first, last, comp)` of
`hpx/parallel/algorithms/make_heap.hpp`, which is not among the sources: the
range is rearranged bottom-up, starting at the last position that has a
child. -/
def make_heap {α : Type} (comp : α → α → Bool) (xs : List α) : List α :=
  make_heap_loop comp (xs.length / 2) xs

/-- Modelled from the spec: the overloads of `make_heap` taking an execution
policy leave the range as the call without a policy does. -/
def make_heap_policy {α : Type} (_policy : execution_policy) (comp : α → α → Bool)
    (xs : List α) : List α :=
  make_heap comp xs

/-- Modelled from the spec: with a task policy the call returns a
`future<void>`; the range is the rearranged one once the future is ready. -/
def make_heap_task {α : Type} (_policy : execution_policy) (comp : α → α → Bool)
    (xs : List α) : future (List α) :=
  ⟨make_heap comp xs⟩

/-- The algorithm `std::is_heap(first, last, comp)`: no position `i >= 1`
has `comp(c[(i - 1) / 2], c[i])`. -/
def is_heap {α : Type} (comp : α → α → Bool) (xs : List α) : Bool :=
  (List.range xs.length).all (fun i =>
    match xs[(i - 1) / 2]?, xs[i]? with
    | some a, some b => i == 0 || !comp a b
    | _, _ => true)

/-- The comparator `std::greater<std::size_t>()`. -/
def std_greater (a b : Nat) : Bool := decide (a > b)

/-- What the heap construction needs of a comparator (a strict weak
ordering): `comp(a, b)` excludes `comp(b, a)`, and `!comp(a, b)` with
`!comp(b, c)` gives `!comp(a, c)`. -/
def strict_weak_order {α : Type} (comp : α → α → Bool) : Prop :=
  (∀ a b, comp a b = true → comp b a = false) ∧
    ∀ a b c, comp a b = false → comp b c = false → comp a c = false

/-- Position `j` is not below any of its children. -/
def node_ok {α : Type} (comp : α → α → Bool) (xs : List α) (j : Nat) : Prop :=
  ∀ c a b, (c = 2 * j + 1 ∨ c = 2 * j + 2) → xs[j]? = some a → xs[c]? = some b →
    comp a b = false

/-- The test `test_make_heap_small1`: all 15 values of its `HPX_TEST_EQ`,
`first` being the value of `gen()` (the same for every length here). -/
def test_make_heap_small1 (first : Nat) : Bool :=
  (List.range 15).all (fun len =>
    let c := experimental.iota_from len first
    let c := make_heap default_less c
    is_heap default_less c == true)

/-- The test `test_make_heap_small1(policy)`. -/
def test_make_heap_small1_policy (policy : execution_policy) (first : Nat) : Bool :=
  (List.range 15).all (fun len =>
    let c := experimental.iota_from len first
    let c := make_heap_policy policy default_less c
    is_heap default_less c == true)

/-- The test `test_make_heap1(policy)`: 10007 elements from 0. -/
def test_make_heap1 (policy : execution_policy) : Bool :=
  let c := experimental.iota_from 10007 0
  let c := make_heap_policy policy default_less c
  is_heap default_less c == true

/-- The test `test_make_heap2(policy)`: 25 elements from 0 and
`std::greater`. -/
def test_make_heap2 (policy : execution_policy) : Bool :=
  let c := experimental.iota_from 25 0
  let c := make_heap_policy policy std_greater c
  is_heap std_greater c == true

/-- The test `test_make_heap_async2`: 10007 elements from 0, `std::greater`,
checked after `test.wait()`. -/
def test_make_heap_async2 (p : execution_policy) : Bool :=
  let c := experimental.iota_from 10007 0
  let test := make_heap_task p std_greater c
  let c := test.get
  is_heap std_greater c == true

end hpx

/-! ### Exceptions thrown by element accesses -/

namespace hpx

/-- The exceptions the callback of a `test::decorated_iterator` throws in the
tests. -/
inductive element_exception where
  | runtime_error
  | bad_alloc
  deriving DecidableEq

/-- How a call of an algorithm (or `get()` on the future it returned) ends:
with a result, with an `hpx::exception_list` holding the given exceptions, or
with `std::bad_alloc`. -/
inductive algorithm_outcome (ρ : Type) where
  | completed (result : ρ)
  | exception_list (errors : List element_exception)
  | bad_alloc
  deriving DecidableEq

/-- Modelled from the spec: how an algorithm reports an exception raised by an
element access: `std::bad_alloc` is passed on as it is, any other exception
is collected into an `hpx::exception_list`. -/
def handle_exception {ρ : Type} : element_exception → algorithm_outcome ρ
  | .bad_alloc => .bad_alloc
  | .runtime_error => .exception_list [.runtime_error]

/-- A range read through decorated iterators: dereferencing a position either
gives its value or throws. -/
abbrev decorated_range (α : Type) : Type := List (Except element_exception α)

/-- The range `[decorated_iterator(begin, callback), decorated_iterator(end))`
of the tests: the callback `throw e` runs at every dereference. -/
def decorate {α : Type} (e : element_exception) (c : List α) : decorated_range α :=
  c.map (fun _ => Except.error e)

/-- Modelled from the spec: `find_if` on a range whose element accesses may
throw; the scan of `find_if` with the first exception reported. -/
def find_if_decorated {α : Type} (pred : α → Bool) : decorated_range α → algorithm_outcome Nat
  | [] => .completed 0
  | .error e :: _ => handle_exception e
  | .ok v :: rest =>
    if pred v then .completed 0
    else
      match find_if_decorated pred rest with
      | .completed r => .completed (r + 1)
      | .exception_list errors => .exception_list errors
      | .bad_alloc => .bad_alloc

/-- Modelled from the spec: `is_sorted_until` on a range whose element
accesses may throw; a range of fewer than two elements is not dereferenced. -/
def is_sorted_until_decorated {α : Type} (pred : α → α → Bool) :
    decorated_range α → algorithm_outcome Nat
  | [] => .completed 0
  | [_] => .completed 1
  | .error e :: _ :: _ => handle_exception e
  | .ok _ :: .error e :: _ => handle_exception e
  | .ok x :: .ok y :: rest =>
    if pred y x then .completed 1
    else
      match is_sorted_until_decorated pred (.ok y :: rest) with
      | .completed r => .completed (r + 1)
      | .exception_list errors => .exception_list errors
      | .bad_alloc => .bad_alloc

/-- The values of a decorated range when every access succeeds, else the
first exception in the order of the positions. -/
def read_all {α : Type} : decorated_range α → Except element_exception (List α)
  | [] => .ok []
  | .error e :: _ => .error e
  | .ok v :: rest =>
    match read_all rest with
    | .ok values => .ok (v :: values)
    | .error e => .error e

/-- Modelled from the spec: `make_heap` on a range whose element accesses may
throw; a range of fewer than two elements is not dereferenced, a longer one
is read at every position. -/
def make_heap_decorated {α : Type} (comp : α → α → Bool) (c : decorated_range α) :
    algorithm_outcome (decorated_range α) :=
  if c.length < 2 then .completed c
  else
    match read_all c with
    | .error e => handle_exception e
    | .ok values => .completed ((make_heap comp values).map Except.ok)

/-- Modelled from the spec: called with a policy that is not a task policy,
an algorithm ends as the call without a policy does. -/
def with_policy {ρ : Type} (_policy : execution_policy) (outcome : algorithm_outcome ρ) :
    algorithm_outcome ρ :=
  outcome

/-- Modelled from the spec: called with a task policy, an algorithm returns a
future; the exception is stored in it and rethrown by `get()`. -/
def with_task_policy {ρ : Type} (_policy : execution_policy) (outcome : algorithm_outcome ρ) :
    future (algorithm_outcome ρ) :=
  ⟨outcome⟩

/-- What a test has recorded when it ends: `caught_exception` (or
`caught_bad_alloc`), `returned_from_algorithm`, and whether one of its
`HPX_TEST(false)` statements was reached. -/
structure exception_test where
  caught : Bool
  returned_from_algorithm : Bool
  reached_test_false : Bool
  deriving DecidableEq

/-- The statements `try { algorithm; HPX_TEST(false); }
catch (hpx::exception_list const&) { caught_exception = true; }
catch (...) { HPX_TEST(false); }`. -/
def try_catch_exception_list {ρ : Type} (outcome : algorithm_outcome ρ) : exception_test :=
  match outcome with
  | .completed _ => ⟨false, true, true⟩
  | .exception_list _ => ⟨true, false, false⟩
  | .bad_alloc => ⟨false, false, true⟩

/-- The statements `try { algorithm; HPX_TEST(false); }
catch (std::bad_alloc const&) { caught_bad_alloc = true; }
catch (...) { HPX_TEST(false); }`. -/
def try_catch_bad_alloc {ρ : Type} (outcome : algorithm_outcome ρ) : exception_test :=
  match outcome with
  | .completed _ => ⟨false, true, true⟩
  | .bad_alloc => ⟨true, false, false⟩
  | .exception_list _ => ⟨false, false, true⟩

/-- The checks after the `try` block of a test without a future:
`HPX_TEST(caught_exception)`, and no `HPX_TEST(false)` was reached. -/
def exception_test.passes (t : exception_test) : Bool :=
  t.caught && !t.reached_test_false

/-- The vector of the `find_if` exception tests: `iota` from `gen() + 1`,
then `c[c.size() / 2] = 0`. -/
def find_if_exception_vector (size : Nat) (first : Int) : List Int :=
  let c := (List.range size).map (fun (k : Nat) => first + 1 + (k : Int))
  c.set (c.length / 2) 0

/-- The call `hpx::find_if(policy, decorated_iterator(begin(c), callback),
decorated_iterator(end(c)), [](auto v) { return v == int(1); })` of the tests,
the callback throwing `e`. -/
def find_if_call (policy : execution_policy) (e : element_exception) (c : List Int) :
    algorithm_outcome Nat :=
  with_policy policy (find_if_decorated (fun v => v == 1) (decorate e c))

/-- The call `hpx::make_heap(policy, decorated_iterator(begin(c), callback),
decorated_iterator(end(c)))` of the tests. -/
def make_heap_call (policy : execution_policy) (e : element_exception) (c : List Nat) :
    algorithm_outcome (decorated_range Nat) :=
  with_policy policy (make_heap_decorated default_less (decorate e c))

/-- The call `hpx::is_sorted_until(policy, decorated_iterator(begin(c),
callback), decorated_iterator(end(c), callback))` of the tests. -/
def is_sorted_until_call (policy : execution_policy) (e : element_exception) (c : List Nat) :
    algorithm_outcome Nat :=
  with_policy policy (is_sorted_until_decorated default_less (decorate e c))

/-- The vector of the `is_sorted_until` exception tests: the first half holds
`2 * dis(gen)`, the second half `2 * dis(gen) + 1`. -/
def sorted_until_exception_vector (size even odd : Nat) : List Nat :=
  std_fill (2 * odd + 1) (size - size / 2) (size / 2)
    (std_fill (2 * even) (size / 2) 0 (List.replicate size 0))

/-- The test `test_find_if_exception(policy)`. -/
def test_find_if_exception (policy : execution_policy) (first : Int) : exception_test :=
  try_catch_exception_list
    (find_if_call policy .runtime_error (find_if_exception_vector 10007 first))

/-- The test `test_find_if_bad_alloc(policy)`, on 100007 elements. -/
def test_find_if_bad_alloc (policy : execution_policy) (first : Int) : exception_test :=
  try_catch_bad_alloc (find_if_call policy .bad_alloc (find_if_exception_vector 100007 first))

/-- The test `test_make_heap_exception(policy)`. -/
def test_make_heap_exception (policy : execution_policy) (first : Nat) : exception_test :=
  try_catch_exception_list
    (make_heap_call policy .runtime_error (experimental.iota_from 10007 first))

/-- The test `test_sorted_until_bad_alloc(policy)`. -/
def test_sorted_until_bad_alloc (policy : execution_policy) (even odd : Nat) : exception_test :=
  try_catch_bad_alloc
    (is_sorted_until_call policy .bad_alloc (sorted_until_exception_vector 10007 even odd))

/-- The test `test_make_heap_exception_async(p)`: the future is obtained
(`returned_from_algorithm = true`), then `f.get()` rethrows. -/
def test_make_heap_exception_async (p : execution_policy) (first : Nat) : exception_test :=
  { try_catch_exception_list
      (with_task_policy p (make_heap_decorated default_less
        (decorate .runtime_error (experimental.iota_from 10007 first)))).get with
    returned_from_algorithm := true }

end hpx

/-! ### The test `polymorphic_pointer.cpp` of the serialization -/

namespace hpx.serialization

/-- Modelled from the spec: what an archive holds in its buffer, in the order
written: the type tag of a polymorphic object, or the bytes of an `int`. -/
inductive token where
  | type_tag (name : String)
  | int (value : Int)
  deriving DecidableEq

/-- The objects of the test: an `A` with its member `a`, and a `D` with the
member `b` of its base `B` and its own member `d` (`B` is abstract). -/
inductive object where
  | A (a : Int)
  | D (b d : Int)
  deriving DecidableEq

/-- The constructor `A()`. -/
def A_default : object := .A 8

/-- The constructor `D()`: `B()` sets `b(6)`, then `d(89)`. -/
def D_default : object := .D 6 89

/-- The free store: the object at each address handed out by `new`, `none`
once it has been deleted. -/
structure memory where
  cells : List (Option object)
  deriving DecidableEq

/-- The expression `new T(...)`: the next address, not in use before. -/
def memory.new (m : memory) (o : object) : memory × Nat :=
  (⟨m.cells ++ [some o]⟩, m.cells.length)

/-- The object a pointer refers to. -/
def memory.deref (m : memory) (p : Nat) : Option object :=
  match m.cells[p]? with
  | some cell => cell
  | none => none

/-- An assignment through a pointer. -/
def memory.store (m : memory) (p : Nat) (o : object) : memory :=
  ⟨m.cells.set p (some o)⟩

/-- The expression `delete p`. -/
def memory.delete (m : memory) (p : Nat) : memory :=
  ⟨m.cells.set p none⟩

/-- The member `A::serialize` on an output archive: `ar & a`. -/
def A_save (a : Int) (buffer : List token) : List token :=
  buffer ++ [.int a]

/-- The member `A::serialize` on an input archive: `ar & a`. -/
def A_load (buffer : List token) : Option (Int × List token) :=
  match buffer with
  | .int a :: rest => some (a, rest)
  | _ => none

/-- The member `D::serialize` on an output archive, for the object at `p`:
`b = 4711; ar & base_object<B>(*this); ar & d;`, where `B::serialize` is
`ar & b`. -/
def D_save (m : memory) (p : Nat) (buffer : List token) : Option (memory × List token) :=
  match m.deref p with
  | some (.D _ d) => some (m.store p (.D 4711 d), buffer ++ [.int 4711, .int d])
  | _ => none

/-- The member `D::serialize` on an input archive, for the object at `p`: the
same three statements, `ar & b` and `ar & d` now reading. -/
def D_load (m : memory) (p : Nat) (buffer : List token) : Option (memory × List token) :=
  match m.deref p with
  | some (.D _ d0) =>
    match buffer with
    | .int b :: .int d :: rest => some ((m.store p (.D 4711 d0)).store p (.D b d), rest)
    | _ => none
  | _ => none

/-- The tag `HPX_SERIALIZATION_POLYMORPHIC` registers for the dynamic type. -/
def type_name : object → String
  | .A _ => "A"
  | .D _ _ => "D"

/-- Modelled from the spec: the registered factory keyed by tag, giving a
default-constructed object of the class; there is none for the abstract
`B`. -/
def factory (name : String) : Option object :=
  if name = "A" then some A_default
  else if name = "D" then some D_default
  else none

/-- Modelled from the spec: `oarchive << raw_ptr(p)`: the tag of the dynamic
type of `*p`, then the object through its own `serialize`. -/
def save_raw_ptr (m : memory) (p : Nat) (buffer : List token) :
    Option (memory × List token) :=
  match m.deref p with
  | some (.A a) => some (m, A_save a (buffer ++ [.type_tag "A"]))
  | some (.D b d) => D_save m p (buffer ++ [.type_tag (type_name (.D b d))])
  | none => none

/-- Modelled from the spec: `iarchive >> raw_ptr(p)`: the tag is read, the
factory of that tag allocates a new object, the object is loaded through its
own `serialize`, and `p` is set to its address. -/
def load_raw_ptr (m : memory) (buffer : List token) : Option (memory × List token × Nat) :=
  match buffer with
  | .type_tag name :: rest =>
    match factory name with
    | some (.A a0) =>
      match A_load rest with
      | some (a, rest) => some ((m.new (.A a0)).1.store (m.new (.A a0)).2 (.A a), rest,
          (m.new (.A a0)).2)
      | none => none
    | some (.D b0 d0) =>
      match D_load (m.new (.D b0 d0)).1 (m.new (.D b0 d0)).2 rest with
      | some (m1, rest) => some (m1, rest, (m.new (.D b0 d0)).2)
      | none => none
    | none => none
  | _ => none

/-- The member `b` of the object a `B*` points to. -/
def member_b (m : memory) (p : Nat) : Option Int :=
  match m.deref p with
  | some (.D b _) => some b
  | _ => none

/-- What `main` has computed when it reaches `return`: the operands of its
five checks. -/
structure main_values where
  a_a : Int
  b1 : Nat
  b2 : Nat
  b3 : Nat
  b2_b : Int
  b1_b : Int
  b1_b_after_delete : Int
  deriving DecidableEq

/-- The function `main`, for an `A` with member `a` and a `D` with members
`b` and `d` in the place of `A()` and `new D`; `none` when an archive
operation fails or a pointer does not refer to an object. -/
def main_with (a b d : Int) : Option main_values := do
  let buffer := A_save a []
  let (m, b1) := memory.new ⟨[]⟩ (.D b d)
  let (m, buffer) ← save_raw_ptr m b1 buffer
  let (m, buffer) ← save_raw_ptr m b1 buffer
  let (a_a, buffer) ← A_load buffer
  let (m, buffer, b2) ← load_raw_ptr m buffer
  let (m, _, b3) ← load_raw_ptr m buffer
  let b2_b ← member_b m b2
  let b1_b ← member_b m b1
  let m := m.delete b2
  let m := m.delete b3
  let b1_b_after_delete ← member_b m b1
  pure ⟨a_a, b1, b2, b3, b2_b, b1_b, b1_b_after_delete⟩

/-- The function `main` of the test. -/
def main : Option main_values := main_with 8 6 89

/-- The five checks of `main`: `HPX_TEST_EQ(a.a, 8)`, `HPX_TEST_NEQ(b2, b1)`,
`HPX_TEST_NEQ(b2, b3)`, `HPX_TEST_EQ(b2->b, b1->b)` and
`HPX_TEST_EQ(b1->b, 4711)`. -/
def main_values.tests (v : main_values) : List Bool :=
  [v.a_a == 8, v.b2 != v.b1, v.b2 != v.b3, v.b2_b == v.b1_b, v.b1_b_after_delete == 4711]

end hpx.serialization

/-! ## Part II: theorems -/

namespace hpx

/-! ### The co-array -/

theorem std_fill_length {α : Type} (value : α) (count first : Nat) (out : List α) :
    (std_fill value count first out).length = out.length := by
  induction count generalizing first out with
  | zero => rfl
  | succ n ih => simp [std_fill, ih]

theorem std_fill_getElem? {α : Type} (value : α) (count first : Nat) (out : List α)
    (k : Nat) :
    (std_fill value count first out)[k]? =
      if first ≤ k ∧ k < first + count ∧ k < out.length then some value else out[k]? := by
  induction count generalizing first out with
  | zero =>
    simp only [std_fill]
    rw [if_neg (by omega)]
  | succ n ih =>
    rw [std_fill, ih, List.length_set, List.getElem?_set]
    by_cases hk : first = k
    · subst hk
      rw [if_neg (by omega), if_pos rfl]
      by_cases hlen : first < out.length
      · rw [if_pos hlen, if_pos (by omega)]
      · rw [if_neg hlen, if_neg (by omega)]
        exact (List.getElem?_eq_none (by omega)).symm
    · rw [if_neg hk]
      by_cases h : first + 1 ≤ k ∧ k < first + 1 + n ∧ k < out.length
      · rw [if_pos h, if_pos (by omega)]
      · rw [if_neg h, if_neg (by omega)]

theorem next_locality_index (j len : Nat) (hlen : 0 < len) :
    (if j % len + 1 ≠ len then j % len + 1 else 0) = (j + 1) % len := by
  have hlt : j % len < len := Nat.mod_lt _ hlen
  have hmod : (j + 1) % len = (j % len + 1) % len := by
    rw [Nat.add_mod j 1 len]
    rcases Nat.lt_or_ge 1 len with h2 | h2
    · rw [Nat.mod_eq_of_lt h2]
    · have : len = 1 := by omega
      subst this
      simp
  rw [hmod]
  by_cases h : j % len + 1 = len
  · rw [if_neg (by simpa using h)]
    conv_rhs => rw [h]
    exact (Nat.mod_self len).symm
  · rw [if_pos h]
    exact (Nat.mod_eq_of_lt (by omega)).symm

/-- Invariant of the loop of `get_unrolled_localities`: entering the `j`-th
iteration with the first `j * unroll` entries in place, the loop returns and
every entry is in place. -/
theorem get_unrolled_localities_loop_spec {α : Type} (inp : List α) (n unroll : Nat)
    (h_in : inp ≠ []) (h_unroll : 1 ≤ unroll) (h_stride : unroll < PTRDIFF_LIMIT)
    (fuel j : Nat) (out : List α)
    (h_fuel : n - j * unroll < fuel) (h_len : out.length = n)
    (h_inv : ∀ k, k < j * unroll → k < n → out[k]? = inp[(k / unroll) % inp.length]?) :
    ∃ res, get_unrolled_localities_loop inp n unroll fuel (j * unroll) (j % inp.length) out
        = some res ∧ res.length = n ∧
      ∀ k, k < n → res[k]? = inp[(k / unroll) % inp.length]? := by
  have hpos : 0 < inp.length := List.length_pos.mpr h_in
  induction fuel generalizing j out with
  | zero => omega
  | succ fuel ih =>
    rw [get_unrolled_localities_loop]
    by_cases ho : j * unroll < n
    · have hi : j % inp.length < inp.length := Nat.mod_lt _ hpos
      rw [if_pos ho, if_neg (by omega), List.getElem?_eq_getElem hi]
      simp only []
      rw [next_locality_index j inp.length hpos]
      have hstep : j * unroll + unroll = (j + 1) * unroll := by ring
      rw [hstep]
      apply ih
      · have : j * unroll < (j + 1) * unroll := by nlinarith
        omega
      · rw [std_fill_length, h_len]
      · intro k hk hkn
        rw [std_fill_getElem?]
        by_cases hlo : j * unroll ≤ k
        · have hdiv : k / unroll = j := by
            apply Nat.div_eq_of_lt_le
            · exact hlo
            · exact hk
          have hcond : j * unroll ≤ k ∧
              k < j * unroll + (min ((j + 1) * unroll) n - j * unroll) ∧ k < out.length := by
            have : min ((j + 1) * unroll) n = (j + 1) * unroll ∨
                min ((j + 1) * unroll) n = n := by
              rcases Nat.le_total ((j + 1) * unroll) n with h | h
              · exact Or.inl (Nat.min_eq_left h)
              · exact Or.inr (Nat.min_eq_right h)
            rcases this with h | h <;> rw [h] <;> omega
          rw [if_pos hcond, hdiv, List.getElem?_eq_getElem hi]
        · have hcond : ¬ (j * unroll ≤ k ∧
              k < j * unroll + (min ((j + 1) * unroll) n - j * unroll) ∧ k < out.length) := by
            omega
          rw [if_neg hcond]
          exact h_inv k (by omega) hkn
    · rw [if_neg ho]
      exact ⟨out, rfl, h_len, fun k hk => h_inv k (by omega) hk⟩

theorem get_unrolled_localities_spec {α : Type} [Inhabited α] (inp : List α)
    (num_segments unroll : Nat) (h_in : inp ≠ []) (h_unroll : 1 ≤ unroll)
    (h_stride : unroll < PTRDIFF_LIMIT) :
    ∃ out, get_unrolled_localities inp num_segments unroll = some out ∧
      out.length = num_segments ∧
      ∀ k, k < num_segments → out[k]? = inp[(k / unroll) % inp.length]? := by
  unfold get_unrolled_localities
  have h := get_unrolled_localities_loop_spec inp num_segments unroll h_in h_unroll h_stride
    (num_segments + 1) 0 (List.replicate num_segments default) (by omega) (by simp)
    (by intro k hk; omega)
  simpa using h

theorem coarray_ctor_this_image {α : Type} [Inhabited α] (N : Nat) (block : spmd_block)
    (name : String) (cosizes : detail.coarray_sizes) (segment_size : Nat)
    (localities : List α) (c : coarray α)
    (h : coarray.ctor N block name cosizes segment_size localities = some c) :
    c.this_image_ = block.this_image := by
  unfold coarray.ctor at h
  simp only [] at h
  split_ifs at h with h0 hl
  · split at h
    · exact absurd h (by simp)
    · injection h with h; subst h; rfl
  · injection h with h; subst h; rfl

/-- C1: for a co-array built by the constructor and every non-empty index pack,
`operator()` (either overload) calls the base view with a tuple of the same
length in which each `hpx::_` position holds `block.this_image()` (the value
captured in `this_image_`) and each other position holds the index passed. -/
theorem coarray_call_resolves_auto_subscript {α : Type} [Inhabited α] (N : Nat)
    (block : spmd_block) (name : String) (cosizes : detail.coarray_sizes)
    (segment_size : Nat) (localities : List α) (c : coarray α)
    (index : List detail.subscript)
    (h_ctor : coarray.ctor N block name cosizes segment_size localities = some c)
    (h_index : index ≠ []) :
    c.this_image_ = block.this_image ∧
    ∃ acc, c.call index = some acc ∧ acc.indices.length = index.length ∧
      ∀ k, k < index.length →
        (index[k]? = some .auto_subscript → acc.indices[k]? = some block.this_image) ∧
        (∀ v, index[k]? = some (.index v) → acc.indices[k]? = some v.val) := by
  have h_img := coarray_ctor_this_image N block name cosizes segment_size localities c h_ctor
  have h_fwd : ∀ k, k < index.length →
      (index[k]? = some .auto_subscript → (c.forwarded index)[k]? = some block.this_image) ∧
      (∀ v, index[k]? = some (.index v) → (c.forwarded index)[k]? = some v.val) := by
    intro k _
    refine ⟨fun hk => ?_, fun v hk => ?_⟩
    · simp [coarray.forwarded, List.getElem?_map, hk, detail.subscript.is_auto, h_img]
    · simp [coarray.forwarded, List.getElem?_map, hk, detail.subscript.is_auto,
        detail.subscript.to_size]
  have h_len : (c.forwarded index).length = index.length := by simp [coarray.forwarded]
  refine ⟨h_img, ?_⟩
  unfold coarray.call
  cases h_last : index.getLast? with
  | none => exact absurd (List.getLast?_eq_none_iff.mp h_last) h_index
  | some last =>
    by_cases h_auto : last.is_auto = true
    · exact ⟨.data (c.forwarded index), by simp [h_auto], h_len, h_fwd⟩
    · exact ⟨.element (c.forwarded index), by simp [h_auto], h_len, h_fwd⟩

/-- Image 2 of 4 calling `a(1, _)`: the automatic subscript resolves to 2. -/
theorem coarray_call_resolves_auto_subscript_witness :
    coarray.ctor 2 ⟨4, 2⟩ "a" ⟨[4, SIZE_MAX]⟩ 10 [0, 1, 2, 3] =
        some ⟨.connect_to "a_hpx_coarray", 2, [4, 4]⟩ ∧
      ([detail.subscript.index ⟨1, by decide⟩, .auto_subscript] ≠ []) ∧
      (⟨.connect_to "a_hpx_coarray", 2, [4, 4]⟩ : coarray Nat).this_image_ =
        (spmd_block.mk 4 2).this_image ∧
      ∃ acc, (⟨.connect_to "a_hpx_coarray", 2, [4, 4]⟩ : coarray Nat).call
          [.index ⟨1, by decide⟩, .auto_subscript] = some acc ∧
        acc.indices.length =
          [detail.subscript.index ⟨1, by decide⟩, .auto_subscript].length ∧
        ∀ k, k < [detail.subscript.index ⟨1, by decide⟩, .auto_subscript].length →
          ([detail.subscript.index ⟨1, by decide⟩, .auto_subscript][k]?
              = some .auto_subscript →
            acc.indices[k]? = some (spmd_block.mk 4 2).this_image) ∧
          (∀ v, [detail.subscript.index ⟨1, by decide⟩, .auto_subscript][k]?
              = some (.index v) →
            acc.indices[k]? = some v.val) :=
  ⟨by decide, by simp,
    coarray_call_resolves_auto_subscript 2 ⟨4, 2⟩ "a" ⟨[4, SIZE_MAX]⟩ 10 [0, 1, 2, 3]
      ⟨.connect_to "a_hpx_coarray", 2, [4, 4]⟩ [.index ⟨1, by decide⟩, .auto_subscript]
      (by decide) (by simp)⟩

example : (⟨.connect_to "a_hpx_coarray", 2, [4, 4]⟩ : coarray Nat).call
    [.index ⟨1, by decide⟩, .auto_subscript] = some (.data [1, 2]) := by decide

example : (⟨.connect_to "a_hpx_coarray", 2, [4, 4]⟩ : coarray Nat).call
    [.auto_subscript, .index ⟨3, by decide⟩] = some (.element [2, 3]) := by decide

/-- C2: for a non-empty locality list, every `num_segments` and every stride
`unroll >= 1`, `get_unrolled_localities` returns a vector of `num_segments`
entries whose `k`-th entry is `in[(k / unroll) mod in.size()]`: blocks of
`unroll` consecutive segments are assigned to the localities cyclically.  The
stride is taken below `2 ^ 63`, which leaves out no call the function
receives: it is private, its only call passes
`num_segments / localities.size()`, at most `num_segments`, and `num_segments`
is the number of elements of the vector `out` the function allocates first. -/
theorem get_unrolled_localities_block_cyclic {α : Type} [Inhabited α] (inp : List α)
    (num_segments unroll : Nat) (h_in : inp ≠ []) (h_unroll : 1 ≤ unroll)
    (h_stride : unroll < PTRDIFF_LIMIT) :
    ∃ out, get_unrolled_localities inp num_segments unroll = some out ∧
      out.length = num_segments ∧
      ∀ k, k < num_segments → out[k]? = inp[(k / unroll) % inp.length]? :=
  get_unrolled_localities_spec inp num_segments unroll h_in h_unroll h_stride

/-- Three localities, seven segments, blocks of two. -/
theorem get_unrolled_localities_block_cyclic_witness :
    ([10, 11, 12] ≠ ([] : List Nat)) ∧ 1 ≤ 2 ∧ 2 < PTRDIFF_LIMIT ∧
      ∃ out, get_unrolled_localities [10, 11, 12] 7 2 = some out ∧ out.length = 7 ∧
        ∀ k, k < 7 → out[k]? = [10, 11, 12][(k / 2) % [10, 11, 12].length]? :=
  ⟨by decide, by decide, by decide,
    get_unrolled_localities_block_cyclic [10, 11, 12] 7 2 (by decide) (by decide)
      (by decide)⟩

/-- C3, as stated, fails: the sizes `{_, 4}` are rejected by the `static_assert`
on the last size, and the constructor's loop over these sizes with 4 images
yields 16 segments, not 4. -/
theorem coarray_auto_four_is_not_four_partitions :
    detail.coarray_sizes.mk_sizes 2 [.auto_subscript, .index ⟨4, by decide⟩] = none ∧
      coarray.num_segments 2 4 ⟨[SIZE_MAX, 4]⟩ = 16 ∧
      coarray.num_segments 2 4 ⟨[SIZE_MAX, 4]⟩ ≠ 4 ∧
      coarray.ctor 2 ⟨4, 0⟩ "a" ⟨[SIZE_MAX, 4]⟩ 10 [0, 1, 2, 3] =
        some ⟨.allocate_and_register 160 16
          [0, 0, 0, 0, 1, 1, 1, 1, 2, 2, 2, 2, 3, 3, 3, 3] "a_hpx_coarray", 0, [4, 4]⟩ := by
  decide

/-- C3 amended: the sizes `{4, _}` are accepted; with 4 images on 4 localities
and segment size 10 image 0 computes 16 segments (160 elements, 4 consecutive
segments per locality).  The sizes `{_}` give 4 segments (40 elements, one per
locality). -/
theorem coarray_four_auto_has_sixteen_partitions (name : String) :
    detail.coarray_sizes.mk_sizes 2 [.index ⟨4, by decide⟩, .auto_subscript] =
        some ⟨[4, SIZE_MAX]⟩ ∧
      coarray.num_segments 2 4 ⟨[4, SIZE_MAX]⟩ = 16 ∧
      coarray.ctor 2 ⟨4, 0⟩ name ⟨[4, SIZE_MAX]⟩ 10 [0, 1, 2, 3] =
        some ⟨.allocate_and_register 160 16
          [0, 0, 0, 0, 1, 1, 1, 1, 2, 2, 2, 2, 3, 3, 3, 3] (name ++ "_hpx_coarray"),
          0, [4, 4]⟩ ∧
      detail.coarray_sizes.mk_sizes 1 [.auto_subscript] = some ⟨[SIZE_MAX]⟩ ∧
      coarray.num_segments 1 4 ⟨[SIZE_MAX]⟩ = 4 ∧
      coarray.ctor 1 ⟨4, 0⟩ name ⟨[SIZE_MAX]⟩ 10 [0, 1, 2, 3] =
        some ⟨.allocate_and_register 40 4 [0, 1, 2, 3] (name ++ "_hpx_coarray"),
          0, [4]⟩ := by
  have hn2 : coarray.num_segments 2 4 ⟨[4, SIZE_MAX]⟩ = 16 := by decide
  have hn1 : coarray.num_segments 1 4 ⟨[SIZE_MAX]⟩ = 4 := by decide
  have hl2 : get_unrolled_localities [0, 1, 2, 3] 16 (16 / 4) =
      some [0, 0, 0, 0, 1, 1, 1, 1, 2, 2, 2, 2, 3, 3, 3, 3] := by decide
  have hl1 : get_unrolled_localities [0, 1, 2, 3] 4 (4 / 4) = some [0, 1, 2, 3] := by decide
  have hv2 : coarray.update_view ⟨[4, SIZE_MAX]⟩ 4 = [4, 4] := by decide
  have hv1 : coarray.update_view ⟨[SIZE_MAX]⟩ 4 = [4] := by decide
  refine ⟨by decide, hn2, ?_, by decide, hn1, ?_⟩
  · have hs : 10 * 16 % SIZE_MOD = 160 := by decide
    simp [coarray.ctor, hn2, hv2, hl2, hs]
  · have hs : 10 * 4 % SIZE_MOD = 40 := by decide
    simp [coarray.ctor, hn1, hv1, hl1, hs]

theorem get_unrolled_localities_returns {α : Type} [Inhabited α] (inp : List α)
    (num_segments : Nat) (h_in : inp ≠ [])
    (h_enough : num_segments = 0 ∨
      (inp.length ≤ num_segments ∧ num_segments / inp.length < PTRDIFF_LIMIT)) :
    ∃ out, get_unrolled_localities inp num_segments (num_segments / inp.length) = some out := by
  rcases h_enough with h0 | ⟨hle, h_stride⟩
  · subst h0
    refine ⟨[], ?_⟩
    simp [get_unrolled_localities, get_unrolled_localities_loop]
  · have hpos : 0 < inp.length := List.length_pos.mpr h_in
    have h1 : 1 ≤ num_segments / inp.length := (Nat.one_le_div_iff hpos).mpr hle
    obtain ⟨out, h, _⟩ := get_unrolled_localities_spec inp num_segments
      (num_segments / inp.length) h_in h1 h_stride
    exact ⟨out, h⟩

example : get_unrolled_localities [10, 11, 12] 7 2 = some [10, 10, 11, 11, 12, 12, 10] := by
  decide

end hpx

/-! ### The Jenkins hash -/

namespace hpx.util

theorem add32_lt (x y : Nat) : add32 x y < SIZE_TYPE_MOD :=
  Nat.mod_lt _ (by decide)

theorem sub32_lt (x y : Nat) : sub32 x y < SIZE_TYPE_MOD :=
  Nat.mod_lt _ (by decide)

theorem shl32_lt (x k : Nat) : shl32 x k < SIZE_TYPE_MOD :=
  Nat.mod_lt _ (by decide)

theorem shr_lt (x k : Nat) (h : x < SIZE_TYPE_MOD) : x >>> k < SIZE_TYPE_MOD := by
  rw [Nat.shiftRight_eq_div_pow]
  exact lt_of_le_of_lt (Nat.div_le_self _ _) h

theorem xor32_lt (x y : Nat) (hx : x < SIZE_TYPE_MOD) (hy : y < SIZE_TYPE_MOD) :
    x ^^^ y < SIZE_TYPE_MOD := by
  have h : SIZE_TYPE_MOD = 2 ^ 32 := rfl
  rw [h] at hx hy ⊢
  exact Nat.xor_lt_two_pow hx hy

theorem add32_sub32 (x y : Nat) (hx : x < SIZE_TYPE_MOD) : add32 (sub32 x y) y = x := by
  unfold add32 sub32 SIZE_TYPE_MOD at *
  omega

theorem sub32_add32 (x y : Nat) (hx : x < SIZE_TYPE_MOD) : sub32 (add32 x y) y = x := by
  unfold add32 sub32 SIZE_TYPE_MOD at *
  omega

theorem unmix_round_mix_round (k1 k2 k3 : Nat) (t : Nat × Nat × Nat) (ht : words32 t) :
    unmix_round k1 k2 k3 (mix_round k1 k2 k3 t) = t := by
  obtain ⟨a, b, c⟩ := t
  obtain ⟨ha, hb, hc⟩ := ht
  simp only [] at ha hb hc
  simp only [unmix_round, mix_round, Nat.xor_cancel_right]
  have h1 : add32 (add32 (sub32 (sub32 c (sub32 (sub32 a b) c ^^^ c >>> k1))
      (sub32 (sub32 b c) (sub32 (sub32 a b) c ^^^ c >>> k1) ^^^
        shl32 (sub32 (sub32 a b) c ^^^ c >>> k1) k2))
      (sub32 (sub32 b c) (sub32 (sub32 a b) c ^^^ c >>> k1) ^^^
        shl32 (sub32 (sub32 a b) c ^^^ c >>> k1) k2))
      (sub32 (sub32 a b) c ^^^ c >>> k1) = c := by
    rw [add32_sub32 _ _ (sub32_lt _ _), add32_sub32 _ _ hc]
  rw [h1]
  have h2 : add32 (add32 (sub32 (sub32 b c) (sub32 (sub32 a b) c ^^^ c >>> k1))
      (sub32 (sub32 a b) c ^^^ c >>> k1)) c = b := by
    rw [add32_sub32 _ _ (sub32_lt _ _), add32_sub32 _ _ hb]
  rw [h2]
  rw [Nat.xor_cancel_right, add32_sub32 _ _ (sub32_lt _ _), add32_sub32 _ _ ha]

theorem mix_round_words32 (k1 k2 k3 : Nat) (t : Nat × Nat × Nat) (ht : words32 t) :
    words32 (mix_round k1 k2 k3 t) := by
  obtain ⟨a, b, c⟩ := t
  have hc : c < SIZE_TYPE_MOD := ht.2.2
  have ha : sub32 (sub32 a b) c ^^^ c >>> k1 < SIZE_TYPE_MOD :=
    xor32_lt _ _ (sub32_lt _ _) (shr_lt _ _ hc)
  have hb : sub32 (sub32 b c) (sub32 (sub32 a b) c ^^^ c >>> k1) ^^^
      shl32 (sub32 (sub32 a b) c ^^^ c >>> k1) k2 < SIZE_TYPE_MOD :=
    xor32_lt _ _ (sub32_lt _ _) (shl32_lt _ _)
  exact ⟨ha, hb, xor32_lt _ _ (sub32_lt _ _) (shr_lt _ _ hb)⟩

theorem mix_round_unmix_round (k1 k2 k3 : Nat) (t : Nat × Nat × Nat) (ht : words32 t) :
    mix_round k1 k2 k3 (unmix_round k1 k2 k3 t) = t := by
  obtain ⟨a, b, c⟩ := t
  obtain ⟨ha, hb, hc⟩ := ht
  simp only [] at ha hb hc
  simp only [unmix_round, mix_round]
  have hc1 : c ^^^ b >>> k3 < SIZE_TYPE_MOD := xor32_lt _ _ hc (shr_lt _ _ hb)
  have hb1 : b ^^^ shl32 a k2 < SIZE_TYPE_MOD := xor32_lt _ _ hb (shl32_lt _ _)
  have ha1 : a ^^^ add32 (add32 (c ^^^ b >>> k3) b) a >>> k1 < SIZE_TYPE_MOD :=
    xor32_lt _ _ ha (shr_lt _ _ (add32_lt _ _))
  rw [sub32_add32 _ _ (add32_lt _ _), sub32_add32 _ _ ha1, Nat.xor_cancel_right,
    sub32_add32 _ _ (add32_lt _ _), sub32_add32 _ _ hb1, Nat.xor_cancel_right,
    sub32_add32 _ _ (add32_lt _ _), sub32_add32 _ _ hc1, Nat.xor_cancel_right]

theorem unmix_round_words32 (k1 k2 k3 : Nat) (t : Nat × Nat × Nat) :
    words32 (unmix_round k1 k2 k3 t) :=
  ⟨add32_lt _ _, add32_lt _ _, add32_lt _ _⟩

theorem mix_eq_rounds (a b c : Nat) :
    detail.mix a b c = mix_round 3 10 15 (mix_round 12 16 5 (mix_round 13 8 13 (a, b, c))) :=
  rfl

theorem unmix_eq_rounds (a b c : Nat) :
    detail.unmix a b c =
      unmix_round 13 8 13 (unmix_round 12 16 5 (unmix_round 3 10 15 (a, b, c))) :=
  rfl

theorem unmix_mix (t : Nat × Nat × Nat) (ht : words32 t) :
    detail.unmix (detail.mix t.1 t.2.1 t.2.2).1 (detail.mix t.1 t.2.1 t.2.2).2.1
      (detail.mix t.1 t.2.1 t.2.2).2.2 = t := by
  rw [unmix_eq_rounds, mix_eq_rounds]
  simp only [Prod.mk.eta]
  rw [unmix_round_mix_round _ _ _ _
      (mix_round_words32 _ _ _ _ (mix_round_words32 _ _ _ _ ht)),
    unmix_round_mix_round _ _ _ _ (mix_round_words32 _ _ _ _ ht),
    unmix_round_mix_round _ _ _ _ ht]

theorem mix_unmix (t : Nat × Nat × Nat) (ht : words32 t) :
    detail.mix (detail.unmix t.1 t.2.1 t.2.2).1 (detail.unmix t.1 t.2.1 t.2.2).2.1
      (detail.unmix t.1 t.2.1 t.2.2).2.2 = t := by
  rw [unmix_eq_rounds, mix_eq_rounds]
  simp only [Prod.mk.eta]
  rw [mix_round_unmix_round _ _ _ _ (unmix_round_words32 _ _ _ _),
    mix_round_unmix_round _ _ _ _ (unmix_round_words32 _ _ _ _),
    mix_round_unmix_round _ _ _ _ ht]

theorem mix_words32 (t : Nat × Nat × Nat) (ht : words32 t) :
    words32 (detail.mix t.1 t.2.1 t.2.2) := by
  rw [mix_eq_rounds]
  exact mix_round_words32 _ _ _ _ (mix_round_words32 _ _ _ _ (mix_round_words32 _ _ _ _ ht))

theorem unmix_words32 (a b c : Nat) : words32 (detail.unmix a b c) := by
  rw [unmix_eq_rounds]
  exact unmix_round_words32 _ _ _ _

theorem hash_loop_returns (char_is_signed : Bool) (fuel : Nat) (k : List Nat) (len : Nat)
    (abc : Nat × Nat × Nat) (h_fuel : len / 12 < fuel) :
    ∃ r, hash_loop char_is_signed fuel k len abc = some r := by
  induction fuel generalizing k len abc with
  | zero => omega
  | succ fuel ih =>
    obtain ⟨a, b, c⟩ := abc
    rw [hash_loop]
    by_cases h12 : 12 ≤ len
    · rw [if_pos h12]
      exact ih _ _ _ (by omega)
    · rw [if_neg h12]
      exact ⟨_, rfl⟩

theorem hash_returns (char_is_signed : Bool) (self : jenkins_hash) (k : List Nat)
    (length : Nat) (h : length ≤ k.length) :
    ∃ v, self.hash char_is_signed k length = some v := by
  unfold jenkins_hash.hash
  rw [if_neg (by omega)]
  obtain ⟨⟨k1, len, a, b, c⟩, hr⟩ := hash_loop_returns char_is_signed (length / 12 + 1) k length
    (0x9e3779b9, 0x9e3779b9, self.seed_) (by omega)
  rw [hr]
  exact ⟨_, rfl⟩

theorem strlen_append_nul (s : List Nat) (tail : List Nat) (h : ∀ b ∈ s, b ≠ 0) :
    strlen (s ++ 0 :: tail) = some s.length := by
  induction s with
  | nil => simp [strlen]
  | cons b rest ih =>
    have hb : b ≠ 0 := h b (List.mem_cons_self _ _)
    have hrest : ∀ x ∈ rest, x ≠ 0 := fun x hx => h x (List.mem_cons_of_mem _ hx)
    simp [strlen, hb, ih hrest]

/-- C5, the failing input: where plain `char` is signed, the one-byte key `0x80`
with seed 0 hashes to 234979572, while the published function with unsigned
bytes gives 3928536256; where `char` is unsigned the two agree on it. -/
theorem hash_sign_extends_high_byte :
    jenkins_hash.call_buffer true ⟨0⟩ [0x80] 1 = some 234979572 ∧
      lookup2 [0x80] 1 0 = 3928536256 ∧
      jenkins_hash.call_buffer false ⟨0⟩ [0x80] 1 = some 3928536256 ∧
      jenkins_hash.call_string true ⟨0⟩ [0xc3, 0xa9] = some 754776349 ∧
      lookup2 [0xc3, 0xa9] 2 0 = 3606254209 := by
  decide

/-- A byte whose `char` value converts to `size_type` unchanged: below 256,
and below 128 where plain `char` is signed. -/
theorem char_to_size_type_plain (char_is_signed : Bool) (byte : Nat) (h : byte < 256)
    (h_sign : char_is_signed = true → byte < 128) :
    char_to_size_type char_is_signed byte = byte := by
  unfold char_to_size_type
  have hM : byte % SIZE_TYPE_MOD = byte := Nat.mod_eq_of_lt (by unfold SIZE_TYPE_MOD; omega)
  by_cases hs : char_is_signed = true
  · have := h_sign hs
    rw [if_neg (by omega), hM]
  · rw [if_neg (fun hc => hs hc.1), hM]

theorem getD_plain (char_is_signed : Bool) (k : List Nat)
    (h_bytes : ∀ b ∈ k, b < 256 ∧ (char_is_signed = true → b < 128)) (i : Nat) :
    k.getD i 0 < 256 ∧ (char_is_signed = true → k.getD i 0 < 128) := by
  rw [List.getD_eq_getElem?_getD]
  cases h : k[i]? with
  | none => simp
  | some b =>
    simp only [Option.getD_some]
    exact h_bytes b (List.getElem?_mem h)

theorem shl32_byte (x n : Nat) : shl32 x n = x * 2 ^ n % SIZE_TYPE_MOD := by
  unfold shl32
  rw [Nat.shiftLeft_eq]

theorem hash_word_eq_lookup2_word (char_is_signed : Bool) (k : List Nat)
    (h_bytes : ∀ b ∈ k, b < 256 ∧ (char_is_signed = true → b < 128)) (i : Nat) :
    hash_word char_is_signed k i = lookup2_word k i := by
  have h0 := getD_plain char_is_signed k h_bytes i
  have h1 := getD_plain char_is_signed k h_bytes (i + 1)
  have h2 := getD_plain char_is_signed k h_bytes (i + 2)
  have h3 := getD_plain char_is_signed k h_bytes (i + 3)
  unfold hash_word lookup2_word
  rw [char_to_size_type_plain _ _ h0.1 h0.2, char_to_size_type_plain _ _ h1.1 h1.2,
    char_to_size_type_plain _ _ h2.1 h2.2, char_to_size_type_plain _ _ h3.1 h3.2]
  simp only [shl32_byte, add32, SIZE_TYPE_MOD]
  generalize k.getD i 0 = x0 at *
  generalize k.getD (i + 1) 0 = x1 at *
  generalize k.getD (i + 2) 0 = x2 at *
  generalize k.getD (i + 3) 0 = x3 at *
  norm_num
  omega

theorem getD_drop_zero (k : List Nat) (n i : Nat) :
    (k.drop n).getD i 0 = k.getD (n + i) 0 := by
  simp only [List.getD_eq_getElem?_getD, List.getElem?_drop]

theorem lookup2_word_drop (k : List Nat) (n i : Nat) :
    lookup2_word (k.drop n) i = lookup2_word k (n + i) := by
  unfold lookup2_word
  simp only [getD_drop_zero, Nat.add_assoc]

theorem mem_drop_plain (char_is_signed : Bool) (k : List Nat) (n : Nat)
    (h_bytes : ∀ b ∈ k, b < 256 ∧ (char_is_signed = true → b < 128)) :
    ∀ b ∈ k.drop n, b < 256 ∧ (char_is_signed = true → b < 128) :=
  fun b hb => h_bytes b (List.mem_of_mem_drop hb)

theorem hash_loop_eq_rounds (char_is_signed : Bool) (k : List Nat) (length : Nat)
    (init : Nat × Nat × Nat)
    (h_bytes : ∀ b ∈ k, b < 256 ∧ (char_is_signed = true → b < 128))
    (fuel j : Nat) (hj : j ≤ length / 12) (h_fuel : length / 12 - j < fuel) :
    hash_loop char_is_signed fuel (k.drop (12 * j)) (length - 12 * j)
        (lookup2_rounds k j init) =
      some (k.drop (12 * (length / 12)), length - 12 * (length / 12),
        lookup2_rounds k (length / 12) init) := by
  induction fuel generalizing j with
  | zero => omega
  | succ fuel ih =>
    rcases h : lookup2_rounds k j init with ⟨a, b, c⟩
    rw [hash_loop]
    by_cases h12 : 12 ≤ length - 12 * j
    · rw [if_pos h12]
      have hnext : lookup2_rounds k (j + 1) init =
          detail.mix (add32 a (hash_word char_is_signed (k.drop (12 * j)) 0))
            (add32 b (hash_word char_is_signed (k.drop (12 * j)) 4))
            (add32 c (hash_word char_is_signed (k.drop (12 * j)) 8)) := by
        have hb := mem_drop_plain char_is_signed k (12 * j) h_bytes
        rw [lookup2_rounds, h, hash_word_eq_lookup2_word _ _ hb,
          hash_word_eq_lookup2_word _ _ hb, hash_word_eq_lookup2_word _ _ hb,
          lookup2_word_drop, lookup2_word_drop, lookup2_word_drop]
        rfl
      have hdrop : (k.drop (12 * j)).drop 12 = k.drop (12 * (j + 1)) := by
        rw [List.drop_drop, Nat.mul_succ]
      have hsub : length - 12 * j - 12 = length - 12 * (j + 1) := by omega
      simp only []
      rw [← hnext, hdrop, hsub]
      exact ih (j + 1) (by omega) (by omega)
    · rw [if_neg h12]
      have hq : j = length / 12 := by omega
      rw [← hq, h]

theorem tail_getD (k : List Nat) (len i : Nat) :
    (((k.take len).map (· % 256)).getD i 0) = if i < len then k.getD i 0 % 256 else 0 := by
  simp only [List.getD_eq_getElem?_getD, List.getElem?_map, List.getElem?_take]
  by_cases h : i < len
  · simp only [h, if_true]
    cases k[i]? <;> simp
  · simp [h]

theorem hash_tail_eq_lookup2 (char_is_signed : Bool) (k : List Nat) (len length a b c : Nat)
    (h_len : len < 12) (ha : a < SIZE_TYPE_MOD) (hb : b < SIZE_TYPE_MOD)
    (h_bytes : ∀ b ∈ k, b < 256 ∧ (char_is_signed = true → b < 128)) :
    hash_tail char_is_signed k len (a, b, add32 c (length % SIZE_TYPE_MOD)) =
      ((a + lookup2_word ((k.take len).map (· % 256)) 0) % 2 ^ 32,
        (b + lookup2_word ((k.take len).map (· % 256)) 4) % 2 ^ 32,
        (c + length + 2 ^ 8 * lookup2_word ((k.take len).map (· % 256)) 8) % 2 ^ 32) := by
  have g := getD_plain char_is_signed k h_bytes
  have cv : ∀ i, char_to_size_type char_is_signed (k.getD i 0) = k.getD i 0 :=
    fun i => char_to_size_type_plain _ _ (g i).1 (g i).2
  have hx : ∀ i, k.getD i 0 < 256 := fun i => (g i).1
  unfold hash_tail lookup2_word
  simp only [cv, tail_getD, shl32_byte, add32, SIZE_TYPE_MOD] at ha hb ⊢
  have h0 := hx 0; have h1 := hx 1; have h2 := hx 2; have h3 := hx 3
  have h4 := hx 4; have h5 := hx 5; have h6 := hx 6; have h7 := hx 7
  have h8 := hx 8; have h9 := hx 9; have h10 := hx 10
  generalize k.getD 0 0 = x0 at *
  generalize k.getD 1 0 = x1 at *
  generalize k.getD 2 0 = x2 at *
  generalize k.getD 3 0 = x3 at *
  generalize k.getD 4 0 = x4 at *
  generalize k.getD 5 0 = x5 at *
  generalize k.getD 6 0 = x6 at *
  generalize k.getD 7 0 = x7 at *
  generalize k.getD 8 0 = x8 at *
  generalize k.getD 9 0 = x9 at *
  generalize k.getD 10 0 = x10 at *
  interval_cases len <;> norm_num <;> omega

theorem lookup2_rounds_words32 (k : List Nat) (rounds : Nat) (init : Nat × Nat × Nat)
    (h : words32 init) : words32 (lookup2_rounds k rounds init) := by
  induction rounds with
  | zero => exact h
  | succ n ih =>
    rw [lookup2_rounds]
    rcases lookup2_rounds k n init with ⟨a, b, c⟩
    exact mix_words32 (_, _, _)
      ⟨Nat.mod_lt _ (by norm_num), Nat.mod_lt _ (by norm_num), Nat.mod_lt _ (by norm_num)⟩

/-- On every key whose bytes convert to `size_type` unchanged (all bytes where
plain `char` is unsigned, bytes below 128 where it is signed) `hash` returns
the value of the published lookup2 function with `initval = seed_`. -/
theorem hash_eq_lookup2_on_plain_bytes (char_is_signed : Bool) (self : jenkins_hash)
    (k : List Nat) (length : Nat) (h_len : length ≤ k.length)
    (h_seed : self.seed_ < SIZE_TYPE_MOD)
    (h_bytes : ∀ b ∈ k, b < 256 ∧ (char_is_signed = true → b < 128)) :
    self.hash char_is_signed k length = some (lookup2 k length self.seed_) := by
  have hgold : 0x9e3779b9 < SIZE_TYPE_MOD := by decide
  have hinit : words32 (0x9e3779b9, 0x9e3779b9, self.seed_) := ⟨hgold, hgold, h_seed⟩
  have hl := hash_loop_eq_rounds char_is_signed k length (0x9e3779b9, 0x9e3779b9, self.seed_)
    h_bytes (length / 12 + 1) 0 (Nat.zero_le _) (by omega)
  simp only [Nat.mul_zero, List.drop_zero, Nat.sub_zero, lookup2_rounds] at hl
  have hw := lookup2_rounds_words32 k (length / 12) _ hinit
  have hrem : length - 12 * (length / 12) = length % 12 := by omega
  have hseed : self.seed_ % 2 ^ 32 = self.seed_ := Nat.mod_eq_of_lt h_seed
  unfold jenkins_hash.hash lookup2
  rw [if_neg (by omega), hl, hseed, hrem]
  rcases hr : lookup2_rounds k (length / 12) (0x9e3779b9, 0x9e3779b9, self.seed_)
    with ⟨a, b, c⟩
  rw [hr] at hw
  simp only []
  rw [hash_tail_eq_lookup2 char_is_signed (k.drop (12 * (length / 12))) (length % 12) length
    a b c (Nat.mod_lt _ (by norm_num)) hw.1 hw.2.1
    (mem_drop_plain char_is_signed k _ h_bytes)]

/-- The key `"hpx"` with seed 5, plain `char` signed. -/
theorem hash_eq_lookup2_on_plain_bytes_witness :
    [104, 112, 120].length ≤ [104, 112, 120].length ∧
      (jenkins_hash.mk 5).seed_ < SIZE_TYPE_MOD ∧
      (∀ b ∈ [104, 112, 120], b < 256 ∧ (true = true → b < 128)) ∧
      (jenkins_hash.mk 5).hash true [104, 112, 120] 3 = some (lookup2 [104, 112, 120] 3 5) :=
  ⟨by decide, by decide, by decide,
    hash_eq_lookup2_on_plain_bytes true ⟨5⟩ [104, 112, 120] 3 (by decide) (by decide)
      (by decide)⟩

/-- C6: on triples of 32-bit words `mix` has the two-sided inverse `unmix`
(both keep the words in range), so `mix` is a bijection of such triples and
distinct triples are mixed to distinct triples. -/
theorem mix_is_reversible :
    (∀ a b c : Nat, a < SIZE_TYPE_MOD → b < SIZE_TYPE_MOD → c < SIZE_TYPE_MOD →
      words32 (detail.mix a b c) ∧
      detail.unmix (detail.mix a b c).1 (detail.mix a b c).2.1 (detail.mix a b c).2.2
        = (a, b, c)) ∧
    (∀ a b c : Nat, a < SIZE_TYPE_MOD → b < SIZE_TYPE_MOD → c < SIZE_TYPE_MOD →
      words32 (detail.unmix a b c) ∧
      detail.mix (detail.unmix a b c).1 (detail.unmix a b c).2.1 (detail.unmix a b c).2.2
        = (a, b, c)) ∧
    (∀ a b c x y z : Nat, a < SIZE_TYPE_MOD → b < SIZE_TYPE_MOD → c < SIZE_TYPE_MOD →
      x < SIZE_TYPE_MOD → y < SIZE_TYPE_MOD → z < SIZE_TYPE_MOD →
      detail.mix a b c = detail.mix x y z → (a, b, c) = (x, y, z)) := by
  refine ⟨?_, ?_, ?_⟩
  · intro a b c ha hb hc
    exact ⟨mix_words32 (a, b, c) ⟨ha, hb, hc⟩, unmix_mix (a, b, c) ⟨ha, hb, hc⟩⟩
  · intro a b c ha hb hc
    exact ⟨unmix_words32 a b c, mix_unmix (a, b, c) ⟨ha, hb, hc⟩⟩
  · intro a b c x y z ha hb hc hx hy hz h
    have h1 := unmix_mix (a, b, c) ⟨ha, hb, hc⟩
    have h2 := unmix_mix (x, y, z) ⟨hx, hy, hz⟩
    simp only [] at h1 h2
    rw [← h1, ← h2, h]

/-- The triple `(1, 2, 3)`. -/
theorem mix_is_reversible_witness :
    1 < SIZE_TYPE_MOD ∧ 2 < SIZE_TYPE_MOD ∧ 3 < SIZE_TYPE_MOD ∧
      words32 (detail.mix 1 2 3) ∧
      detail.unmix (detail.mix 1 2 3).1 (detail.mix 1 2 3).2.1 (detail.mix 1 2 3).2.2
        = (1, 2, 3) :=
  ⟨by decide, by decide, by decide,
    mix_is_reversible.1 1 2 3 (by decide) (by decide) (by decide)⟩

example : detail.mix 1 2 3 = (120349509, 1098030347, 3082062082) ∧
    detail.unmix 120349509 1098030347 3082062082 = (1, 2, 3) := by decide

/-- C7: for every string `s` the call with a `std::string` returns a hash and it
is the hash the call with `(s.c_str(), s.size())` returns; when `s` holds no NUL
byte the call with `s.c_str()` alone returns it too. -/
theorem call_operators_agree (char_is_signed : Bool) (self : jenkins_hash) (s : std_string) :
    (∃ v, self.call_string char_is_signed s = some v) ∧
      self.call_string char_is_signed s = self.call_buffer char_is_signed (c_str s) s.length ∧
      ((∀ b ∈ s, b ≠ 0) →
        self.call_cstr char_is_signed (c_str s) = self.call_string char_is_signed s) := by
  refine ⟨?_, rfl, ?_⟩
  · exact hash_returns char_is_signed self (c_str s) s.length (by simp [c_str])
  · intro h
    unfold jenkins_hash.call_cstr jenkins_hash.call_string c_str
    rw [strlen_append_nul s [] h]

/-- The string `"hpx"` hashed with seed 5. -/
theorem call_operators_agree_witness :
    (∀ b ∈ [104, 112, 120], b ≠ 0) ∧
      jenkins_hash.call_cstr true ⟨5⟩ (c_str [104, 112, 120]) =
        jenkins_hash.call_string true ⟨5⟩ [104, 112, 120] :=
  ⟨by decide, (call_operators_agree true ⟨5⟩ [104, 112, 120]).2.2 (by decide)⟩

example : jenkins_hash.call_cstr true ⟨5⟩ (c_str [104, 112, 120]) =
    jenkins_hash.call_string true ⟨5⟩ [104, 112, 120] := by decide

/-- C8: the default constructor sets seed 0 and hashes as the seed constructor
at 0 does; for every seed value `s`, a hasher built by the seed constructor and
any hasher after `set_seed(s)` return the same hash for every key and length,
through `hash` and through each call operator; two hashers with equal `seed_`
return equal hashes. -/
theorem hash_depends_on_seed_only (char_is_signed : Bool) :
    jenkins_hash.default_ctor.seed_ = 0 ∧
    (∀ (k : List Nat) (length : Nat),
      jenkins_hash.default_ctor.hash char_is_signed k length =
        (jenkins_hash.seed_ctor 0).hash char_is_signed k length) ∧
    (∀ (s : Nat) (other : jenkins_hash) (k : List Nat) (length : Nat),
      (jenkins_hash.seed_ctor s).hash char_is_signed k length =
          (other.set_seed s).hash char_is_signed k length ∧
        (jenkins_hash.seed_ctor s).call_buffer char_is_signed k length =
          (other.set_seed s).call_buffer char_is_signed k length ∧
        (jenkins_hash.seed_ctor s).call_cstr char_is_signed k =
          (other.set_seed s).call_cstr char_is_signed k ∧
        (jenkins_hash.seed_ctor s).call_string char_is_signed k =
          (other.set_seed s).call_string char_is_signed k) ∧
    (∀ (h1 h2 : jenkins_hash) (k : List Nat) (length : Nat), h1.seed_ = h2.seed_ →
      h1.hash char_is_signed k length = h2.hash char_is_signed k length) := by
  refine ⟨rfl, fun _ _ => rfl, fun _ _ _ _ => ⟨rfl, rfl, rfl, rfl⟩, ?_⟩
  intro h1 h2 k length h
  cases h1
  cases h2
  simp only [] at h
  rw [h]

example : jenkins_hash.call_string true ⟨0⟩ [97, 98, 99] = some (lookup2 [97, 98, 99] 3 0) := by
  decide

end hpx.util

/-! ### The algorithm tests -/

namespace hpx

theorem find_if_le_length {α : Type} (pred : α → Bool) (c : List α) :
    find_if pred c ≤ c.length := by
  induction c with
  | nil => simp [find_if]
  | cons x rest ih =>
    rw [find_if]
    split_ifs
    · simp
    · simpa using ih

theorem find_if_lt_length {α : Type} (pred : α → Bool) (c : List α)
    (h : ∃ x ∈ c, pred x = true) : find_if pred c < c.length := by
  induction c with
  | nil => simp at h
  | cons x rest ih =>
    rw [find_if]
    by_cases hx : pred x = true
    · simp [hx]
    · obtain ⟨y, hy, hpy⟩ := h
      rcases List.mem_cons.mp hy with rfl | hmem
      · exact absurd hpy hx
      · have := ih ⟨y, hmem, hpy⟩
        simp [hx]
        omega

theorem find_if_at {α : Type} (pred : α → Bool) (c : List α)
    (h : find_if pred c < c.length) :
    ∃ x, (c)[find_if pred c]? = some x ∧ pred x = true := by
  induction c with
  | nil => simp at h
  | cons x rest ih =>
    rw [find_if] at h ⊢
    by_cases hx : pred x = true
    · exact ⟨x, by simp [hx], hx⟩
    · simp only [hx, Bool.false_eq_true, if_false] at h ⊢
      have h1 : find_if pred rest < rest.length := by
        simp only [List.length_cons] at h
        omega
      obtain ⟨y, hy, hpy⟩ := ih h1
      exact ⟨y, by simpa using hy, hpy⟩

theorem find_if_before {α : Type} (pred : α → Bool) (c : List α) (j : Nat) (y : α)
    (hj : j < find_if pred c) (hy : (c)[j]? = some y) : pred y = false := by
  induction c generalizing j with
  | nil => simp at hy
  | cons x rest ih =>
    rw [find_if] at hj
    by_cases hx : pred x = true
    · simp [hx] at hj
    · simp only [hx, Bool.false_eq_true, if_false] at hj
      cases j with
      | zero =>
        simp at hy
        subst hy
        simpa using hx
      | succ j =>
        simp at hy
        exact ih j (by omega) hy

theorem find_if_set_replicate {α : Type} (pred : α → Bool) (n m : Nat) (v w : α)
    (hm : m < n) (hv : pred v = false) (hw : pred w = true) :
    find_if pred ((List.replicate n v).set m w) = m := by
  induction n generalizing m with
  | zero => omega
  | succ n ih =>
    rw [List.replicate_succ]
    cases m with
    | zero => simp [find_if, hw]
    | succ m =>
      rw [List.set_cons_succ, find_if]
      simp only [hv, Bool.false_eq_true, if_false]
      rw [ih m (by omega)]

theorem find_if_test_vector_result (fill : Int) (h : fill ≠ 1) :
    find_if (fun v => v == 1) (find_if_test_vector fill) = 5003 ∧
      (find_if_test_vector fill).length / 2 = 5003 := by
  have hlen : (List.replicate 10007 fill).length = 10007 := List.length_replicate _ _
  have hhalf : 10007 / 2 = 5003 := by norm_num
  unfold find_if_test_vector
  simp only [hlen, hhalf, List.length_set]
  exact ⟨find_if_set_replicate _ 10007 5003 fill 1 (by omega) (by simpa using h) (by simp),
    trivial⟩

/-- C9: for every sequence holding an element that satisfies the predicate,
`find_if` returns the position of the first such element, without a policy,
with a policy and through the future of a task policy; and for every fill value
in 2..101 the test vector (10007 copies with a 1 at index `size / 2`) yields
index `size / 2 = 5003`, so the three tests pass. -/
theorem find_if_returns_first_match :
    (∀ (α : Type) (pred : α → Bool) (c : List α), (∃ x ∈ c, pred x = true) →
      find_if pred c < c.length ∧
      (∃ x, (c)[find_if pred c]? = some x ∧ pred x = true) ∧
      (∀ j y, j < find_if pred c → (c)[j]? = some y → pred y = false) ∧
      (∀ policy, find_if_policy policy pred c = find_if pred c ∧
        (find_if_task policy pred c).get = find_if pred c)) ∧
    (∀ fill : Int, 2 ≤ fill → fill ≤ 101 →
      find_if (fun v => v == 1) (find_if_test_vector fill) =
        (find_if_test_vector fill).length / 2 ∧
      (find_if_test_vector fill).length / 2 = 5003 ∧
      test_find_if fill = true ∧
      (∀ policy, test_find_if_policy policy fill = true ∧
        test_find_if_async policy fill = true)) := by
  refine ⟨?_, ?_⟩
  · intro α pred c h
    exact ⟨find_if_lt_length pred c h, find_if_at pred c (find_if_lt_length pred c h),
      fun j y hj hy => find_if_before pred c j y hj hy, fun _ => ⟨rfl, rfl⟩⟩
  · intro fill h2 _
    obtain ⟨h1, hlen⟩ := find_if_test_vector_result fill (by omega)
    refine ⟨by rw [h1, hlen], hlen, ?_, fun _ => ⟨?_, ?_⟩⟩
    · simp only [test_find_if, h1, hlen, beq_self_eq_true]
    · simp only [test_find_if_policy, find_if_policy, h1, hlen, beq_self_eq_true]
    · simp only [test_find_if_async, find_if_task, future.get, h1, hlen, beq_self_eq_true]

/-- The sequence `5, 5, 1, 5, 1` and the predicate `v == 1`. -/
theorem find_if_returns_first_match_witness :
    (∃ x ∈ [5, 5, 1, 5, 1], (fun v : Int => v == 1) x = true) ∧
      find_if (fun v : Int => v == 1) [5, 5, 1, 5, 1] < [5, 5, 1, 5, 1].length ∧
      (∃ x, [5, 5, 1, 5, 1][find_if (fun v : Int => v == 1) [5, 5, 1, 5, 1]]? = some x ∧
        (fun v : Int => v == 1) x = true) :=
  ⟨⟨1, by decide, by decide⟩,
    (find_if_returns_first_match.1 Int (fun v => v == 1) [5, 5, 1, 5, 1]
      ⟨1, by decide, by decide⟩).1,
    (find_if_returns_first_match.1 Int (fun v => v == 1) [5, 5, 1, 5, 1]
      ⟨1, by decide, by decide⟩).2.1⟩

example : find_if (fun v : Int => v == 1) [5, 5, 1, 5, 1] = 2 := by decide

theorem is_sorted_until_le_length {α : Type} (pred : α → α → Bool) (xs : List α) :
    is_sorted_until pred xs ≤ xs.length := by
  induction xs with
  | nil => simp [is_sorted_until]
  | cons x rest ih =>
    cases rest with
    | nil => simp [is_sorted_until]
    | cons y rest =>
      rw [is_sorted_until]
      split_ifs
      · simp
      · simpa using ih

theorem is_sorted_until_pos {α : Type} (pred : α → α → Bool) (xs : List α) (h : xs ≠ []) :
    1 ≤ is_sorted_until pred xs := by
  cases xs with
  | nil => exact absurd rfl h
  | cons x rest =>
    cases rest with
    | nil => simp [is_sorted_until]
    | cons y rest =>
      rw [is_sorted_until]
      split_ifs <;> omega

theorem is_sorted_until_before {α : Type} (pred : α → α → Bool) (xs : List α) (i : Nat)
    (x y : α) (hi : i + 1 < is_sorted_until pred xs) (hx : xs[i]? = some x)
    (hy : xs[i + 1]? = some y) : pred y x = false := by
  induction xs generalizing i with
  | nil => simp at hx
  | cons a rest ih =>
    cases rest with
    | nil => simp at hy
    | cons b rest =>
      rw [is_sorted_until] at hi
      by_cases hp : pred b a = true
      · simp [hp] at hi
      · simp only [hp, Bool.false_eq_true, if_false] at hi
        cases i with
        | zero =>
          simp at hx hy
          subst hx hy
          simpa using hp
        | succ i =>
          rw [List.getElem?_cons_succ] at hx hy
          exact ih i (by omega) hx hy

theorem is_sorted_until_at {α : Type} (pred : α → α → Bool) (xs : List α)
    (h : is_sorted_until pred xs < xs.length) :
    ∃ x y, xs[is_sorted_until pred xs - 1]? = some x ∧
      xs[is_sorted_until pred xs]? = some y ∧ pred y x = true := by
  induction xs with
  | nil => simp at h
  | cons a rest ih =>
    cases rest with
    | nil => simp [is_sorted_until] at h
    | cons b rest =>
      rw [is_sorted_until] at h ⊢
      by_cases hp : pred b a = true
      · simp only [hp, if_true]
        exact ⟨a, b, by simp, by simp, hp⟩
      · simp only [hp, Bool.false_eq_true, if_false] at h ⊢
        have h1 : is_sorted_until pred (b :: rest) < (b :: rest).length := by
          simp only [List.length_cons] at h ⊢
          omega
        obtain ⟨x, y, hx, hy, hxy⟩ := ih h1
        have hpos := is_sorted_until_pos pred (b :: rest) (by simp)
        refine ⟨x, y, ?_, ?_, hxy⟩
        · have : is_sorted_until pred (b :: rest) + 1 - 1 =
              (is_sorted_until pred (b :: rest) - 1) + 1 := by omega
          rw [this, List.getElem?_cons_succ]
          exact hx
        · rw [List.getElem?_cons_succ]
          exact hy

theorem is_sorted_until_unique {α : Type} (pred : α → α → Bool) (xs : List α) (r : Nat)
    (h_le : r ≤ xs.length) (h_pos : xs ≠ [] → 1 ≤ r)
    (h_before : ∀ i x y, i + 1 < r → xs[i]? = some x → xs[i + 1]? = some y →
      pred y x = false)
    (h_at : r < xs.length → ∃ x y, xs[r - 1]? = some x ∧ xs[r]? = some y ∧ pred y x = true) :
    is_sorted_until pred xs = r := by
  induction xs generalizing r with
  | nil =>
    simp only [List.length_nil] at h_le
    simp only [is_sorted_until]
    omega
  | cons a rest ih =>
    have h1 : 1 ≤ r := h_pos (by simp)
    cases rest with
    | nil =>
      simp only [List.length_cons, List.length_nil] at h_le
      simp only [is_sorted_until]
      omega
    | cons b rest =>
      rw [is_sorted_until]
      by_cases hp : pred b a = true
      · simp only [hp, if_true]
        by_contra hne
        have := h_before 0 a b (by omega) (by simp) (by simp)
        rw [hp] at this
        exact absurd this (by simp)
      · simp only [hp, Bool.false_eq_true, if_false]
        have h2 : 2 ≤ r := by
          by_contra hlt
          have hr : r = 1 := by omega
          subst hr
          obtain ⟨x, y, hx, hy, hxy⟩ := h_at (by simp)
          simp at hx hy
          subst hx hy
          exact hp hxy
        have := ih (r - 1) (by simp only [List.length_cons] at h_le ⊢; omega)
          (fun _ => by omega)
          (fun i x y hi hx hy => h_before (i + 1) x y (by omega)
            (by rw [List.getElem?_cons_succ]; exact hx)
            (by rw [List.getElem?_cons_succ]; exact hy))
          (fun hlt => by
            obtain ⟨x, y, hx, hy, hxy⟩ := h_at (by simp only [List.length_cons] at hlt ⊢; omega)
            refine ⟨x, y, ?_, ?_, hxy⟩
            · have e : r - 1 = (r - 1 - 1) + 1 := by omega
              rw [e, List.getElem?_cons_succ] at hx
              exact hx
            · have e : r = (r - 1) + 1 := by omega
              rw [e, List.getElem?_cons_succ] at hy
              exact hy)
        omega

theorem is_sorted_until_of_fn {α : Type} (pred : α → α → Bool) (xs : List α) (f : Nat → α)
    (r : Nat) (h_f : ∀ i, i < xs.length → xs[i]? = some (f i)) (h_le : r ≤ xs.length)
    (h_pos : 0 < xs.length → 1 ≤ r)
    (h_before : ∀ i, i + 1 < r → pred (f (i + 1)) (f i) = false)
    (h_at : r < xs.length → pred (f r) (f (r - 1)) = true) :
    is_sorted_until pred xs = r := by
  apply is_sorted_until_unique pred xs r h_le
  · intro hne
    exact h_pos (List.length_pos.mpr hne)
  · intro i x y hi hx hy
    rw [h_f i (by omega)] at hx
    rw [h_f (i + 1) (by omega)] at hy
    injection hx with hx
    injection hy with hy
    rw [← hx, ← hy]
    exact h_before i hi
  · intro hlt
    have h1 := h_pos (by omega)
    exact ⟨f (r - 1), f r, h_f (r - 1) (by omega), h_f r hlt, h_at hlt⟩

theorem iota_vector_entries (size : Nat) :
    (iota_vector size).length = size ∧
      ∀ i, i < size → (iota_vector size)[i]? = some i := by
  unfold iota_vector
  exact ⟨List.length_range size, fun i hi => List.getElem?_range hi⟩

theorem set_entries {α : Type} (xs : List α) (f : Nat → α) (m : Nat) (v : α)
    (h_f : ∀ i, i < xs.length → xs[i]? = some (f i)) :
    ∀ i, i < (xs.set m v).length → (xs.set m v)[i]? = some (if i = m then v else f i) := by
  intro i hi
  rw [List.length_set] at hi
  rw [List.getElem?_set]
  by_cases h : m = i
  · subst h
    simp [hi]
  · have h2 : ¬ i = m := fun e => h e.symm
    rw [if_neg h, if_neg h2]
    exact h_f i hi

theorem sorted_until_iota : is_sorted_until default_less (iota_vector 10007) = 10007 := by
  obtain ⟨hlen, hf⟩ := iota_vector_entries 10007
  apply is_sorted_until_of_fn default_less _ (fun i => i) 10007
  · intro i hi
    exact hf i (by omega)
  · omega
  · intro _; omega
  · intro i _
    simp [default_less]
  · intro h
    omega

theorem sorted_until_first_large :
    is_sorted_until default_less ((iota_vector 10007).set 0 20000) = 1 ∧
      is_sorted_until default_less
        (((iota_vector 10007).set 0 20000).set
          (((iota_vector 10007).set 0 20000).length - 1) 0) = 1 := by
  obtain ⟨hlen, hf⟩ := iota_vector_entries 10007
  have hf0 := set_entries (iota_vector 10007) (fun i => i) 0 20000
    (fun i hi => hf i (by omega))
  have hlen0 : ((iota_vector 10007).set 0 20000).length = 10007 := by
    rw [List.length_set, hlen]
  have hf1 := set_entries _ _ (((iota_vector 10007).set 0 20000).length - 1) 0 hf0
  refine ⟨?_, ?_⟩
  · apply is_sorted_until_of_fn default_less _ _ 1 hf0
    · omega
    · intro _; omega
    · intro i hi; omega
    · intro _
      simp [default_less]
  · apply is_sorted_until_of_fn default_less _ _ 1 hf1
    · rw [List.length_set]; omega
    · intro _; omega
    · intro i hi; omega
    · intro _
      simp [default_less, hlen0]

theorem sorted_until_two_zeros :
    is_sorted_until default_less
      (((iota_vector 10007).set ((iota_vector 10007).length / 3) 0).set
        (2 * ((iota_vector 10007).set ((iota_vector 10007).length / 3) 0).length / 3) 0)
      = 3335 := by
  obtain ⟨hlen, hf⟩ := iota_vector_entries 10007
  have hf0 := set_entries (iota_vector 10007) (fun i => i) ((iota_vector 10007).length / 3) 0
    (fun i hi => hf i (by omega))
  have hlen0 : ((iota_vector 10007).set ((iota_vector 10007).length / 3) 0).length
      = 10007 := by
    rw [List.length_set, hlen]
  have hf1 := set_entries _ _
    (2 * ((iota_vector 10007).set ((iota_vector 10007).length / 3) 0).length / 3) 0 hf0
  apply is_sorted_until_of_fn default_less _ _ 3335 hf1
  · rw [List.length_set]; omega
  · intro _; omega
  · intro i hi
    simp only [List.length_set, hlen, default_less, decide_eq_false_iff_not]
    split_ifs <;> omega
  · intro _
    simp [List.length_set, hlen, default_less]

theorem sorted_until_ignored :
    is_sorted_until (ignore_pred 20000)
      ((iota_vector 10007).set ((iota_vector 10007).length / 2) 20000) = 10007 := by
  obtain ⟨hlen, hf⟩ := iota_vector_entries 10007
  have hf0 := set_entries (iota_vector 10007) (fun i => i) ((iota_vector 10007).length / 2)
    20000 (fun i hi => hf i (by omega))
  apply is_sorted_until_of_fn (ignore_pred 20000) _ _ 10007 hf0
  · rw [List.length_set]; omega
  · intro _; omega
  · intro i hi
    simp only [hlen, ignore_pred]
    split_ifs <;> simp
    all_goals omega
  · intro h
    rw [List.length_set] at h
    omega

/-- C10: for every range and predicate `is_sorted_until` returns a position
`r` (at most `last`, at least `first + 1` in a non-empty range) such that
`pred(*it, *(it - 1))` is false at every earlier position after the first and
true at `r` itself unless `r` is `last`; it is `last` when `pred` holds at no
position; the overloads with a policy and the task overloads return the same
position.  On the test vectors of size 10007: iota gives `end`; with
`c[0] = 20000` (and also with `c[size - 1] = 0`) it gives `begin + 1`; with
`c[size / 3] = 0` and `c[2 * size / 3] = 0` it gives `begin + size / 3`; with
`c[size / 2] = 20000` and the predicate ignoring 20000 it gives `end`; so the
tests pass under every policy. -/
theorem is_sorted_until_returns_first_unsorted :
    (∀ (α : Type) (pred : α → α → Bool) (xs : List α),
      is_sorted_until pred xs ≤ xs.length ∧
      (xs ≠ [] → 1 ≤ is_sorted_until pred xs) ∧
      (∀ i x y, i + 1 < is_sorted_until pred xs → xs[i]? = some x → xs[i + 1]? = some y →
        pred y x = false) ∧
      (is_sorted_until pred xs < xs.length →
        ∃ x y, xs[is_sorted_until pred xs - 1]? = some x ∧
          xs[is_sorted_until pred xs]? = some y ∧ pred y x = true) ∧
      ((∀ i x y, xs[i]? = some x → xs[i + 1]? = some y → pred y x = false) →
        is_sorted_until pred xs = xs.length) ∧
      (∀ policy, is_sorted_until_policy policy pred xs = is_sorted_until pred xs ∧
        (is_sorted_until_task policy pred xs).get = is_sorted_until pred xs)) ∧
    (is_sorted_until default_less (iota_vector 10007) = (iota_vector 10007).length ∧
      is_sorted_until default_less ((iota_vector 10007).set 0 20000) = 1 ∧
      is_sorted_until default_less
        (((iota_vector 10007).set ((iota_vector 10007).length / 3) 0).set
          (2 * ((iota_vector 10007).set ((iota_vector 10007).length / 3) 0).length / 3) 0)
        = (iota_vector 10007).length / 3 ∧
      is_sorted_until (ignore_pred 20000)
        ((iota_vector 10007).set ((iota_vector 10007).length / 2) 20000)
        = (iota_vector 10007).length) ∧
    (∀ policy, test_sorted_until1 policy = true ∧ test_sorted_until2 policy = true ∧
      test_sorted_until3 policy = (true, true)) := by
  have hlen : (iota_vector 10007).length = 10007 := (iota_vector_entries 10007).1
  have hthird : 10007 / 3 = 3335 := by norm_num
  refine ⟨?_, ⟨?_, sorted_until_first_large.1, ?_, ?_⟩, ?_⟩
  · intro α pred xs
    refine ⟨is_sorted_until_le_length pred xs, is_sorted_until_pos pred xs,
      fun i x y hi hx hy => is_sorted_until_before pred xs i x y hi hx hy,
      is_sorted_until_at pred xs, ?_, fun _ => ⟨rfl, rfl⟩⟩
    intro hnone
    by_contra hne
    have hlt : is_sorted_until pred xs < xs.length :=
      lt_of_le_of_ne (is_sorted_until_le_length pred xs) hne
    obtain ⟨x, y, hx, hy, hxy⟩ := is_sorted_until_at pred xs hlt
    have hpos : 1 ≤ is_sorted_until pred xs :=
      is_sorted_until_pos pred xs (by intro h; rw [h] at hlt; simp at hlt)
    have e : is_sorted_until pred xs = (is_sorted_until pred xs - 1) + 1 := by omega
    rw [e] at hy
    have := hnone _ x y hx hy
    rw [hxy] at this
    exact absurd this (by simp)
  · rw [sorted_until_iota, hlen]
  · rw [sorted_until_two_zeros, hlen, hthird]
  · rw [sorted_until_ignored, hlen]
  · intro policy
    refine ⟨?_, ?_, ?_⟩
    · simp only [test_sorted_until1, is_sorted_until_policy, sorted_until_iota, hlen,
        beq_self_eq_true]
    · have h2 := sorted_until_ignored
      simp only [hlen] at h2
      simp only [test_sorted_until2, is_sorted_until_policy, List.length_set, hlen, h2,
        beq_self_eq_true]
    · have h3 := sorted_until_first_large.2
      have h4 := sorted_until_two_zeros
      simp only [List.length_set, hlen, hthird] at h3 h4
      simp only [test_sorted_until3, is_sorted_until_policy, List.length_set, hlen, hthird,
        h3, h4, beq_self_eq_true]

/-- The range `1, 2, 0, 3` with the default predicate. -/
theorem is_sorted_until_returns_first_unsorted_witness :
    is_sorted_until default_less [1, 2, 0, 3] < [1, 2, 0, 3].length ∧
      ∃ x y, [1, 2, 0, 3][is_sorted_until default_less [1, 2, 0, 3] - 1]? = some x ∧
        [1, 2, 0, 3][is_sorted_until default_less [1, 2, 0, 3]]? = some y ∧
        default_less y x = true :=
  ⟨by decide,
    (is_sorted_until_returns_first_unsorted.1 Nat default_less [1, 2, 0, 3]).2.2.2.1
      (by decide)⟩

example : is_sorted_until default_less [1, 2, 0, 3] = 2 := by decide

end hpx

/-! ### The FIFO benchmark -/

namespace nonconcurrent_fifo_overhead

/-- C18, as stated, fails: with `--help` given, `iterations = 3` and
`blocksize = 2` nothing is thrown, and with `iterations = 4` and
`blocksize = 2` `app_main` is not run; `main` prints the usage and returns. -/
theorem main_help_neither_throws_nor_runs :
    3 % 2 ≠ 0 ∧ 1 ≤ 2 ∧
      main ⟨true, false, 1, 3, 2⟩ = some .printed_usage ∧
      main ⟨true, false, 1, 3, 2⟩ ≠ some .threw_invalid_argument ∧
      4 % 2 = 0 ∧ main ⟨true, false, 1, 4, 2⟩ = some .printed_usage ∧
      ∀ header, main ⟨true, false, 1, 4, 2⟩ ≠ some (.ran_app_main header) := by
  decide

/-- C18 amended: unless `--help` is given (then `main` prints the usage and
returns 0 before the check), for every `blocksize >= 1` `main` throws
`std::invalid_argument`, without reaching `app_main`, when `iterations` is not
a multiple of `blocksize`, and runs `app_main` when it is (with the header
switched off exactly by `--no-header`). -/
theorem main_checks_divisibility (cl : command_line) (h_block : 1 ≤ cl.blocksize) :
    (cl.help = true → main cl = some .printed_usage) ∧
    (cl.help = false → cl.iterations % cl.blocksize ≠ 0 →
      main cl = some .threw_invalid_argument) ∧
    (cl.help = false → cl.iterations % cl.blocksize = 0 →
      main cl = some (.ran_app_main (!cl.no_header))) := by
  have hb : cl.blocksize ≠ 0 := by omega
  refine ⟨fun h => by simp [main, h], fun h hne => by simp [main, h, hb, hne],
    fun h he => ?_⟩
  cases hn : cl.no_header <;> simp [main, h, hb, he, hn]

/-- The default options (2000000 iterations in blocks of 10000) and a stray
iteration count. -/
theorem main_checks_divisibility_witness :
    1 ≤ (command_line.mk false false 1 2000000 10000).blocksize ∧
      main ⟨false, false, 1, 2000000, 10000⟩ = some (.ran_app_main true) ∧
      main ⟨false, true, 1, 2000001, 10000⟩ = some .threw_invalid_argument :=
  ⟨by decide,
    (main_checks_divisibility ⟨false, false, 1, 2000000, 10000⟩ (by decide)).2.2 rfl
      (by decide),
    (main_checks_divisibility ⟨false, true, 1, 2000001, 10000⟩ (by decide)).2.1 rfl
      (by decide)⟩

/-- For every run, fields 3 and 4 of the printed row are computed from the
lock-free queue's totals and fields 5 and 6 from the `std::vector` control's. -/
theorem print_results_field_sources {α : Type} (ops : double_ops α)
    (threads iterations blocksize : Nat) (elapsed_control elapsed_lockfree : List (α × α))
    (h_iter : iterations ≠ 0) :
    let row := app_main ops threads iterations blocksize elapsed_control elapsed_lockfree
    let per_op := fun x => ops.times_1e9 (ops.div_count x (threads * iterations % UINT64_MOD))
    row.field3 = per_op (total_elapsed ops elapsed_lockfree).1 ∧
      row.field4 = per_op (total_elapsed ops elapsed_lockfree).2 ∧
      row.field5 = per_op (total_elapsed ops elapsed_control).1 ∧
      row.field6 = per_op (total_elapsed ops elapsed_control).2 := by
  simp [app_main, print_results, h_iter]

/-- C19, the failing input: one thread, one iteration, the control measured at
1 s per push and 2 s per pop, the lock-free queue at 3 s and 4 s.  The header
documents field 3 as the `std::vector` push time, yet the row carries the
queue's `3e9` and `4e9` in fields 3 and 4 and the control's `1e9` and `2e9` in
fields 5 and 6. -/
theorem print_results_swaps_control_and_lockfree :
    header_fields.lookup 3 = some ("WTIME_CTL_PUSH", "std::vector") ∧
      header_fields.lookup 5 = some ("WTIME_LF_PUSH", "hpx::lockfree::queue") ∧
      (app_main rational_ops 1 1 1 [(1, 2)] [(3, 4)]).field3 = 3000000000 ∧
      (app_main rational_ops 1 1 1 [(1, 2)] [(3, 4)]).field4 = 4000000000 ∧
      (app_main rational_ops 1 1 1 [(1, 2)] [(3, 4)]).field5 = 1000000000 ∧
      (app_main rational_ops 1 1 1 [(1, 2)] [(3, 4)]).field6 = 2000000000 := by
  refine ⟨by decide, by decide, ?_, ?_, ?_, ?_⟩ <;>
    norm_num [app_main, print_results, total_elapsed, rational_ops, UINT64_MOD]

end nonconcurrent_fifo_overhead

/-! ### The sliding window of `do_work` -/

namespace dataflow_replay

theorem to_int64_le_add (m t : Nat) (h_le : m ≤ t) (h_t : t < 2 ^ 64) :
    to_int64 t ≤ to_int64 m + ((t - m : Nat) : Int) := by
  unfold to_int64
  have hm : m < 2 ^ 64 := by omega
  rw [Nat.mod_eq_of_lt h_t, Nat.mod_eq_of_lt hm]
  split_ifs <;> omega

theorem last_signal_step_spec (nd t : Nat) (h_nd : 1 ≤ nd) :
    last_signal_step nd t ≤ t ∧ last_signal_step nd t % nd = 0 ∧
      t - last_signal_step nd t < nd ∧
      ∀ m, m ≤ t → m % nd = 0 → m ≤ last_signal_step nd t := by
  unfold last_signal_step
  have hlt : t % nd < nd := Nat.mod_lt _ (by omega)
  have hle : t % nd ≤ t := Nat.mod_le _ _
  have hdvd : nd ∣ t - t % nd := Nat.dvd_sub_mod t
  refine ⟨Nat.sub_le _ _, Nat.mod_eq_zero_of_dvd hdvd, by omega, ?_⟩
  intro m hm hmod
  obtain ⟨k, hk⟩ := Nat.dvd_of_mod_eq_zero hmod
  have ht := Nat.div_add_mod t nd
  have hkq : k ≤ t / nd := by
    by_contra hcon
    have h1 : t / nd + 1 ≤ k := by omega
    have h2 : nd * (t / nd + 1) ≤ nd * k := Nat.mul_le_mul_left _ h1
    have h3 : nd * (t / nd + 1) = nd * (t / nd) + nd := by ring
    omega
  have h4 : nd * k ≤ nd * (t / nd) := Nat.mul_le_mul_left _ hkq
  omega

theorem last_signal_step_pred (nd t : Nat) (h_nd : 1 ≤ nd) (h : t % nd ≠ 0) :
    last_signal_step nd t = last_signal_step nd (t - 1) := by
  unfold last_signal_step
  have ht : 1 ≤ t := by
    rcases Nat.eq_zero_or_pos t with h0 | h0
    · subst h0; simp at h
    · exact h0
  have hlt : t % nd < nd := Nat.mod_lt _ (by omega)
  have h1 := Nat.div_add_mod t nd
  have h2 : (t - 1) % nd = t % nd - 1 := by
    have e : t - 1 = (t % nd - 1) + nd * (t / nd) := by omega
    rw [e, Nat.add_mul_mod_self_left]
    exact Nat.mod_eq_of_lt (by omega)
  rw [h2]
  have hle : t % nd ≤ t := Nat.mod_le _ _
  omega

theorem loop_invariant_init (iterations nd : Nat) :
    loop_invariant iterations nd (loop_state.init nd) := by
  refine ⟨Nat.zero_le _, rfl, ?_, ?_⟩
  · intro h; simp [loop_state.init] at h
  · intro _ h; simp [loop_state.init] at h

theorem loop_invariant_step (iterations nd : Nat) (h_nd : 1 ≤ nd) (s s1 : loop_state)
    (e : event) (h_inv : loop_invariant iterations nd s)
    (h_step : loop_step iterations nd s e = some s1) :
    loop_invariant iterations nd s1 := by
  obtain ⟨h_t, h_max, h_wait, h_body⟩ := h_inv
  cases e with
  | advance =>
    simp only [loop_step] at h_step
    cases hp : s.point with
    | body =>
      rw [hp] at h_step
      simp only [] at h_step
      by_cases hfin : s.t = iterations
      · rw [if_pos hfin] at h_step
        injection h_step with h_step
        subst h_step
        exact ⟨h_t, h_max, fun h => by simp at h, fun h => by simp at h⟩
      · rw [if_neg hfin, if_neg (by omega)] at h_step
        injection h_step with h_step
        subst h_step
        refine ⟨h_t, h_max, fun _ => ⟨by simp only []; omega, ?_⟩, fun h => by simp at h⟩
        simp only []
        by_cases hmod : s.t % nd = 0
        · left
          rw [if_pos hmod]
          have : last_signal_step nd s.t = s.t := by
            unfold last_signal_step; omega
          rw [this]
          exact List.mem_cons_self _ _
        · rw [if_neg hmod, last_signal_step_pred nd s.t h_nd hmod]
          have ht0 : s.t ≠ 0 := by
            intro h0; rw [h0] at hmod; simp at hmod
          exact h_body hp ht0
    | waiting =>
      rw [hp] at h_step
      simp only [] at h_step
      by_cases hen : s.sem.wait_enabled (to_int64 s.t) = true
      · rw [if_pos hen] at h_step
        injection h_step with h_step
        subst h_step
        obtain ⟨hlt, hlast⟩ := h_wait hp
        refine ⟨by simp only []; omega, h_max, fun h => by simp at h, fun _ _ => ?_⟩
        simpa using hlast
      · rw [if_neg hen] at h_step
        exact absurd h_step (by simp)
    | finished =>
      rw [hp] at h_step
      exact absurd h_step (by simp)
  | fire m =>
    simp only [loop_step] at h_step
    by_cases hm : m ∈ s.pending
    · rw [if_pos hm] at h_step
      injection h_step with h_step
      subst h_step
      have key : ∀ k, (k ∈ s.pending ∨ to_int64 k ≤ s.sem.lower_limit) →
          (k ∈ s.pending.erase m ∨
            to_int64 k ≤ (s.sem.signal (to_int64 m)).lower_limit) := by
        intro k hk
        have hmax : s.sem.lower_limit ≤ (s.sem.signal (to_int64 m)).lower_limit :=
          le_max_left _ _
        have hmax2 : to_int64 m ≤ (s.sem.signal (to_int64 m)).lower_limit :=
          le_max_right _ _
        rcases hk with hk | hk
        · by_cases hkm : k = m
          · right; rw [hkm]; exact hmax2
          · left; exact (List.mem_erase_of_ne hkm).mpr hk
        · right; exact le_trans hk hmax
      refine ⟨h_t, h_max, fun h => ?_, fun h h0 => ?_⟩
      · exact ⟨(h_wait h).1, key _ (h_wait h).2⟩
      · exact key _ (h_body h h0)
    · rw [if_neg hm] at h_step
      exact absurd h_step (by simp)

theorem loop_invariant_run (iterations nd : Nat) (h_nd : 1 ≤ nd) (events : List event)
    (s s1 : loop_state) (h_inv : loop_invariant iterations nd s)
    (h_run : loop_run iterations nd s events = some s1) :
    loop_invariant iterations nd s1 := by
  induction events generalizing s with
  | nil =>
    simp only [loop_run] at h_run
    injection h_run with h_run
    subst h_run
    exact h_inv
  | cons e rest ih =>
    simp only [loop_run] at h_run
    cases hs : loop_step iterations nd s e with
    | none => rw [hs] at h_run; exact absurd h_run (by simp)
    | some s2 =>
      rw [hs] at h_run
      exact ih s2 (loop_invariant_step iterations nd h_nd s s2 e h_inv hs) h_run

theorem wait_enabled_of_signalled (nd : Nat) (sem : sliding_semaphore) (t : Nat)
    (h_nd : 1 ≤ nd) (h_t : t < 2 ^ 64) (h_max : sem.max_difference = (nd : Int))
    (h_floor : to_int64 (last_signal_step nd t) ≤ sem.lower_limit) :
    sem.wait_enabled (to_int64 t) = true := by
  obtain ⟨hle, _, hlt, _⟩ := last_signal_step_spec nd t h_nd
  have h := to_int64_le_add (last_signal_step nd t) t hle h_t
  unfold sliding_semaphore.wait_enabled
  rw [h_max]
  apply decide_eq_true
  omega

theorem to_int64_of_lt (t : Nat) (h_t : t < 2 ^ 63) : to_int64 t = (t : Int) := by
  unfold to_int64
  have h_mod : t % 2 ^ 64 = t := Nat.mod_eq_of_lt (by omega)
  rw [h_mod, if_pos h_t]

theorem window_invariant_init (iterations nd : Nat) :
    window_invariant iterations nd (loop_state.init nd) := by
  refine ⟨Nat.zero_le _, rfl, le_refl _, le_refl _, ?_, ?_, ?_, ?_⟩
  · simp [loop_state.init, sliding_semaphore.make]
  · simp only [loop_state.init, sliding_semaphore.make]
    omega
  · intro m hm
    simp [loop_state.init] at hm
  · intro h
    simp [loop_state.init] at h

theorem window_invariant_step (iterations nd : Nat) (h_iter : iterations ≤ 2 ^ 63)
    (s s1 : loop_state) (e : event) (h_inv : window_invariant iterations nd s)
    (h_step : loop_step iterations nd s e = some s1) :
    window_invariant iterations nd s1 := by
  obtain ⟨h_t, h_max, h_floor0, h_floor, h_mult, h_window, h_pending, h_wait⟩ := h_inv
  cases e with
  | advance =>
    simp only [loop_step] at h_step
    cases hp : s.point with
    | body =>
      rw [hp] at h_step
      simp only [] at h_step
      by_cases hfin : s.t = iterations
      · rw [if_pos hfin] at h_step
        injection h_step with h_step
        subst h_step
        exact ⟨h_t, h_max, h_floor0, h_floor, h_mult, h_window, h_pending,
          fun h => by simp at h⟩
      · by_cases hnd : nd = 0
        · rw [if_neg hfin, if_pos hnd] at h_step
          exact absurd h_step (by simp)
        · rw [if_neg hfin, if_neg hnd] at h_step
          injection h_step with h_step
          subst h_step
          refine ⟨h_t, h_max, h_floor0, h_floor, h_mult, h_window, ?_, fun _ => ?_⟩
          · intro m hm
            simp only [] at hm
            by_cases hmod : s.t % nd = 0
            · rw [if_pos hmod] at hm
              rcases List.mem_cons.mp hm with h | h
              · subst h
                exact ⟨le_refl _, by omega, hmod⟩
              · exact h_pending m h
            · rw [if_neg hmod] at hm
              exact h_pending m hm
          · simp only []
            omega
    | waiting =>
      rw [hp] at h_step
      simp only [] at h_step
      by_cases hen : s.sem.wait_enabled (to_int64 s.t) = true
      · rw [if_pos hen] at h_step
        injection h_step with h_step
        subst h_step
        have hlt := h_wait hp
        rw [to_int64_of_lt s.t (by omega)] at hen
        unfold sliding_semaphore.wait_enabled at hen
        rw [h_max] at hen
        have hen2 := of_decide_eq_true hen
        refine ⟨by simp only []; omega, h_max, h_floor0, ?_, h_mult, ?_, ?_,
          fun h => by simp at h⟩
        · simp only []
          push_cast
          omega
        · simp only []
          push_cast
          omega
        · intro m hm
          have := h_pending m hm
          simp only []
          omega
      · rw [if_neg hen] at h_step
        exact absurd h_step (by simp)
    | finished =>
      rw [hp] at h_step
      exact absurd h_step (by simp)
  | fire m =>
    simp only [loop_step] at h_step
    by_cases hm : m ∈ s.pending
    · rw [if_pos hm] at h_step
      injection h_step with h_step
      subst h_step
      have hm2 := h_pending m hm
      have h_sig : (s.sem.signal (to_int64 m)).lower_limit = max s.sem.lower_limit (m : Int) := by
        rw [← to_int64_of_lt m (by omega)]
        rfl
      have h_m_mult : (m : Int) % (nd : Int) = 0 := by
        have h := congrArg (Nat.cast : Nat → Int) hm2.2.2
        push_cast at h
        exact h
      refine ⟨h_t, h_max, ?_, ?_, ?_, ?_, ?_, h_wait⟩
      · simp only [h_sig]
        omega
      · simp only [h_sig]
        omega
      · simp only [h_sig]
        rcases max_choice s.sem.lower_limit (m : Int) with h | h
        · rw [h]
          exact h_mult
        · rw [h]
          exact h_m_mult
      · simp only [h_sig]
        omega
      · intro k hk
        exact h_pending k (List.mem_of_mem_erase hk)
    · rw [if_neg hm] at h_step
      exact absurd h_step (by simp)

theorem window_invariant_run (iterations nd : Nat) (h_iter : iterations ≤ 2 ^ 63)
    (events : List event) (s s1 : loop_state) (h_inv : window_invariant iterations nd s)
    (h_run : loop_run iterations nd s events = some s1) :
    window_invariant iterations nd s1 := by
  induction events generalizing s with
  | nil =>
    simp only [loop_run] at h_run
    injection h_run with h_run
    subst h_run
    exact h_inv
  | cons e rest ih =>
    simp only [loop_run] at h_run
    cases hs : loop_step iterations nd s e with
    | none => rw [hs] at h_run; exact absurd h_run (by simp)
    | some s2 =>
      rw [hs] at h_run
      exact ih s2 (window_invariant_step iterations nd h_iter s s2 e h_inv hs) h_run

/-- C20: for every window `nd >= 1` and every time step `t`, the most recent
step `m <= t` with `m % nd == 0` satisfies `t - m < nd`; and in every state the
loop of `do_work` reaches (any number of iterations below `2 ^ 64`, any
interleaving with the attached continuations), when the loop thread stands at
`sem->wait(t)` the continuation attached at step `m` is still attached or has
already raised the floor to `m`; once it has, `wait(t)` is enabled, and while
it is attached, running it enables `wait(t)`.  The semaphore holds the loop
within the window: with at most `2 ^ 63` iterations (so that every step is
its own `std::int64_t`), in every state the floor is a signalling step the
loop has reached (initially 0) and the loop stands at most `nd + 1` steps
above the floor, having passed `wait` only for steps at most `nd` above it; at
`sem->wait(t)` the
thread moves on to step `t + 1` when `t <= floor + nd`, and otherwise it is
suspended exactly `nd + 1` steps above the floor, with the continuation of
step `m` still attached to resume it. -/
theorem do_work_sliding_window (iterations nd : Nat) (events : List event) (s : loop_state)
    (h_nd : 1 ≤ nd) (h_iter : iterations < 2 ^ 64)
    (h_run : loop_run iterations nd (loop_state.init nd) events = some s) :
    (∀ t, last_signal_step nd t ≤ t ∧ last_signal_step nd t % nd = 0 ∧
      t - last_signal_step nd t < nd ∧
      ∀ m, m ≤ t → m % nd = 0 → m ≤ last_signal_step nd t) ∧
    (s.point = .waiting →
      (last_signal_step nd s.t ∈ s.pending ∨
        to_int64 (last_signal_step nd s.t) ≤ s.sem.lower_limit) ∧
      (to_int64 (last_signal_step nd s.t) ≤ s.sem.lower_limit →
        s.sem.wait_enabled (to_int64 s.t) = true) ∧
      (last_signal_step nd s.t ∈ s.pending →
        ∃ s1, loop_step iterations nd s (.fire (last_signal_step nd s.t)) = some s1 ∧
          s1.t = s.t ∧ s1.point = .waiting ∧
          s1.sem.wait_enabled (to_int64 s1.t) = true)) ∧
    (iterations ≤ 2 ^ 63 →
      0 ≤ s.sem.lower_limit ∧ s.sem.lower_limit ≤ (s.t : Int) ∧
      s.sem.lower_limit % (nd : Int) = 0 ∧
      (s.t : Int) ≤ s.sem.lower_limit + (nd : Int) + 1 ∧
      (s.point = .body → s.t ≠ 0 → ((s.t - 1 : Nat) : Int) ≤ s.sem.lower_limit + (nd : Int)) ∧
      (s.point = .waiting →
        ((s.t : Int) ≤ s.sem.lower_limit + (nd : Int) →
          loop_step iterations nd s .advance = some { s with t := s.t + 1, point := .body }) ∧
        (s.sem.lower_limit + (nd : Int) < (s.t : Int) →
          loop_step iterations nd s .advance = none ∧
          (s.t : Int) = s.sem.lower_limit + (nd : Int) + 1 ∧
          last_signal_step nd s.t ∈ s.pending))) := by
  have h_inv := loop_invariant_run iterations nd h_nd events _ s
    (loop_invariant_init iterations nd) h_run
  refine ⟨fun t => last_signal_step_spec nd t h_nd, fun hp => ?_, fun h_small => ?_⟩
  · obtain ⟨_, h_max, h_wait, _⟩ := h_inv
    obtain ⟨hlt, hlast⟩ := h_wait hp
    have ht : s.t < 2 ^ 64 := by omega
    refine ⟨hlast, fun hfloor => wait_enabled_of_signalled nd s.sem s.t h_nd ht h_max hfloor,
      fun hpend => ?_⟩
    refine ⟨{ s with sem := s.sem.signal (to_int64 (last_signal_step nd s.t)),
                      pending := s.pending.erase (last_signal_step nd s.t) },
      by simp [loop_step, hpend], rfl, hp, ?_⟩
    exact wait_enabled_of_signalled nd
      (s.sem.signal (to_int64 (last_signal_step nd s.t))) s.t h_nd ht h_max
      (le_max_right s.sem.lower_limit (to_int64 (last_signal_step nd s.t)))
  · obtain ⟨h_t, h_max, h_floor0, h_floor, h_mult, h_window, h_pending, h_waiting⟩ :=
      window_invariant_run iterations nd h_small events _ s
        (window_invariant_init iterations nd) h_run
    refine ⟨h_floor0, h_floor, h_mult, h_window, fun _ h0 => by omega, fun hp => ?_⟩
    have hlt := h_waiting hp
    have h_cast : to_int64 s.t = (s.t : Int) := to_int64_of_lt s.t (by omega)
    have h_enabled : s.sem.wait_enabled (to_int64 s.t) = true ↔
        (s.t : Int) ≤ s.sem.lower_limit + (nd : Int) := by
      unfold sliding_semaphore.wait_enabled
      rw [h_cast, h_max, decide_eq_true_iff]
    refine ⟨fun h_in => ?_, fun h_out => ?_⟩
    · simp only [loop_step, hp, if_pos (h_enabled.mpr h_in)]
    · have h_not : ¬ s.sem.wait_enabled (to_int64 s.t) = true := fun h =>
        absurd (h_enabled.mp h) (by omega)
      refine ⟨by simp only [loop_step, hp, if_neg h_not], by omega, ?_⟩
      obtain ⟨_, h_max2, h_wait, _⟩ := h_inv
      rcases (h_wait hp).2 with h | h
      · exact h
      · exact absurd (wait_enabled_of_signalled nd s.sem s.t h_nd (by omega) h_max2 h) h_not

/-- Window 2, five iterations.  After three actions of the loop thread it
stands at `wait(1)` with the continuation of step 0 still attached.  After
seven it stands at `wait(3)`, three steps above the floor 0, and is suspended;
the continuation of step 0 leaves it suspended, the one of step 2 raises the
floor to 2 and the thread moves on to step 4. -/
theorem do_work_sliding_window_witness :
    1 ≤ 2 ∧ 5 < 2 ^ 64 ∧
      loop_run 5 2 (loop_state.init 2) [.advance, .advance, .advance]
        = some ⟨1, .waiting, ⟨2, 0⟩, [0]⟩ ∧
      last_signal_step 2 1 = 0 ∧
      (∃ s1, loop_step 5 2 ⟨1, .waiting, ⟨2, 0⟩, [0]⟩ (.fire (last_signal_step 2 1)) = some s1 ∧
        s1.t = 1 ∧ s1.point = .waiting ∧ s1.sem.wait_enabled (to_int64 s1.t) = true) ∧
      loop_run 5 2 (loop_state.init 2)
          [.advance, .advance, .advance, .advance, .advance, .advance, .advance]
        = some ⟨3, .waiting, ⟨2, 0⟩, [2, 0]⟩ ∧
      (loop_step 5 2 ⟨3, .waiting, ⟨2, 0⟩, [2, 0]⟩ .advance = none ∧
        ((3 : Nat) : Int) = 0 + ((2 : Nat) : Int) + 1 ∧ last_signal_step 2 3 ∈ [2, 0]) ∧
      loop_run 5 2 ⟨3, .waiting, ⟨2, 0⟩, [2, 0]⟩ [.fire 0, .advance] = none ∧
      loop_run 5 2 ⟨3, .waiting, ⟨2, 0⟩, [2, 0]⟩ [.fire 0, .fire 2, .advance]
        = some ⟨4, .body, ⟨2, 2⟩, []⟩ :=
  ⟨by decide, by decide, by decide, by decide,
    (do_work_sliding_window 5 2 [.advance, .advance, .advance] ⟨1, .waiting, ⟨2, 0⟩, [0]⟩
      (by decide) (by decide) (by decide)).2.1 rfl |>.2.2 (by decide),
    by decide,
    ((do_work_sliding_window 5 2
      [.advance, .advance, .advance, .advance, .advance, .advance, .advance]
      ⟨3, .waiting, ⟨2, 0⟩, [2, 0]⟩ (by decide) (by decide) (by decide)).2.2
        (by decide)).2.2.2.2.2 rfl |>.2 (by decide),
    by decide, by decide⟩

end dataflow_replay

/-! ### The arithmetics counter -/

namespace hpx.performance_counters

namespace detail

theorem names_loop_eq_true (get_counter_path_elements : String → path_elements_result)
    (names : List String) :
    names_loop get_counter_path_elements names = true ↔
      ∀ name ∈ names, (get_counter_path_elements name).status = .valid_data ∧
        (get_counter_path_elements name).ec = .success := by
  induction names with
  | nil => simp [names_loop]
  | cons name names ih =>
    by_cases h : counter_status.valid_data ≠ (get_counter_path_elements name).status ∨
        (get_counter_path_elements name).ec ≠ error.success
    · simp only [names_loop, if_pos h, List.mem_cons, forall_eq_or_imp]
      constructor
      · intro hf; cases hf
      · rintro ⟨⟨h1, h2⟩, _⟩
        rcases h with h | h
        · exact absurd h1.symm h
        · exact absurd h2 h
    · simp only [names_loop, if_neg h, ih, List.mem_cons, forall_eq_or_imp]
      push_neg at h
      constructor
      · exact fun hr => ⟨⟨h.1.symm, h.2⟩, hr⟩
      · exact fun hr => hr.2

/-- C16: `arithmetics_counter_creator` returns `naming::invalid_gid` with
`bad_parameter` reported whenever `info.type_` is not `aggregating`, whenever
the parsed full name has an empty parameter list, and whenever one of the
names the parameter list splits into is not a validly formed counter name (or
the split gives no name at all); a full name that does not parse gives
`invalid_gid` with the parser's error.  It calls `create_arithmetics_counter`
exactly when none of these holds, and then with `info` and with the names as
`split` produced them, in that order. -/
theorem arithmetics_counter_creator_spec
    (get_counter_path_elements : String → path_elements_result)
    (split : String → List String) (info : counter_info) :
    let parsed := get_counter_path_elements info.fullname_
    let names := split parsed.paths.parameters_
    let result := arithmetics_counter_creator get_counter_path_elements split info
    let well_formed := fun name => (get_counter_path_elements name).status = .valid_data ∧
      (get_counter_path_elements name).ec = .success
    (info.type_ ≠ .aggregating → result = .invalid_gid .bad_parameter) ∧
    (info.type_ = .aggregating → parsed.ec ≠ .success → result = .invalid_gid parsed.ec) ∧
    (info.type_ = .aggregating → parsed.ec = .success → parsed.paths.parameters_ = "" →
      result = .invalid_gid .bad_parameter) ∧
    (info.type_ = .aggregating → parsed.ec = .success →
      (names = [] ∨ ∃ name ∈ names, ¬ well_formed name) →
      result = .invalid_gid .bad_parameter) ∧
    (info.type_ = .aggregating → parsed.ec = .success → parsed.paths.parameters_ ≠ "" →
      names ≠ [] → (∀ name ∈ names, well_formed name) →
      result = .create_arithmetics_counter info names) ∧
    (∀ info1 names1, result = .create_arithmetics_counter info1 names1 →
      info1 = info ∧ names1 = names ∧ info.type_ = .aggregating ∧ parsed.ec = .success ∧
        parsed.paths.parameters_ ≠ "" ∧ names ≠ [] ∧ ∀ name ∈ names, well_formed name) := by
  intro parsed names result well_formed
  have h_loop := names_loop_eq_true get_counter_path_elements names
  refine ⟨?_, ?_, ?_, ?_, ?_, ?_⟩
  · intro ht
    simp only [result, arithmetics_counter_creator, if_pos ht]
  · intro ht he
    simp only [result, arithmetics_counter_creator, ht, ne_eq, not_true_eq_false, if_false]
    exact if_pos he
  · intro ht he hp
    simp only [result, arithmetics_counter_creator, ht, ne_eq, not_true_eq_false, if_false]
    rw [if_neg (not_not.mpr he), if_neg (not_not.mpr hp)]
  · intro ht he hbad
    simp only [result, arithmetics_counter_creator, ht, ne_eq, not_true_eq_false, if_false]
    rw [if_neg (not_not.mpr he)]
    split_ifs with hp hn hl
    any_goals rfl
    exfalso
    rcases hbad with h0 | ⟨name, hmem, hw⟩
    · exact hn (by simp only [names] at h0; simp [h0])
    · exact hw (h_loop.mp hl name hmem)
  · intro ht he hp hn hall
    simp only [result, arithmetics_counter_creator, ht, ne_eq, not_true_eq_false, if_false]
    rw [if_neg (not_not.mpr he), if_pos hp]
    have hn1 : ¬ (split (get_counter_path_elements info.fullname_).paths.parameters_).isEmpty = true := by
      simpa [List.isEmpty_iff] using hn
    rw [if_neg hn1, if_pos (h_loop.mpr hall)]
  · intro info1 names1 hres
    simp only [result, arithmetics_counter_creator] at hres
    split_ifs at hres with ht he hp hn hl
    · simp only [creator_result.create_arithmetics_counter.injEq] at hres
      refine ⟨hres.1.symm, hres.2.symm, not_not.mp ht, not_not.mp he, hp, ?_, h_loop.mp hl⟩
      simpa [List.isEmpty_iff] using hn

example : arithmetics_counter_creator example_get_counter_path_elements example_split
    ⟨.aggregating, "/arithmetics/divide@/threads/count,/threads/idle"⟩ =
    .create_arithmetics_counter ⟨.aggregating, "/arithmetics/divide@/threads/count,/threads/idle"⟩
      ["/threads/count", "/threads/idle"] := by decide

example : arithmetics_counter_creator example_get_counter_path_elements example_split
    ⟨.aggregating, "/threads/count"⟩ = .invalid_gid .bad_parameter := by decide

end detail

namespace server

example : arithmetics_counter example_get_counter_path_elements
    example_performance_counter_set
    ⟨.aggregating, "/arithmetics/divide@/threads/count,/threads/idle"⟩ ["/threads/count"] =
    .threw .bad_parameter := by decide

example : arithmetics_counter example_get_counter_path_elements
    example_performance_counter_set
    ⟨.aggregating, "/arithmetics/add@/threads/count"⟩ [] = .constructed := by decide

example : arithmetics_counter example_get_counter_path_elements
    (fun _ => .error (.other 1))
    ⟨.aggregating, "/arithmetics/add@/threads/count"⟩ ["/threads/count"] =
    .threw (.other 1) := by decide

end server

end hpx.performance_counters

/-! ### The loop algorithm with induction objects -/

namespace hpx.experimental

theorem foldl_set_length (order : List Nat) (xs : List Nat) (v : Nat) :
    (order.foldl (fun xs p => xs.set p v) xs).length = xs.length := by
  induction order generalizing xs with
  | nil => rfl
  | cons p rest ih => simp [List.foldl_cons, ih]

theorem foldl_set_getElem? (order : List Nat) (xs : List Nat) (v k : Nat)
    (h_mem : k ∈ order) (h_lt : k < xs.length) :
    (order.foldl (fun xs p => xs.set p v) xs)[k]? = some v := by
  induction order generalizing xs with
  | nil => simp at h_mem
  | cons p rest ih =>
    simp only [List.foldl_cons]
    by_cases hk : k ∈ rest
    · exact ih (xs.set p v) hk (by simpa using h_lt)
    · have hp : k = p := by
        rcases List.mem_cons.mp h_mem with h | h
        · exact h
        · exact absurd h hk
      subst hp
      have h_keep : ∀ (order : List Nat) (ys : List Nat), k ∉ order → ys[k]? = some v →
          (order.foldl (fun xs p => xs.set p v) ys)[k]? = some v := by
        intro order
        induction order with
        | nil => intro ys _ h; exact h
        | cons q rest ih2 =>
          intro ys hq h
          simp only [List.foldl_cons]
          apply ih2
          · exact fun hm => hq (List.mem_cons_of_mem _ hm)
          · have hqk : q ≠ k := fun e => hq (e ▸ List.mem_cons_self _ _)
            rw [List.getElem?_set_ne hqk]
            exact h
      apply h_keep rest _ hk
      rw [List.getElem?_set_eq_of_lt _ h_lt]

theorem foldl_set_all (order : List Nat) (n : Nat) (xs : List Nat) (v : Nat)
    (h_order : order.Perm (List.range n)) (h_len : xs.length = n) :
    (order.foldl (fun xs p => xs.set p v) xs).all (fun x => x == v) = true := by
  rw [List.all_eq_true]
  intro x hx
  obtain ⟨k, hk, hkx⟩ := List.getElem_of_mem hx
  have hk2 : k < xs.length := by simpa [foldl_set_length] using hk
  have h_mem : k ∈ order := h_order.mem_iff.mpr (List.mem_range.mpr (h_len ▸ hk2))
  have h := foldl_set_getElem? order xs v k h_mem hk2
  rw [List.getElem?_eq_getElem hk] at h
  simp only [Option.some.injEq] at h
  rw [← hkx, h]
  simp

theorem foldl_count_length {α : Type} (xs : List α) (init : Nat) :
    xs.foldl (fun count _ => count + 1) init = init + xs.length := by
  induction xs generalizing init with
  | nil => rfl
  | cons x rest ih => simp [List.foldl_cons, ih]; omega

theorem scheduled_order_perm (decisions pending : List Nat) :
    (scheduled_order pending decisions).Perm pending := by
  induction decisions generalizing pending with
  | nil => cases pending <;> exact List.Perm.refl _
  | cons decision decisions ih =>
    cases pending with
    | nil => exact List.Perm.refl _
    | cons p pending =>
      simp only [scheduled_order]
      have h_lt : decision % (p :: pending).length < (p :: pending).length :=
        Nat.mod_lt _ (by simp)
      have h_mem : (p :: pending).getD (decision % (p :: pending).length) p ∈ p :: pending := by
        rw [List.getD_eq_getElem _ _ h_lt]
        exact List.getElem_mem _
      exact ((ih _).cons _).trans (List.perm_cons_erase h_mem).symm

theorem scheduled_order_realises (order pending : List Nat) (h_order : order.Perm pending) :
    ∃ decisions, scheduled_order pending decisions = order := by
  induction order generalizing pending with
  | nil =>
    have h_nil : pending = [] := (List.Perm.nil_eq h_order).symm
    exact ⟨[], by rw [h_nil]; rfl⟩
  | cons a rest ih =>
    have h_mem : a ∈ pending := h_order.mem_iff.mp (List.mem_cons_self _ _)
    cases pending with
    | nil => simp at h_mem
    | cons p pending =>
      have h_idx : (p :: pending).indexOf a < (p :: pending).length :=
        List.indexOf_lt_length.mpr h_mem
      have h_get : (p :: pending).getD ((p :: pending).indexOf a % (p :: pending).length) p
          = a := by
        rw [Nat.mod_eq_of_lt h_idx, List.getD_eq_getElem _ _ h_idx]
        exact List.indexOf_get h_idx
      have h_rest : rest.Perm ((p :: pending).erase a) := by
        have h := h_order.erase a
        rwa [List.erase_cons_head] at h
      obtain ⟨decisions, h_dec⟩ := ih _ h_rest
      refine ⟨(p :: pending).indexOf a :: decisions, ?_⟩
      simp only [scheduled_order]
      rw [h_get, h_dec]

theorem visiting_order_perm (policy : execution_policy) (schedule : List Nat) (n : Nat) :
    (visiting_order policy schedule n).Perm (List.range n) := by
  cases policy <;> simp only [visiting_order] <;>
    first | exact scheduled_order_perm _ _ | exact List.Perm.refl _

theorem foldl_both_vectors (order : List Nat) (s : loop_test_state) :
    order.foldl (fun (s : loop_test_state) p =>
        ({ c := s.c.set p 42, d := s.d.set p 42, tests_hold := s.tests_hold } :
          loop_test_state)) s =
      ⟨order.foldl (fun xs p => xs.set p 42) s.c, order.foldl (fun xs p => xs.set p 42) s.d,
        s.tests_hold⟩ := by
  induction order generalizing s with
  | nil => rfl
  | cons p rest ih => simp only [List.foldl_cons, ih]

theorem foldl_one_vector (order : List Nat) (s : loop_test_state) :
    order.foldl (fun (s : loop_test_state) p =>
        ({ c := s.c.set p 42, d := s.d, tests_hold := s.tests_hold } : loop_test_state)) s =
      ⟨order.foldl (fun xs p => xs.set p 42) s.c, s.d, s.tests_hold⟩ := by
  induction order generalizing s with
  | nil => rfl
  | cons p rest ih => simp only [List.foldl_cons, ih]

theorem verify_values_both (order : List Nat) (n first : Nat)
    (h_order : order.Perm (List.range n)) :
    verify_values ⟨order.foldl (fun xs p => xs.set p 42) (iota_from n first),
      order.foldl (fun xs p => xs.set p 42) (List.replicate n 0), true⟩ = true := by
  have h1 := foldl_set_all order n (iota_from n first) 42 h_order (by simp [iota_from])
  have h2 := foldl_set_all order n (List.replicate n 0) 42 h_order (by simp)
  simp only [verify_values, h1, h2, foldl_count_length]
  simp

theorem verify_values_one (order : List Nat) (n first : Nat)
    (h_order : order.Perm (List.range n)) :
    verify_values ⟨order.foldl (fun xs p => xs.set p 42) (iota_from n first), [], true⟩
      = true := by
  have h1 := foldl_set_all order n (iota_from n first) 42 h_order (by simp [iota_from])
  simp only [verify_values, h1, foldl_count_length]
  simp

theorem iota_from_length (size first : Nat) : (iota_from size first).length = size := by
  simp [iota_from]

theorem test_for_loop_induction_holds (policy : execution_policy) (schedule : List Nat)
    (first : Nat) :
    test_for_loop_induction policy schedule first = true := by
  have h_order := visiting_order_perm policy schedule 10007
  simp only [test_for_loop_induction, for_loop, future.get, iota_from_length, induction,
    induction_object.argument, List.map_cons, List.map_nil, List.getD_cons_zero,
    Nat.zero_add, Nat.mul_one]
  rw [foldl_both_vectors]
  simp only [Bool.true_and]
  exact verify_values_both _ 10007 first h_order

theorem test_for_loop_induction_stride_holds (policy : execution_policy)
    (schedule : List Nat) (first : Nat) :
    test_for_loop_induction_stride policy schedule first = true := by
  have h_order := visiting_order_perm policy schedule 10007
  simp only [test_for_loop_induction_stride, for_loop, future.get, iota_from_length,
    induction, induction_stride, induction_object.argument, List.map_cons, List.map_nil,
    List.getD_cons_zero, List.getD_cons_succ, Nat.zero_add, Nat.mul_one, Nat.mul_comm 2,
    beq_self_eq_true, Bool.and_true]
  rw [foldl_both_vectors]
  simp only [Bool.true_and]
  exact verify_values_both _ 10007 first h_order

theorem test_for_loop_induction_idx_holds (policy : execution_policy)
    (schedule : List Nat) (first : Nat) :
    test_for_loop_induction_idx policy schedule first = true := by
  have h_order := visiting_order_perm policy schedule 10007
  simp only [test_for_loop_induction_idx, for_loop, future.get, iota_from_length,
    induction, induction_object.argument, List.map_cons, List.map_nil,
    List.getD_cons_zero, Nat.zero_add, Nat.mul_one, beq_self_eq_true, Bool.and_true]
  rw [foldl_one_vector]
  simp only [Bool.true_and]
  exact verify_values_one _ 10007 first h_order

theorem test_for_loop_induction_stride_idx_holds (policy : execution_policy)
    (schedule : List Nat) (first : Nat) :
    test_for_loop_induction_stride_idx policy schedule first = true := by
  have h_order := visiting_order_perm policy schedule 10007
  simp only [test_for_loop_induction_stride_idx, for_loop, future.get, iota_from_length,
    induction, induction_stride, induction_object.argument, List.map_cons, List.map_nil,
    List.getD_cons_zero, List.getD_cons_succ, Nat.zero_add, Nat.mul_one, Nat.mul_comm 2,
    beq_self_eq_true, Bool.and_true]
  rw [foldl_one_vector]
  simp only [Bool.true_and]
  exact verify_values_one _ 10007 first h_order

theorem test_for_loop_induction_life_out_holds (policy : execution_policy)
    (schedule : List Nat) (first : Nat) :
    test_for_loop_induction_life_out policy schedule first = (true, true) := by
  have h_order := visiting_order_perm policy schedule 10007
  simp only [test_for_loop_induction_life_out, for_loop, future.get, iota_from_length,
    induction, induction_object.argument, induction_object.live_out, List.map_cons,
    List.map_nil, List.getD_cons_zero, Nat.zero_add, Nat.mul_one]
  rw [foldl_both_vectors]
  simp only [Bool.true_and, foldl_set_length, iota_from_length, beq_self_eq_true]
  rw [verify_values_both _ 10007 first h_order]

theorem test_for_loop_induction_stride_life_out_holds (policy : execution_policy)
    (schedule : List Nat) (first : Nat) :
    test_for_loop_induction_stride_life_out policy schedule first = (true, true, true) := by
  have h_order := visiting_order_perm policy schedule 10007
  simp only [test_for_loop_induction_stride_life_out, for_loop, future.get,
    iota_from_length, induction, induction_stride, induction_object.argument,
    induction_object.live_out, List.map_cons, List.map_nil, List.getD_cons_zero,
    List.getD_cons_succ, Nat.zero_add, Nat.mul_one, Nat.mul_comm 2, beq_self_eq_true,
    Bool.and_true]
  rw [foldl_both_vectors]
  simp only [Bool.true_and, foldl_set_length, iota_from_length, beq_self_eq_true]
  rw [verify_values_both _ 10007 first h_order]

theorem foldl_recording_body (order : List Nat) (inductions : List induction_object)
    (log : List (Nat × List Nat)) :
    order.foldl (fun s p => recording_body p (inductions.map (fun ind => ind.argument p)) s)
        log =
      log ++ order.map (fun p => (p, inductions.map (fun ind => ind.argument p))) := by
  induction order generalizing log with
  | nil => simp
  | cons p rest ih =>
    rw [List.foldl_cons, ih]
    simp [recording_body]

/-- C12: under every policy and whatever the scheduler decides, `for_loop`
over `n` positions invokes the body exactly once for every position `p < n`
and nowhere else, each induction object contributing the argument
`value + p * stride` (stride 1 for `induction(value)`): with `induction(0)`
the argument is the position, with `induction(0, 2)` twice the position.
Every order of the positions is the order of some decisions of the scheduler
under `par(task)`, so no order is left out; and the tests over 10007 elements
with these two objects pass, every element being visited. -/
theorem for_loop_invokes_body_once_per_position (policy : execution_policy) (n : Nat)
    (schedule : List Nat) (inductions : List induction_object) (test_schedule : List Nat)
    (first : Nat) :
    let log := (for_loop policy schedule n inductions recording_body []).get.1
    (log.map Prod.fst).Perm (List.range n) ∧
    (∀ p, p < n → (log.map Prod.fst).count p = 1) ∧
    (∀ entry ∈ log, entry.1 < n ∧
      entry.2 = inductions.map (fun ind => ind.value + entry.1 * ind.stride)) ∧
    log.length = n ∧
    (∀ value p, (induction value).argument p = value + p) ∧
    (∀ p, (induction 0).argument p = p ∧ (induction_stride 0 2).argument p = 2 * p) ∧
    test_for_loop_induction_stride policy test_schedule first = true ∧
    test_for_loop_induction_idx policy test_schedule first = true ∧
    test_for_loop_induction_stride_idx policy test_schedule first = true ∧
    (∀ order : List Nat, order.Perm (List.range n) →
      ∃ decisions, visiting_order .par_task decisions n = order ∧
        (for_loop .par_task decisions n inductions recording_body []).get.1 =
          order.map (fun p => (p, inductions.map (fun ind => ind.value + p * ind.stride)))) := by
  intro log
  have h_order := visiting_order_perm policy schedule n
  have h_log : ∀ (policy : execution_policy) (schedule : List Nat),
      (for_loop policy schedule n inductions recording_body []).get.1 =
        (visiting_order policy schedule n).map
          (fun p => (p, inductions.map (fun ind => ind.value + p * ind.stride))) := by
    intro policy schedule
    simp only [for_loop, future.get, foldl_recording_body, List.nil_append]
    simp only [induction_object.argument]
  have h_fst : log.map Prod.fst = visiting_order policy schedule n := by
    simp only [log]
    rw [h_log, List.map_map]
    exact List.map_id _
  refine ⟨h_fst ▸ h_order, ?_, ?_, ?_, ?_, ?_, test_for_loop_induction_stride_holds _ _ _,
    test_for_loop_induction_idx_holds _ _ _,
    test_for_loop_induction_stride_idx_holds _ _ _, ?_⟩
  · intro p hp
    rw [h_fst, h_order.count_eq]
    exact List.count_eq_one_of_mem (List.nodup_range n) (List.mem_range.mpr hp)
  · intro entry h_entry
    simp only [log] at h_entry
    rw [h_log] at h_entry
    obtain ⟨p, hp, rfl⟩ := List.mem_map.mp h_entry
    exact ⟨List.mem_range.mp (h_order.mem_iff.mp hp), rfl⟩
  · simp only [log]
    rw [h_log, List.length_map, h_order.length_eq, List.length_range]
  · intro value p
    simp [induction, induction_object.argument]
  · intro p
    simp [induction, induction_stride, induction_object.argument, Nat.mul_comm]
  · intro order h_perm
    obtain ⟨decisions, h_dec⟩ := scheduled_order_realises order (List.range n) h_perm
    have h_visit : visiting_order .par_task decisions n = order := h_dec
    refine ⟨decisions, h_visit, ?_⟩
    rw [h_log, h_visit]

/-- Three positions under `par(task)` with `induction(5, 2)`, the scheduler
deciding 2, 0, 1: the positions are visited in the order 2, 0, 1; and one of
the tests under `par(task)`. -/
theorem for_loop_invokes_body_once_per_position_witness :
    (for_loop .par_task [2, 0, 1] 3 [induction_stride 5 2] recording_body []).get.1 =
        [(2, [9]), (0, [5]), (1, [7])] ∧
      (((for_loop .par_task [2, 0, 1] 3 [induction_stride 5 2] recording_body []).get.1).map
        Prod.fst).Perm (List.range 3) ∧
      test_for_loop_induction_stride .par_task (List.range 10007) 7 = true :=
  ⟨by decide,
    (for_loop_invokes_body_once_per_position .par_task 3 [2, 0, 1] [induction_stride 5 2]
      (List.range 10007) 7).1,
    (for_loop_invokes_body_once_per_position .par_task 3 [2, 0, 1] [induction_stride 5 2]
      (List.range 10007) 7).2.2.2.2.2.2.1⟩

/-- C13: once the future of `for_loop` over `n` positions is ready, each
induction object hands back the live-out value `initial + n * stride`,
whatever the body does, under every policy and whatever the scheduler decides;
in the tests over `n = 10007` positions `curr == n` for stride 1 and
`curr2 == 2 * n` for stride 2. -/
theorem for_loop_live_out {σ : Type} (policy : execution_policy) (n : Nat)
    (schedule : List Nat) (inductions : List induction_object)
    (body : Nat → List Nat → σ → σ) (init : σ) (test_schedule : List Nat) (first : Nat) :
    (for_loop policy schedule n inductions body init).get.2 =
        inductions.map (fun ind => ind.value + n * ind.stride) ∧
    (∀ initial, (induction initial).live_out n = initial + n) ∧
    (∀ initial stride, (induction_stride initial stride).live_out n = initial + n * stride) ∧
    test_for_loop_induction_life_out policy test_schedule first = (true, true) ∧
    test_for_loop_induction_stride_life_out policy test_schedule first
      = (true, true, true) := by
  refine ⟨rfl, ?_, ?_, test_for_loop_induction_life_out_holds _ _ _,
    test_for_loop_induction_stride_life_out_holds _ _ _⟩
  · intro initial
    simp [induction, induction_object.live_out]
  · intro initial stride
    simp [induction_stride, induction_object.live_out]

/-- Four positions with `induction(curr)` and `induction(curr2, 2)` from
`curr = curr2 = 0`: the live-out values are 4 and 8. -/
theorem for_loop_live_out_witness :
    (for_loop .seq_task [] 4 [induction 0, induction_stride 0 2]
        (fun _ _ (s : Nat) => s + 1) 0).get.2 = [0 + 4 * 1, 0 + 4 * 2] ∧
      test_for_loop_induction_stride_life_out .par_task (List.range 10007) 3
        = (true, true, true) :=
  ⟨(for_loop_live_out .seq_task 4 [] [induction 0, induction_stride 0 2]
      (fun _ _ (s : Nat) => s + 1) 0 (List.range 10007) 3).1,
    (for_loop_live_out .par_task 4 [] [induction 0, induction_stride 0 2]
      (fun _ _ (s : Nat) => s + 1) 0 (List.range 10007) 3).2.2.2.2⟩

end hpx.experimental

/-! ### The co-array: segments, termination and balance -/

namespace hpx

theorem get_unrolled_localities_loop_length {α : Type} (inp : List α) (o_end unroll : Nat)
    (fuel o i : Nat) (out res : List α)
    (h : get_unrolled_localities_loop inp o_end unroll fuel o i out = some res) :
    res.length = out.length := by
  induction fuel generalizing o i out with
  | zero => simp [get_unrolled_localities_loop] at h
  | succ fuel ih =>
    rw [get_unrolled_localities_loop] at h
    by_cases ho : o < o_end
    · rw [if_pos ho] at h
      by_cases hs : PTRDIFF_LIMIT ≤ unroll
      · rw [if_pos hs] at h
        cases h
      · rw [if_neg hs] at h
        cases hx : inp[i]? with
        | none =>
          rw [hx] at h
          cases h
        | some x =>
          rw [hx] at h
          rw [ih _ _ _ h, std_fill_length]
    · rw [if_neg ho] at h
      cases h
      rfl

theorem get_unrolled_localities_length {α : Type} [Inhabited α] (inp : List α)
    (num_segments unroll : Nat) (out : List α)
    (h : get_unrolled_localities inp num_segments unroll = some out) :
    out.length = num_segments := by
  unfold get_unrolled_localities at h
  rw [get_unrolled_localities_loop_length _ _ _ _ _ _ _ _ h, List.length_replicate]

theorem get_unrolled_localities_loop_zero_stride {α : Type} (inp : List α) (o_end : Nat)
    (fuel o i : Nat) (out : List α) (h_o : o < o_end) :
    get_unrolled_localities_loop inp o_end 0 fuel o i out = none := by
  induction fuel generalizing i out with
  | zero => rfl
  | succ fuel ih =>
    rw [get_unrolled_localities_loop, if_pos h_o, if_neg (by simp [PTRDIFF_LIMIT])]
    cases hx : inp[i]? with
    | none => rfl
    | some x => exact ih _ _

theorem get_unrolled_localities_stride_ok {α : Type} [Inhabited α] (inp : List α)
    (num_segments unroll : Nat) (out : List α) (h_pos : 0 < num_segments)
    (h : get_unrolled_localities inp num_segments unroll = some out) :
    1 ≤ unroll ∧ unroll < PTRDIFF_LIMIT := by
  unfold get_unrolled_localities at h
  constructor
  · by_contra h0
    have hz : unroll = 0 := by omega
    subst hz
    rw [get_unrolled_localities_loop_zero_stride _ _ _ _ _ _ h_pos] at h
    cases h
  · by_contra hs
    rw [get_unrolled_localities_loop, if_pos h_pos, if_pos (by omega)] at h
    cases h

theorem num_segments_loop_eq {f : Nat → Nat} (sizes : List Nat) (init : Nat) :
    sizes.foldl (fun acc i => acc * f i % SIZE_MOD) init % SIZE_MOD =
      init * (sizes.map f).prod % SIZE_MOD := by
  induction sizes generalizing init with
  | nil => simp
  | cons x rest ih =>
    rw [List.foldl_cons, ih, List.map_cons, List.prod_cons, Nat.mod_mul_mod, Nat.mul_assoc]

theorem num_segments_loop_lt {f : Nat → Nat} (sizes : List Nat) (init : Nat)
    (h : init < SIZE_MOD) :
    sizes.foldl (fun acc i => acc * f i % SIZE_MOD) init < SIZE_MOD := by
  induction sizes generalizing init with
  | nil => exact h
  | cons x rest ih =>
    rw [List.foldl_cons]
    exact ih _ (Nat.mod_lt _ (by simp [SIZE_MOD]))

/-- C21: for every `N >= 1`, every list of sizes and every number of images,
the `num_segments` the constructor computes on image 0 is the product, modulo
`2 ^ 64`, of the extents `update_view` hands to the view (the automatic size
`std::size_t(-1)` counted as `num_images`); whenever the constructor returns
on image 0, it allocated a partitioned vector of
`segment_size * num_segments` elements (the `std::size_t` product) with a
layout of exactly `num_segments` partitions, and it does return for a
non-empty locality list when `num_segments` is 0 or at least the number of
localities. -/
theorem coarray_num_segments_matches_view {α : Type} [Inhabited α] (N : Nat)
    (block : spmd_block) (name : String) (cosizes : detail.coarray_sizes)
    (segment_size : Nat) (localities : List α) (h_N : 1 ≤ N) :
    let num_segments := coarray.num_segments N block.num_images cosizes
    num_segments = (coarray.update_view cosizes block.num_images).prod % SIZE_MOD ∧
    (∀ c, block.this_image = 0 →
      coarray.ctor N block name cosizes segment_size localities = some c →
      c.view_sizes = coarray.update_view cosizes block.num_images ∧
      ∃ layout, layout.length = num_segments ∧
        c.vector_ = .allocate_and_register (segment_size * num_segments % SIZE_MOD)
          num_segments layout (name ++ "_hpx_coarray")) ∧
    (block.this_image = 0 → localities ≠ [] →
      (num_segments = 0 ∨ (localities.length ≤ num_segments ∧
        num_segments / localities.length < PTRDIFF_LIMIT)) →
      ∃ c, coarray.ctor N block name cosizes segment_size localities = some c) := by
  intro num_segments
  have h_init : (if N > 0 then 1 else 0) = 1 := if_pos (by omega)
  refine ⟨?_, ?_, ?_⟩
  · have h_lt : num_segments < SIZE_MOD := by
      simp only [num_segments, coarray.num_segments, h_init]
      exact num_segments_loop_lt _ _ (by simp [SIZE_MOD])
    have h_eq := num_segments_loop_eq (f := fun i => if i ≠ SIZE_MAX then i else block.num_images)
      cosizes.sizes_ 1
    rw [Nat.one_mul] at h_eq
    rw [← Nat.mod_eq_of_lt h_lt]
    simpa only [num_segments, coarray.num_segments, h_init, coarray.update_view] using h_eq
  · intro c h_image h_ctor
    simp only [coarray.ctor, if_pos h_image] at h_ctor
    split_ifs at h_ctor with h_loc
    cases h_layout : get_unrolled_localities localities
        (coarray.num_segments N block.num_images cosizes)
        (coarray.num_segments N block.num_images cosizes / localities.length) with
    | none => simp [h_layout] at h_ctor
    | some layout =>
      simp only [h_layout, Option.some.injEq] at h_ctor
      subst h_ctor
      exact ⟨rfl, layout, get_unrolled_localities_length _ _ _ _ h_layout, rfl⟩
  · intro h_image h_in h_enough
    obtain ⟨layout, h_layout⟩ := get_unrolled_localities_returns localities num_segments
      h_in h_enough
    have h_len : localities.length ≠ 0 := fun h => h_in (List.length_eq_zero.mp h)
    simp only [num_segments] at h_layout
    simp [coarray.ctor, h_image, h_len, h_layout]

/-- The shape `{4, _}` on image 0 of 4 images and 4 localities: 16 segments,
the product of the extents 4 and 4. -/
theorem coarray_num_segments_matches_view_witness :
    1 ≤ 2 ∧
      coarray.num_segments 2 (spmd_block.mk 4 0).num_images ⟨[4, SIZE_MAX]⟩ =
        (coarray.update_view ⟨[4, SIZE_MAX]⟩ (spmd_block.mk 4 0).num_images).prod % SIZE_MOD ∧
      coarray.update_view ⟨[4, SIZE_MAX]⟩ 4 = [4, 4] ∧
      coarray.num_segments 2 4 ⟨[4, SIZE_MAX]⟩ = 16 :=
  ⟨by decide,
    (coarray_num_segments_matches_view 2 ⟨4, 0⟩ "a" ⟨[4, SIZE_MAX]⟩ 10 [0, 1, 2, 3]
      (by decide)).1,
    by decide, by decide⟩

/-- C22: the constructor's call does not terminate when there are fewer
segments than localities.  With two localities and one segment (the co-array
of one dimension and sizes `{_}` constructed on image 0 of a block of one
image) the stride `num_segments / localities.size()` is 0, the iterator `o`
never advances and the loop does not end, whatever number of steps it is
given; the constructor does not return.  The same happens with three images
on three localities when the product of the sizes wraps to 1 in `std::size_t`
arithmetic. -/
theorem get_unrolled_localities_zero_stride_never_returns :
    ([7, 8] : List Nat) ≠ [] ∧ 1 / ([7, 8] : List Nat).length = 0 ∧
      get_unrolled_localities ([7, 8] : List Nat) 1 (1 / ([7, 8] : List Nat).length) = none ∧
      (∀ fuel i out, get_unrolled_localities_loop ([7, 8] : List Nat) 1
        (1 / ([7, 8] : List Nat).length) fuel 0 i out = none) ∧
      coarray.num_segments 1 (spmd_block.mk 1 0).num_images ⟨[SIZE_MAX]⟩ = 1 ∧
      coarray.ctor 1 ⟨1, 0⟩ "a" ⟨[SIZE_MAX]⟩ 10 ([7, 8] : List Nat) = none ∧
      coarray.num_segments 2 (spmd_block.mk 3 0).num_images
        ⟨[12297829382473034411, SIZE_MAX]⟩ = 1 ∧
      coarray.ctor 2 ⟨3, 0⟩ "a" ⟨[12297829382473034411, SIZE_MAX]⟩ 10
        ([7, 8, 9] : List Nat) = none :=
  ⟨by decide, by decide, by decide,
    fun fuel i out => get_unrolled_localities_loop_zero_stride [7, 8] 1 fuel 0 i out
      (by decide),
    by decide, by decide, by decide, by decide⟩

/-- Where the constructor's call ends and where it does not: for a non-empty
locality list, `get_unrolled_localities(localities, num_segments,
num_segments / localities.size())` returns a vector of `num_segments`
entries, each of them a locality of the list, when `num_segments` is 0 or at
least `localities.size()` (and the stride fits `std::ptrdiff_t`); with
`0 < num_segments < localities.size()` the stride is 0 and the loop never
ends. -/
theorem get_unrolled_localities_terminates {α : Type} [Inhabited α] (inp : List α)
    (num_segments : Nat) (h_in : inp ≠ []) :
    ((num_segments = 0 ∨
        (inp.length ≤ num_segments ∧ num_segments / inp.length < PTRDIFF_LIMIT)) →
      ∃ out, get_unrolled_localities inp num_segments (num_segments / inp.length) = some out ∧
        out.length = num_segments ∧ ∀ k, k < num_segments → ∃ x ∈ inp, out[k]? = some x) ∧
    (0 < num_segments → num_segments < inp.length →
      get_unrolled_localities inp num_segments (num_segments / inp.length) = none ∧
      ∀ fuel i out, get_unrolled_localities_loop inp num_segments
        (num_segments / inp.length) fuel 0 i out = none) := by
  have hpos : 0 < inp.length := List.length_pos.mpr h_in
  constructor
  · intro h_enough
    obtain ⟨out, h_out⟩ := get_unrolled_localities_returns inp num_segments h_in h_enough
    refine ⟨out, h_out, get_unrolled_localities_length _ _ _ _ h_out, ?_⟩
    intro k hk
    have h_ok := get_unrolled_localities_stride_ok inp num_segments _ out (by omega) h_out
    obtain ⟨out1, h_out1, _, h_entries⟩ := get_unrolled_localities_spec inp num_segments
      (num_segments / inp.length) h_in h_ok.1 h_ok.2
    have h_same : out = out1 := Option.some.inj (h_out.symm.trans h_out1)
    subst h_same
    have h_idx : k / (num_segments / inp.length) % inp.length < inp.length :=
      Nat.mod_lt _ hpos
    refine ⟨inp[k / (num_segments / inp.length) % inp.length], List.getElem_mem _, ?_⟩
    rw [h_entries k hk, List.getElem?_eq_getElem h_idx]
  · intro h0 h_lt
    have h_zero : num_segments / inp.length = 0 := Nat.div_eq_of_lt h_lt
    rw [h_zero]
    exact ⟨get_unrolled_localities_loop_zero_stride _ _ _ _ _ _ h0,
      fun fuel i out => get_unrolled_localities_loop_zero_stride _ _ _ _ _ _ h0⟩

/-- Two localities and five segments (stride 2): the call returns. -/
theorem get_unrolled_localities_terminates_for_five_segments :
    ([7, 8] : List Nat) ≠ [] ∧
      ∃ out, get_unrolled_localities ([7, 8] : List Nat) 5 (5 / ([7, 8] : List Nat).length)
          = some out ∧
        out.length = 5 ∧ ∀ k, k < 5 → ∃ x ∈ ([7, 8] : List Nat), out[k]? = some x :=
  ⟨by decide,
    (get_unrolled_localities_terminates ([7, 8] : List Nat) 5 (by decide)).1
      (Or.inr ⟨by decide, by decide⟩)⟩

/-- C23: with `L` localities and `num_segments >= L`, whatever the
constructor's call `get_unrolled_localities(localities, num_segments, unroll)`
with `unroll = num_segments / L` returns gives the locality at position `j` of
the list every segment index of `[j * unroll, (j + 1) * unroll)`, so at least
`unroll` segments; when `num_segments` is a multiple of `L` every segment
index `k` belongs to position `k / unroll < L`, so that position `j` owns
exactly that block (for pairwise different localities: no other index).  The
call returns whenever the stride fits `std::ptrdiff_t`. -/
theorem get_unrolled_localities_balanced {α : Type} [Inhabited α] (inp : List α)
    (num_segments : Nat) (h_in : inp ≠ []) (h_ge : inp.length ≤ num_segments) :
    let unroll := num_segments / inp.length
    (unroll < PTRDIFF_LIMIT →
      ∃ out, get_unrolled_localities inp num_segments unroll = some out) ∧
    ∀ out, get_unrolled_localities inp num_segments unroll = some out →
      out.length = num_segments ∧
      (∀ j k, j < inp.length → j * unroll ≤ k → k < (j + 1) * unroll →
        k < num_segments ∧ out[k]? = inp[j]?) ∧
      (num_segments % inp.length = 0 →
        inp.length * unroll = num_segments ∧
        (∀ k, k < num_segments → k / unroll < inp.length ∧ out[k]? = inp[k / unroll]?) ∧
        (inp.Nodup → ∀ j k, j < inp.length → k < num_segments →
          (out[k]? = inp[j]? ↔ j * unroll ≤ k ∧ k < (j + 1) * unroll))) := by
  intro unroll
  have hpos : 0 < inp.length := List.length_pos.mpr h_in
  have h_unroll : 1 ≤ unroll := (Nat.one_le_div_iff hpos).mpr h_ge
  have h_le : inp.length * unroll ≤ num_segments := Nat.mul_div_le _ _
  refine ⟨fun h_stride => get_unrolled_localities_returns inp num_segments h_in
    (Or.inr ⟨h_ge, h_stride⟩), ?_⟩
  intro out h_out
  have h_ok := get_unrolled_localities_stride_ok inp num_segments _ out (by omega) h_out
  obtain ⟨out1, h_out1, h_len, h_entries⟩ := get_unrolled_localities_spec inp num_segments
    unroll h_in h_ok.1 h_ok.2
  have h_same : out = out1 := Option.some.inj (h_out.symm.trans h_out1)
  subst h_same
  have h_block : ∀ j k, j * unroll ≤ k → k < (j + 1) * unroll → k / unroll = j := by
    intro j k h1 h2
    exact Nat.div_eq_of_lt_le h1 h2
  refine ⟨h_len, ?_, ?_⟩
  · intro j k hj h1 h2
    have hk : k < num_segments := by
      have : (j + 1) * unroll ≤ inp.length * unroll := Nat.mul_le_mul_right _ hj
      omega
    refine ⟨hk, ?_⟩
    rw [h_entries k hk, h_block j k h1 h2, Nat.mod_eq_of_lt hj]
  · intro h_mult
    have h_eq : inp.length * unroll = num_segments := Nat.mul_div_cancel' (Nat.dvd_of_mod_eq_zero h_mult)
    have h_div : ∀ k, k < num_segments → k / unroll < inp.length := by
      intro k hk
      apply Nat.div_lt_of_lt_mul
      rw [Nat.mul_comm, h_eq]
      exact hk
    refine ⟨h_eq, fun k hk => ⟨h_div k hk, ?_⟩, ?_⟩
    · rw [h_entries k hk, Nat.mod_eq_of_lt (h_div k hk)]
    · intro h_nodup j k hj hk
      rw [h_entries k hk, Nat.mod_eq_of_lt (h_div k hk),
        List.getElem?_eq_getElem (h_div k hk), List.getElem?_eq_getElem hj,
        Option.some.injEq, h_nodup.getElem_inj_iff]
      constructor
      · intro h
        subst h
        constructor
        · exact Nat.div_mul_le_self k unroll
        · rw [Nat.add_mul, Nat.one_mul]
          exact Nat.lt_div_mul_add (by omega)
      · rintro ⟨h1, h2⟩
        exact h_block j k h1 h2

/-- Three localities and six segments: blocks `[0, 2)`, `[2, 4)`, `[4, 6)`. -/
theorem get_unrolled_localities_balanced_witness :
    ([10, 11, 12] : List Nat) ≠ [] ∧ ([10, 11, 12] : List Nat).length ≤ 6 ∧
      get_unrolled_localities ([10, 11, 12] : List Nat) 6 (6 / 3)
        = some [10, 10, 11, 11, 12, 12] ∧
      ([10, 10, 11, 11, 12, 12] : List Nat)[3]? = ([10, 11, 12] : List Nat)[1]? :=
  ⟨by decide, by decide, by decide,
    (((get_unrolled_localities_balanced ([10, 11, 12] : List Nat) 6 (by decide)
      (by decide)).2 [10, 10, 11, 11, 12, 12] (by decide)).2.1 1 3 (by decide) (by decide)
      (by decide)).2⟩

end hpx

/-! ### The chunks of `wait_tasks` -/

namespace wait_all_timings

theorem create_tasks_length (num_tasks delay : Nat) :
    (create_tasks num_tasks delay).length = num_tasks := by
  induction num_tasks with
  | zero => rfl
  | succ n ih => simp [create_tasks, ih]

theorem chunks_loop_length (count chunk_tasks delay : Nat) :
    (chunks_loop count chunk_tasks delay).length = count := by
  induction count with
  | zero => rfl
  | succ n ih => simp [chunks_loop, ih]

theorem chunks_loop_entries (count chunk_tasks delay : Nat) (chunk : List task)
    (h : chunk ∈ chunks_loop count chunk_tasks delay) : chunk.length = chunk_tasks := by
  induction count with
  | zero => simp [chunks_loop] at h
  | succ n ih =>
    simp only [chunks_loop, List.mem_append, List.mem_singleton] at h
    rcases h with h | h
    · exact ih h
    · rw [h, create_tasks_length]

theorem chunks_loop_sum (count chunk_tasks delay : Nat) :
    ((chunks_loop count chunk_tasks delay).map List.length).sum = count * chunk_tasks := by
  induction count with
  | zero => simp [chunks_loop]
  | succ n ih =>
    simp only [chunks_loop, List.map_append, List.sum_append, ih, List.map_cons, List.map_nil,
      List.sum_cons, List.sum_nil, create_tasks_length]
    ring

theorem num_chunk_tasks_eq (num_tasks num_chunks : Nat) (h_chunks : 1 ≤ num_chunks)
    (h_sum : num_tasks + num_chunks < SIZE_MOD) :
    num_chunk_tasks num_tasks num_chunks = some (num_tasks / num_chunks) := by
  have h_q : num_tasks / num_chunks ≤ num_tasks := Nat.div_le_self _ _
  have h_div : (num_tasks + num_chunks) / num_chunks = num_tasks / num_chunks + 1 :=
    Nat.add_div_right _ (by omega)
  unfold num_chunk_tasks
  rw [if_neg (by omega), Nat.mod_eq_of_lt h_sum, h_div]
  apply congrArg some
  have h_rearrange : num_tasks / num_chunks + 1 + SIZE_MOD - 1 =
      num_tasks / num_chunks + SIZE_MOD := by
    rw [Nat.add_right_comm, Nat.add_sub_cancel]
  rw [h_rearrange, Nat.add_mod_right]
  exact Nat.mod_eq_of_lt (by omega)

theorem chunks_bound (num_tasks num_chunks : Nat) :
    (num_chunks - 1) * (num_tasks / num_chunks) ≤ num_tasks :=
  le_trans (Nat.mul_le_mul_right _ (Nat.sub_le _ _)) (Nat.mul_div_le _ _)

theorem last_num_chunk_tasks_eq (num_tasks num_chunks : Nat) (h_chunks : 1 ≤ num_chunks)
    (h_sum : num_tasks + num_chunks < SIZE_MOD) :
    last_num_chunk_tasks num_tasks num_chunks (num_tasks / num_chunks) =
      num_tasks - (num_chunks - 1) * (num_tasks / num_chunks) := by
  have h_bound := chunks_bound num_tasks num_chunks
  have h_count : (num_chunks + SIZE_MOD - 1) % SIZE_MOD = num_chunks - 1 := by
    have h_rearrange : num_chunks + SIZE_MOD - 1 = num_chunks - 1 + SIZE_MOD := by omega
    rw [h_rearrange, Nat.add_mod_right]
    exact Nat.mod_eq_of_lt (by omega)
  unfold last_num_chunk_tasks
  rw [h_count, Nat.mod_eq_of_lt (show (num_chunks - 1) * (num_tasks / num_chunks) < SIZE_MOD
    by omega)]
  have h_rearrange : num_tasks + SIZE_MOD - (num_chunks - 1) * (num_tasks / num_chunks) =
      num_tasks - (num_chunks - 1) * (num_tasks / num_chunks) + SIZE_MOD := by omega
  rw [h_rearrange, Nat.add_mod_right]
  exact Nat.mod_eq_of_lt (by omega)

/-- C24: for `num_chunks >= 1` and `num_tasks + num_chunks < 2 ^ 64`,
`num_chunk_tasks` is `num_tasks / num_chunks`, the product
`(num_chunks - 1) * num_chunk_tasks` does not exceed `num_tasks` (the
subtraction for `last_num_chunk_tasks` does not wrap), and the vector `chunks`
of every sample holds exactly `num_chunks` chunks: `num_chunks - 1` of
`num_tasks / num_chunks` futures and a last one with the rest, `num_tasks`
futures in all.  No call of `wait_tasks` made by `hpx_main` has
`num_chunks == 0`. -/
theorem wait_tasks_chunk_sizes (num_tasks num_chunks delay : Nat)
    (h_chunks : 1 ≤ num_chunks) (h_sum : num_tasks + num_chunks < SIZE_MOD) :
    num_chunk_tasks num_tasks num_chunks = some (num_tasks / num_chunks) ∧
    (num_chunks - 1) * (num_tasks / num_chunks) ≤ num_tasks ∧
    last_num_chunk_tasks num_tasks num_chunks (num_tasks / num_chunks) =
      num_tasks - (num_chunks - 1) * (num_tasks / num_chunks) ∧
    (∃ chunks, wait_tasks_chunks num_tasks num_chunks delay = some chunks ∧
      chunks.length = num_chunks ∧
      (∀ c, c < num_chunks - 1 →
        (chunks[c]?).map List.length = some (num_tasks / num_chunks)) ∧
      (chunks[num_chunks - 1]?).map List.length =
        some (num_tasks - (num_chunks - 1) * (num_tasks / num_chunks)) ∧
      (chunks.map List.length).sum = num_tasks) ∧
    ∀ vm, ∀ call ∈ hpx_main vm, call.num_chunks ≠ 0 := by
  have h_bound := chunks_bound num_tasks num_chunks
  have h_nct := num_chunk_tasks_eq num_tasks num_chunks h_chunks h_sum
  have h_last := last_num_chunk_tasks_eq num_tasks num_chunks h_chunks h_sum
  have h_count : (num_chunks + SIZE_MOD - 1) % SIZE_MOD = num_chunks - 1 := by
    have h_rearrange : num_chunks + SIZE_MOD - 1 = num_chunks - 1 + SIZE_MOD := by omega
    rw [h_rearrange, Nat.add_mod_right]
    exact Nat.mod_eq_of_lt (by omega)
  refine ⟨h_nct, h_bound, h_last, ?_, ?_⟩
  · refine ⟨_, by simp only [wait_tasks_chunks, h_nct, h_count, h_last]; rfl, ?_, ?_, ?_, ?_⟩
    · rw [List.length_append, chunks_loop_length, List.length_singleton]
      omega
    · intro c hc
      have hc2 : c < (chunks_loop (num_chunks - 1) (num_tasks / num_chunks) delay).length := by
        rw [chunks_loop_length]
        exact hc
      rw [List.getElem?_append_left hc2, List.getElem?_eq_getElem hc2, Option.map_some']
      exact congrArg some (chunks_loop_entries _ _ delay _ (List.getElem_mem _))
    · rw [List.getElem?_append_right (by rw [chunks_loop_length]), chunks_loop_length,
        Nat.sub_self]
      simp [create_tasks_length]
    · rw [List.map_append, List.sum_append, chunks_loop_sum]
      simp only [List.map_cons, List.map_nil, List.sum_cons, List.sum_nil,
        create_tasks_length]
      omega
  · intro vm call h_call
    simp only [hpx_main, List.mem_cons] at h_call
    rcases h_call with h | h
    · rw [h]
      exact Nat.one_ne_zero
    · generalize vm.chunks.getD 1 = n at h
      by_cases hn : n = 0
      · simp [hn] at h
      · by_cases h1 : n = 1
        · simp [h1] at h
        · simp only [if_neg hn, ne_eq, h1, not_false_eq_true, if_true,
            List.mem_singleton] at h
          rw [h]
          exact hn

/-- The default of 100 futures split into 3 chunks: 33, 33 and 34. -/
theorem wait_tasks_chunk_sizes_witness :
    1 ≤ 3 ∧ 100 + 3 < SIZE_MOD ∧ num_chunk_tasks 100 3 = some (100 / 3) ∧
      (Option.map (List.map List.length) (wait_tasks_chunks 100 3 0)) = some [33, 33, 34] ∧
      hpx_main ⟨false, none, none, some 0, none⟩ = [⟨1000, 100, 1, 0⟩] :=
  ⟨by decide, by decide,
    (wait_tasks_chunk_sizes 100 3 0 (by decide) (by decide)).1, by decide, by decide⟩

end wait_all_timings

/-! ### The neighbours and the checksum of `dataflow_replay.cpp` -/

namespace dataflow_replay

theorem for_count_invariant {σ : Type} (P : σ → Prop) (body : Nat → σ → Option σ)
    (h_body : ∀ i s s1, P s → body i s = some s1 → P s1) (count start : Nat) (s s1 : σ)
    (h_s : P s) (h : for_count body count start s = some s1) : P s1 := by
  induction count generalizing start s with
  | zero =>
    simp only [for_count, Option.some.injEq] at h
    exact h ▸ h_s
  | succ count ih =>
    rw [for_count] at h
    cases h_step : body start s with
    | none => simp [h_step] at h
    | some s2 =>
      simp only [h_step] at h
      exact ih _ _ (h_body _ _ _ h_s h_step) h

theorem store_stencil_untouched {α : Type} (ops : double_ops α) (s s1 : heat_state α)
    (idx : Nat) (a b c : Option α) (h_s : workspace_untouched ops s)
    (h : store_stencil ops s idx a b c = some s1) : workspace_untouched ops s1 := by
  unfold store_stencil at h
  cases a <;> cases b <;> cases c <;> simp only [reduceCtorEq] at h
  unfold partition_data.set at h
  split_ifs at h
  simp only [Option.some.injEq] at h
  subst h
  exact h_s

theorem subtract_flux_untouched {α : Type} (ops : double_ops α) (flux : α → α → α)
    (s s1 : heat_state α) (a b : Nat) (h_s : workspace_untouched ops s)
    (h : subtract_flux ops flux s a b = some s1) : workspace_untouched ops s1 := by
  unfold subtract_flux at h
  cases h_a : s.workspace.get a <;> cases h_b : s.workspace.get b <;>
    simp only [h_a, h_b, reduceCtorEq, Option.some.injEq] at h
  subst h
  exact h_s

theorem stencil_loop_untouched {α : Type} (ops : double_ops α) (input : partition_data α)
    (count start : Nat) (s s1 : heat_state α) (h_s : workspace_untouched ops s)
    (h : for_count (fun i s => do
        let s ← store_stencil ops s s.j (input.get i) (input.get (i + 1)) (input.get (i + 2))
        pure { s with j := s.j + 1 }) count start s = some s1) :
    workspace_untouched ops s1 := by
  refine for_count_invariant (workspace_untouched ops) _ ?_ count start s s1 h_s h
  intro i s2 s3 h2 h3
  simp only [bind, Option.bind_eq_some, pure, Option.some.injEq] at h3
  obtain ⟨s4, h4, h5⟩ := h3
  subst h5
  exact store_stencil_untouched ops s2 s4 _ _ _ _ h2 h4

theorem heat_part_body_untouched {α : Type} (ops : double_ops α)
    (left_input center_input right_input : partition_data α) (size : Nat)
    (s s1 : heat_state α) (h_s : workspace_untouched ops s)
    (h : heat_part_body ops left_input center_input right_input size s = some s1) :
    workspace_untouched ops s1 := by
  unfold heat_part_body at h
  simp only [bind, Option.bind_eq_some] at h
  obtain ⟨s2, h2, s3, h3, s4, h4, s5, h5, s6, h6, s7, h7, s8, h8, s9, h9, s10, h10, h11⟩ := h
  have u2 := stencil_loop_untouched ops _ _ _ _ _ h_s h2
  have u3 := store_stencil_untouched ops _ _ _ _ _ _ u2 h3
  have u4 := store_stencil_untouched ops _ _ _ _ _ _ u3 h4
  have u5 := stencil_loop_untouched ops _ _ _ { s4 with j := s4.j + 2 } _ u4 h5
  have u6 := store_stencil_untouched ops _ _ _ _ _ _ u5 h6
  have u7 := store_stencil_untouched ops _ _ _ _ _ _ u6 h7
  have u8 := stencil_loop_untouched ops _ _ _ { s7 with j := s7.j + 2 } _ u7 h8
  have u9 := subtract_flux_untouched ops _ _ _ _ _ u8 h9
  have u10 := subtract_flux_untouched ops _ _ _ _ _ u9 h10
  refine for_count_invariant (workspace_untouched ops) _ ?_ _ _ _ _ u10 h11
  intro t a b h_a h_b
  simp only [Option.bind_eq_some] at h_b
  obtain ⟨b1, hb1, b2, hb2, hb3⟩ := h_b
  have v1 := subtract_flux_untouched ops _ _ _ _ _ h_a hb1
  have v2 := subtract_flux_untouched ops _ _ _ _ _ v1 hb2
  refine for_count_invariant (workspace_untouched ops) _ ?_ _ _ _ _ v2 hb3
  intro k c d h_c h_d
  exact store_stencil_untouched ops _ _ _ _ _ _ h_c h_d

/-- C25: for `1 <= subdomains < 2 ^ 64` and `i < subdomains`, the neighbour
indices of `do_work`, computed in unsigned 64-bit arithmetic, are defined and
below `subdomains` (inside `current`, which has `subdomains` elements); the
right index is `(i + 1) mod subdomains` and the left index is
`(i - 1) mod subdomains`, the wrap of `i - 1` at `i = 0` included.  The left
index is stated for `subdomains <= 2 ^ 63`, which leaves out no run of the
loop: before the loop `do_work` resizes `U[0]` and `U[1]` to `subdomains`
futures each, and no vector has more than `2 ^ 63` elements. -/
theorem neighbour_indices_in_bounds (subdomains i : Nat) (h_sub : 1 ≤ subdomains)
    (h_size : subdomains < SIZE_MOD) (h_i : i < subdomains) :
    ∃ left right, left_index subdomains i = some left ∧
      right_index subdomains i = some right ∧ left < subdomains ∧ right < subdomains ∧
      right = (i + 1) % subdomains ∧
      (i + 1 = subdomains → right = 0) ∧ (i + 1 < subdomains → right = i + 1) ∧
      (subdomains ≤ 2 ^ 63 →
        (left : Int) = ((i : Int) - 1) % (subdomains : Int) ∧
        (i = 0 → left = subdomains - 1) ∧ (0 < i → left = i - 1)) := by
  have h_mod : SIZE_MOD = 2 ^ 64 := rfl
  have h_ne : subdomains ≠ 0 := by omega
  have h_right : (i + 1) % SIZE_MOD = i + 1 := Nat.mod_eq_of_lt (by omega)
  refine ⟨((i + SIZE_MOD - 1) % SIZE_MOD + subdomains) % SIZE_MOD % subdomains,
    (i + 1) % subdomains, by simp only [left_index, if_neg h_ne],
    by simp only [right_index, if_neg h_ne, h_right],
    Nat.mod_lt _ (by omega), Nat.mod_lt _ (by omega), rfl, ?_, ?_, ?_⟩
  · intro h
    rw [h]
    exact Nat.mod_self _
  · intro h
    exact Nat.mod_eq_of_lt h
  · intro h_small
    have h_left_zero : i = 0 →
        ((i + SIZE_MOD - 1) % SIZE_MOD + subdomains) % SIZE_MOD % subdomains
          = subdomains - 1 := by
      intro h0
      subst h0
      have h1 : (0 + SIZE_MOD - 1) % SIZE_MOD = SIZE_MOD - 1 := by
        rw [Nat.zero_add]
        exact Nat.mod_eq_of_lt (by omega)
      have h2 : SIZE_MOD - 1 + subdomains = subdomains - 1 + SIZE_MOD := by omega
      rw [h1, h2, Nat.add_mod_right, Nat.mod_eq_of_lt (show subdomains - 1 < SIZE_MOD by omega)]
      exact Nat.mod_eq_of_lt (by omega)
    have h_left_pos : 0 < i →
        ((i + SIZE_MOD - 1) % SIZE_MOD + subdomains) % SIZE_MOD % subdomains = i - 1 := by
      intro hpos
      have h1 : i + SIZE_MOD - 1 = i - 1 + SIZE_MOD := by omega
      rw [h1, Nat.add_mod_right, Nat.mod_eq_of_lt (show i - 1 < SIZE_MOD by omega),
        Nat.mod_eq_of_lt (show i - 1 + subdomains < SIZE_MOD by omega), Nat.add_mod_right]
      exact Nat.mod_eq_of_lt (by omega)
    refine ⟨?_, h_left_zero, h_left_pos⟩
    rcases Nat.eq_zero_or_pos i with h0 | hpos
    · rw [h_left_zero h0, h0]
      have h7 : ((0 : Nat) : Int) - 1 =
          ((subdomains - 1 : Nat) : Int) + (-1) * (subdomains : Int) := by
        push_cast [Nat.cast_sub h_sub]
        ring
      rw [h7, Int.add_mul_emod_self]
      exact (Int.emod_eq_of_lt (by omega) (by omega)).symm
    · rw [h_left_pos hpos]
      have h7 : ((i : Nat) : Int) - 1 = ((i - 1 : Nat) : Int) := by
        push_cast [Nat.cast_sub hpos]
        ring
      rw [h7]
      exact (Int.emod_eq_of_lt (by omega) (by omega)).symm

/-- Four subdomains: the neighbours of 0 are 3 and 1, those of 3 are 2 and 0. -/
theorem neighbour_indices_in_bounds_witness :
    1 ≤ 4 ∧ 4 < SIZE_MOD ∧ 0 < 4 ∧ 4 ≤ 2 ^ 63 ∧
      left_index 4 0 = some 3 ∧ right_index 4 0 = some 1 ∧
      left_index 4 3 = some 2 ∧ right_index 4 3 = some 0 ∧
      ∃ left right, left_index 4 0 = some left ∧ right_index 4 0 = some right ∧
        left < 4 ∧ right < 4 ∧ right = (0 + 1) % 4 ∧
        (left : Int) = (((0 : Nat) : Int) - 1) % ((4 : Nat) : Int) ∧ left = 4 - 1 := by
  obtain ⟨left, right, h_left, h_right, h_lt, h_rt, h_eq, _, _, h_small⟩ :=
    neighbour_indices_in_bounds 4 0 (by decide) (by decide) (by decide)
  exact ⟨by decide, by decide, by decide, by decide, by decide, by decide, by decide,
    by decide, left, right, h_left, h_right, h_lt, h_rt, h_eq, (h_small (by decide)).1,
    (h_small (by decide)).2.1 rfl⟩

theorem finish_checksum {α : Type} (ops : double_ops α) (size : Nat) (s : heat_state α) :
    (((s.workspace.resize ops size).set_checksum ops).set_test_value s.checksum).checksum_
      = s.workspace.checksum_ := rfl

theorem finish_test_value {α : Type} (ops : double_ops α) (size : Nat) (s : heat_state α) :
    (((s.workspace.resize ops size).set_checksum ops).set_test_value s.checksum).test_value_
      = s.checksum := rfl

theorem heat_part_finish_returned {α : Type} (ops : double_ops α) (error_flag : Bool)
    (size : Nat) (s : heat_state α) (workspace : partition_data α)
    (h : heat_part_finish ops error_flag size s = .returned workspace) :
    workspace = ((s.workspace.resize ops ((size + 1) % SIZE_MOD)).set_checksum ops).set_test_value
      s.checksum := by
  unfold heat_part_finish at h
  cases error_flag with
  | true => cases h
  | false =>
    simp only [Bool.false_eq_true, if_false, heat_result.returned.injEq] at h
    exact h.symm

/-- C26: `set_checksum` returns the partition with every field as it was, in
particular `checksum()`; the partition of the size-only constructor has
checksum `0.0`; and every workspace `heat_part` returns has `checksum()`
equal to `0.0`, whatever its data, and `verify_result()` equal to
`abs(0.0 - test_value)`, that is `abs(test_value)`, for the test value handed
to `set_test_value` (the local `checksum`). -/
theorem set_checksum_changes_nothing {α : Type} (ops : double_ops α) (p : partition_data α)
    (size : Nat) (error_flag : Bool) (left_input center_input right_input : partition_data α)
    (h_abs : ∀ x, ops.abs (ops.sub (ops.literal 0) x) = ops.abs x) :
    p.set_checksum ops = p ∧ (p.set_checksum ops).checksum = p.checksum ∧
    (partition_data.of_size ops size).checksum = ops.literal 0 ∧
    ∀ workspace, heat_part ops error_flag left_input center_input right_input
        = some (.returned workspace) →
      workspace.checksum = ops.literal 0 ∧
      workspace.verify_result ops = ops.abs workspace.test_value_ ∧
      ∃ initial final : heat_state α, heat_part_body ops left_input center_input
          right_input (size_sub center_input.size 1) initial = some final ∧
        workspace = ((final.workspace.resize ops
          ((size_sub center_input.size 1 + 1) % SIZE_MOD)).set_checksum ops).set_test_value
            final.checksum := by
  refine ⟨rfl, rfl, rfl, ?_⟩
  intro workspace h
  unfold heat_part at h
  cases h_c : center_input.get 0 with
  | none =>
    rw [h_c] at h
    cases h
  | some center0 =>
    cases h_r : right_input.get 0 with
    | none =>
      rw [h_c, h_r] at h
      cases h
    | some right0 =>
      rw [h_c, h_r] at h
      obtain ⟨s, h_body, h_finish⟩ := Option.map_eq_some'.mp h
      have h_untouched := heat_part_body_untouched ops left_input center_input right_input
        (size_sub center_input.size 1)
        (heat_part_start ops left_input center_input right_input
          (size_sub center_input.size 1) center0 right0) s ⟨rfl, rfl⟩ h_body
      have h_workspace := heat_part_finish_returned ops error_flag _ s workspace h_finish
      refine ⟨?_, ?_, heat_part_start ops left_input center_input right_input
          (size_sub center_input.size 1) center0 right0, s, h_body, h_workspace⟩
      · rw [h_workspace]
        exact (finish_checksum ops _ s).trans h_untouched.1
      · rw [h_workspace]
        unfold partition_data.verify_result
        rw [finish_checksum, h_untouched.1]
        exact h_abs _

/-- Exact arithmetic, three elements per partition: the returned workspace
holds non-zero data, yet its checksum is 0 and its `verify_result()` is the
absolute value of the test value `179 / 2`. -/
theorem set_checksum_changes_nothing_witness :
    (∀ x : ℚ, rational_ops.abs (rational_ops.sub (rational_ops.literal 0) x)
        = rational_ops.abs x) ∧
      heat_part rational_ops false ⟨[16, 32], 2, 48, 0⟩ ⟨[64, 16, 32], 3, 112, 0⟩
          ⟨[32, 64, 16], 3, 112, 0⟩
        = some (.returned ⟨[191 / 4, 43, 85 / 4], 3, 0, 179 / 2⟩) ∧
      (partition_data.mk [191 / 4, 43, 85 / 4] 3 (0 : ℚ) (179 / 2)).checksum
        = rational_ops.literal 0 ∧
      (partition_data.mk [191 / 4, 43, 85 / 4] 3 (0 : ℚ) (179 / 2)).verify_result rational_ops
        = rational_ops.abs (179 / 2) :=
  have h_abs : ∀ x : ℚ, rational_ops.abs (rational_ops.sub (rational_ops.literal 0) x)
      = rational_ops.abs x := fun x => by simp [rational_ops]
  have h_run : heat_part rational_ops false ⟨[16, 32], 2, 48, 0⟩ ⟨[64, 16, 32], 3, 112, 0⟩
      ⟨[32, 64, 16], 3, 112, 0⟩ = some (.returned ⟨[191 / 4, 43, 85 / 4], 3, 0, 179 / 2⟩) := by
    decide!
  ⟨h_abs, h_run,
    ((set_checksum_changes_nothing rational_ops ⟨[], 0, 0, 0⟩ 0 false _ _ _ h_abs).2.2.2
      _ h_run).1,
    ((set_checksum_changes_nothing rational_ops ⟨[], 0, 0, 0⟩ 0 false _ _ _ h_abs).2.2.2
      _ h_run).2.1⟩

end dataflow_replay

/-! ### The heap construction -/

namespace hpx

theorem strict_weak_order_irrefl {α : Type} (comp : α → α → Bool)
    (h : strict_weak_order comp) (a : α) : comp a a = false := by
  cases h_c : comp a a with
  | false => rfl
  | true => exact (h.1 a a h_c).symm.trans h_c |>.symm ▸ rfl

theorem strict_weak_order_trans {α : Type} (comp : α → α → Bool)
    (h : strict_weak_order comp) (a b c : α) (h_ab : comp a b = true)
    (h_bc : comp b c = true) : comp a c = true := by
  cases h_ac : comp a c with
  | true => rfl
  | false =>
    have h_cb := h.1 b c h_bc
    have h_ab2 := h.2 a c b h_ac h_cb
    rw [h_ab] at h_ab2
    cases h_ab2

theorem iter_swap_length {α : Type} (xs : List α) (i j : Nat) :
    (iter_swap xs i j).length = xs.length := by
  unfold iter_swap
  cases xs[i]? <;> cases xs[j]? <;> simp

theorem iter_swap_getElem? {α : Type} (xs : List α) (i j t : Nat) (a b : α)
    (h_i : xs[i]? = some a) (h_j : xs[j]? = some b) (h_ne : i ≠ j) :
    (iter_swap xs i j)[t]? = if t = j then some a else if t = i then some b else xs[t]? := by
  have hi : i < xs.length := (List.getElem?_eq_some_iff.mp h_i).1
  have hj : j < xs.length := (List.getElem?_eq_some_iff.mp h_j).1
  unfold iter_swap
  simp only [h_i, h_j]
  by_cases h1 : t = j
  · subst h1
    rw [if_pos rfl, List.getElem?_set_eq_of_lt _ (by simpa using hj)]
  · rw [if_neg h1, List.getElem?_set_ne (Ne.symm h1)]
    by_cases h2 : t = i
    · subst h2
      rw [if_pos rfl, List.getElem?_set_eq_of_lt _ hi]
    · rw [if_neg h2, List.getElem?_set_ne (Ne.symm h2)]

theorem larger_child_cases {α : Type} (comp : α → α → Bool) (xs : List α)
    (largest child : Nat) :
    (larger_child comp xs largest child = largest ∧
      ∀ a b, xs[largest]? = some a → xs[child]? = some b → comp a b = false) ∨
    (larger_child comp xs largest child = child ∧
      ∃ a b, xs[largest]? = some a ∧ xs[child]? = some b ∧ comp a b = true) := by
  unfold larger_child
  cases h_l : xs[largest]? with
  | none => exact Or.inl ⟨rfl, fun a b h => by cases h⟩
  | some a =>
    cases h_c : xs[child]? with
    | none => exact Or.inl ⟨rfl, fun a b _ h => by cases h⟩
    | some b =>
      cases h_comp : comp a b with
      | true => exact Or.inr ⟨by simp [h_comp], a, b, rfl, rfl, h_comp⟩
      | false =>
        refine Or.inl ⟨by simp [h_comp], fun a1 b1 h1 h2 => ?_⟩
        cases h1
        cases h2
        exact h_comp

/-- What the two comparisons of a sift-down step establish at position `m`:
either `m` is not below its children, or the chosen child is above `m` and
not below the other child. -/
theorem largest_child_spec {α : Type} (comp : α → α → Bool) (h : strict_weak_order comp)
    (xs : List α) (m : Nat) :
    let largest := larger_child comp xs (larger_child comp xs m (2 * m + 1)) (2 * m + 2)
    (largest = m ∧ node_ok comp xs m) ∨
    ((largest = 2 * m + 1 ∨ largest = 2 * m + 2) ∧
      ∃ vm vb, xs[m]? = some vm ∧ xs[largest]? = some vb ∧ comp vm vb = true ∧
        ∀ c vo, (c = 2 * m + 1 ∨ c = 2 * m + 2) → xs[c]? = some vo → comp vb vo = false) := by
  intro largest
  rcases larger_child_cases comp xs m (2 * m + 1) with ⟨h1, h1f⟩ | ⟨h1, v, v1, hv, hv1, hc1⟩
  · rcases larger_child_cases comp xs (larger_child comp xs m (2 * m + 1)) (2 * m + 2) with
      ⟨h2, h2f⟩ | ⟨h2, v, v2, hv, hv2, hc2⟩
    · left
      refine ⟨by simp only [largest, h2, h1], ?_⟩
      intro c a b hc ha hb
      rcases hc with hc | hc
      · subst hc
        exact h1f a b ha hb
      · subst hc
        rw [h1] at h2f
        exact h2f a b ha hb
    · right
      rw [h1] at hv
      refine ⟨Or.inr (by simp only [largest, h2]), v, v2, hv, by simp only [largest, h2, hv2],
        hc2, ?_⟩
      intro c vo hc hvo
      rcases hc with hc | hc
      · subst hc
        cases h_c : comp v2 vo with
        | false => rfl
        | true =>
          have := strict_weak_order_trans comp h v v2 vo hc2 h_c
          rw [h1f v vo hv hvo] at this
          cases this
      · subst hc
        rw [hv2] at hvo
        cases hvo
        exact strict_weak_order_irrefl comp h _
  · rcases larger_child_cases comp xs (larger_child comp xs m (2 * m + 1)) (2 * m + 2) with
      ⟨h2, h2f⟩ | ⟨h2, w, v2, hw, hv2, hc2⟩
    · right
      rw [h1] at h2 h2f
      refine ⟨Or.inl (by simp only [largest, h1, h2]), v, v1, hv,
        by simp only [largest, h1, h2, hv1], hc1, ?_⟩
      intro c vo hc hvo
      rcases hc with hc | hc
      · subst hc
        rw [hv1] at hvo
        cases hvo
        exact strict_weak_order_irrefl comp h _
      · subst hc
        exact h2f v1 vo hv1 hvo
    · right
      rw [h1] at hw
      rw [hv1] at hw
      cases hw
      refine ⟨Or.inr (by simp only [largest, h2]), v, v2, hv, by simp only [largest, h2, hv2],
        strict_weak_order_trans comp h v v1 v2 hc1 hc2, ?_⟩
      intro c vo hc hvo
      rcases hc with hc | hc
      · subst hc
        rw [hv1] at hvo
        cases hvo
        exact h.1 _ _ hc2
      · subst hc
        rw [hv2] at hvo
        cases hvo
        exact strict_weak_order_irrefl comp h _

/-- Sifting down at `m` restores the heap order on all positions from `k`
on, when `m` was the only position out of order and its parent already
dominates the children of `m`. -/
theorem sift_down_spec {α : Type} (comp : α → α → Bool) (h : strict_weak_order comp)
    (fuel : Nat) (xs : List α) (k m : Nat) (h_km : k ≤ m) (h_fuel : xs.length ≤ fuel + m)
    (h_others : ∀ j, k ≤ j → j ≠ m → node_ok comp xs j)
    (h_parent : 1 ≤ m → k ≤ (m - 1) / 2 → ∀ c a b, (c = 2 * m + 1 ∨ c = 2 * m + 2) →
      xs[(m - 1) / 2]? = some a → xs[c]? = some b → comp a b = false) :
    (sift_down comp fuel xs m).length = xs.length ∧
      ∀ j, k ≤ j → node_ok comp (sift_down comp fuel xs m) j := by
  induction fuel generalizing xs m with
  | zero =>
    refine ⟨rfl, fun j hj => ?_⟩
    by_cases hjm : j = m
    · subst hjm
      intro c a b _ ha _
      have ha2 : xs[j]? = some a := ha
      have := (List.getElem?_eq_some_iff.mp ha2).1
      omega
    · exact h_others j hj hjm
  | succ fuel ih =>
    rw [sift_down]
    rcases largest_child_spec comp h xs m with ⟨h_eq, h_ok⟩ | ⟨h_child, vm, vb, h_vm, h_vb, h_above, h_dom⟩
    · simp only [h_eq, if_true]
      refine ⟨trivial, fun j hj => ?_⟩
      by_cases hjm : j = m
      · subst hjm
        exact h_ok
      · exact h_others j hj hjm
    · generalize h_big : larger_child comp xs (larger_child comp xs m (2 * m + 1)) (2 * m + 2)
        = big at h_child h_vb h_dom
      have h_ne : big ≠ m := by omega
      have h_ne2 : m ≠ big := Ne.symm h_ne
      simp only [if_neg h_ne]
      have h_get := fun t => iter_swap_getElem? xs m big t vm vb h_vm h_vb h_ne2
      have h_len := iter_swap_length xs m big
      have h_step := ih (iter_swap xs m big) big (by omega) (by rw [h_len]; omega) ?_ ?_
      · exact ⟨h_step.1.trans h_len, h_step.2⟩
      · intro j hj hj_big c a b hc ha hb
        rw [h_get] at ha hb
        by_cases hjm : j = m
        · subst hjm
          rw [if_neg hj_big, if_pos rfl] at ha
          cases ha
          by_cases hcb : c = big
          · rw [if_pos hcb] at hb
            cases hb
            exact h.1 _ _ h_above
          · rw [if_neg hcb, if_neg (by omega)] at hb
            exact h_dom c b hc hb
        · rw [if_neg hj_big, if_neg hjm] at ha
          by_cases hcm : c = m
          · rw [if_neg (by omega), if_pos hcm] at hb
            cases hb
            have h_par : (m - 1) / 2 = j := by omega
            exact h_parent (by omega) (by omega) big _ _ h_child (by rw [h_par]; exact ha) h_vb
          · have hcb : c ≠ big := by omega
            rw [if_neg hcb, if_neg hcm] at hb
            exact h_others j hj hjm c a b hc ha hb
      · intro _ _ c a b hc ha hb
        have h_par : (big - 1) / 2 = m := by omega
        rw [h_par, h_get, if_neg h_ne2, if_pos rfl] at ha
        cases ha
        rw [h_get, if_neg (by omega), if_neg (by omega)] at hb
        exact h_others big (by omega) h_ne c _ _ hc h_vb hb

theorem make_heap_loop_spec {α : Type} (comp : α → α → Bool) (h : strict_weak_order comp)
    (start : Nat) (xs : List α) (h_from : ∀ j, start ≤ j → node_ok comp xs j) :
    (make_heap_loop comp start xs).length = xs.length ∧
      ∀ j, node_ok comp (make_heap_loop comp start xs) j := by
  induction start generalizing xs with
  | zero => exact ⟨rfl, fun j => h_from j (Nat.zero_le _)⟩
  | succ start ih =>
    rw [make_heap_loop]
    have h_sift := sift_down_spec comp h xs.length xs start start (Nat.le_refl _) (by omega)
      (fun j hj hne => h_from j (by omega))
      (fun h1 h2 => by omega)
    have h_rest := ih (sift_down comp xs.length xs start) h_sift.2
    exact ⟨h_rest.1.trans h_sift.1, h_rest.2⟩

theorem make_heap_spec {α : Type} (comp : α → α → Bool) (h : strict_weak_order comp)
    (xs : List α) :
    (make_heap comp xs).length = xs.length ∧ ∀ j, node_ok comp (make_heap comp xs) j := by
  unfold make_heap
  apply make_heap_loop_spec comp h
  intro j hj c a b hc _ hb
  have := (List.getElem?_eq_some_iff.mp hb).1
  omega

theorem is_heap_iff {α : Type} (comp : α → α → Bool) (xs : List α) :
    is_heap comp xs = true ↔
      ∀ i a b, 1 ≤ i → xs[(i - 1) / 2]? = some a → xs[i]? = some b → comp a b = false := by
  unfold is_heap
  rw [List.all_eq_true]
  constructor
  · intro h_all i a b hi ha hb
    have h_lt := (List.getElem?_eq_some_iff.mp hb).1
    have h_i := h_all i (List.mem_range.mpr h_lt)
    simp only [ha, hb] at h_i
    have h_ne : (i == 0) = false := by
      rw [beq_eq_false_iff_ne]
      omega
    simpa [h_ne] using h_i
  · intro h_idx i h_mem
    cases ha : xs[(i - 1) / 2]? with
    | none => rfl
    | some a =>
      cases hb : xs[i]? with
      | none => rfl
      | some b =>
        simp only []
        rcases Nat.eq_zero_or_pos i with h0 | hpos
        · simp [h0]
        · simp [h_idx i a b hpos ha hb]

theorem is_heap_of_node_ok {α : Type} (comp : α → α → Bool) (xs : List α)
    (h_ok : ∀ j, node_ok comp xs j) : is_heap comp xs = true := by
  rw [is_heap_iff]
  intro i a b hi ha hb
  exact h_ok ((i - 1) / 2) i a b (by omega) ha hb

theorem default_less_strict_weak_order : strict_weak_order default_less := by
  constructor
  · intro a b h_ab
    simp only [default_less, decide_eq_true_eq, decide_eq_false_iff_not] at *
    omega
  · intro a b c h_ab h_bc
    simp only [default_less, decide_eq_false_iff_not] at *
    omega

theorem std_greater_strict_weak_order : strict_weak_order std_greater := by
  constructor
  · intro a b h_ab
    simp only [std_greater, decide_eq_true_eq, decide_eq_false_iff_not] at *
    omega
  · intro a b c h_ab h_bc
    simp only [std_greater, decide_eq_false_iff_not] at *
    omega

theorem set_perm_cons {α : Type} (rest : List α) (j : Nat) (b x : α)
    (h : rest[j]? = some b) : (b :: rest.set j x).Perm (x :: rest) := by
  induction rest generalizing j with
  | nil => simp at h
  | cons y r ih =>
    cases j with
    | zero =>
      simp only [List.getElem?_cons_zero, Option.some.injEq] at h
      subst h
      exact List.Perm.swap _ _ _
    | succ j =>
      simp only [List.getElem?_cons_succ] at h
      simp only [List.set_cons_succ]
      exact (List.Perm.swap _ _ _).trans (((ih j h).cons y).trans (List.Perm.swap _ _ _))

theorem iter_swap_perm {α : Type} (xs : List α) (i j : Nat) : (iter_swap xs i j).Perm xs := by
  unfold iter_swap
  cases h_i : xs[i]? with
  | none => exact List.Perm.refl _
  | some a =>
    cases h_j : xs[j]? with
    | none => exact List.Perm.refl _
    | some b =>
      simp only []
      induction xs generalizing i j with
      | nil => simp at h_i
      | cons x rest ih =>
        cases i with
        | zero =>
          simp only [List.getElem?_cons_zero, Option.some.injEq] at h_i
          subst h_i
          cases j with
          | zero =>
            simp only [List.getElem?_cons_zero, Option.some.injEq] at h_j
            subst h_j
            exact List.Perm.refl _
          | succ j =>
            simp only [List.getElem?_cons_succ] at h_j
            simp only [List.set_cons_zero, List.set_cons_succ]
            exact set_perm_cons rest j b x h_j
        | succ i =>
          simp only [List.getElem?_cons_succ] at h_i
          cases j with
          | zero =>
            simp only [List.getElem?_cons_zero, Option.some.injEq] at h_j
            subst h_j
            simp only [List.set_cons_zero, List.set_cons_succ]
            exact set_perm_cons rest i a x h_i
          | succ j =>
            simp only [List.getElem?_cons_succ] at h_j
            simp only [List.set_cons_succ]
            exact (ih i j h_i h_j).cons x

theorem sift_down_perm {α : Type} (comp : α → α → Bool) (fuel : Nat) (xs : List α) (i : Nat) :
    (sift_down comp fuel xs i).Perm xs := by
  induction fuel generalizing xs i with
  | zero => exact List.Perm.refl _
  | succ fuel ih =>
    rw [sift_down]
    split_ifs
    · exact List.Perm.refl _
    · exact (ih _ _).trans (iter_swap_perm xs i _)

theorem make_heap_perm {α : Type} (comp : α → α → Bool) (xs : List α) :
    (make_heap comp xs).Perm xs := by
  unfold make_heap
  generalize xs.length / 2 = start
  induction start generalizing xs with
  | zero => exact List.Perm.refl _
  | succ start ih =>
    rw [make_heap_loop]
    exact (ih _).trans (sift_down_perm comp _ xs start)

theorem make_heap_is_heap_true {α : Type} (comp : α → α → Bool)
    (h : strict_weak_order comp) (xs : List α) : is_heap comp (make_heap comp xs) = true :=
  is_heap_of_node_ok comp _ (make_heap_spec comp h xs).2

theorem test_make_heap_small1_holds (first : Nat) : test_make_heap_small1 first = true := by
  unfold test_make_heap_small1
  rw [List.all_eq_true]
  intro len _
  show (is_heap default_less (make_heap default_less (experimental.iota_from len first))
    == true) = true
  rw [make_heap_is_heap_true default_less default_less_strict_weak_order]
  rfl

theorem test_make_heap_small1_policy_holds (policy : execution_policy) (first : Nat) :
    test_make_heap_small1_policy policy first = true := by
  unfold test_make_heap_small1_policy
  rw [List.all_eq_true]
  intro len _
  show (is_heap default_less (make_heap default_less (experimental.iota_from len first))
    == true) = true
  rw [make_heap_is_heap_true default_less default_less_strict_weak_order]
  rfl

theorem test_make_heap1_holds (policy : execution_policy) : test_make_heap1 policy = true := by
  show (is_heap default_less (make_heap default_less (experimental.iota_from 10007 0))
    == true) = true
  rw [make_heap_is_heap_true default_less default_less_strict_weak_order]
  rfl

theorem test_make_heap2_holds (policy : execution_policy) : test_make_heap2 policy = true := by
  show (is_heap std_greater (make_heap std_greater (experimental.iota_from 25 0))
    == true) = true
  rw [make_heap_is_heap_true std_greater std_greater_strict_weak_order]
  rfl

theorem make_heap_task_get {α : Type} (p : execution_policy) (comp : α → α → Bool)
    (xs : List α) : (make_heap_task p comp xs).get = make_heap comp xs := rfl

theorem test_make_heap_async2_holds (p : execution_policy) :
    test_make_heap_async2 p = true := by
  show (is_heap std_greater (make_heap_task p std_greater
    (experimental.iota_from 10007 0)).get == true) = true
  rw [make_heap_task_get, make_heap_is_heap_true std_greater std_greater_strict_weak_order]
  rfl

/-- C11: for every range (the empty one included) and every comparator that
is a strict weak ordering (`<` and `std::greater` are), the range left by
`make_heap`, with or without a policy, and with a task policy once the
future is ready, satisfies `std::is_heap` with the same comparator: for every
index `i >= 1`, `comp(c[(i - 1) / 2], c[i])` is false; it is a rearrangement
of the original range.  The tests of `make_heap.cpp` for the lengths 0 to 14,
10007 and 25 pass. -/
theorem make_heap_is_heap {α : Type} (comp : α → α → Bool) (xs : List α)
    (policy : execution_policy) (first : Nat) (h_comp : strict_weak_order comp) :
    is_heap comp (make_heap comp xs) = true ∧
    is_heap comp (make_heap_policy policy comp xs) = true ∧
    is_heap comp (make_heap_task policy comp xs).get = true ∧
    (∀ i a b, 1 ≤ i → (make_heap comp xs)[(i - 1) / 2]? = some a →
      (make_heap comp xs)[i]? = some b → comp a b = false) ∧
    (make_heap comp xs).Perm xs ∧
    strict_weak_order default_less ∧ strict_weak_order std_greater ∧
    test_make_heap_small1 first = true ∧
    test_make_heap_small1_policy policy first = true ∧
    test_make_heap1 policy = true ∧ test_make_heap2 policy = true ∧
    test_make_heap_async2 policy = true := by
  exact ⟨make_heap_is_heap_true comp h_comp xs, make_heap_is_heap_true comp h_comp xs,
    make_heap_is_heap_true comp h_comp xs,
    (is_heap_iff comp _).mp (make_heap_is_heap_true comp h_comp xs), make_heap_perm comp xs,
    default_less_strict_weak_order, std_greater_strict_weak_order,
    test_make_heap_small1_holds first, test_make_heap_small1_policy_holds policy first,
    test_make_heap1_holds policy, test_make_heap2_holds policy,
    test_make_heap_async2_holds policy⟩

/-- Eight elements under `<`: the heap built, and the check of `std::is_heap`. -/
theorem make_heap_is_heap_witness :
    strict_weak_order default_less ∧
      make_heap default_less [3, 1, 4, 1, 5, 9, 2, 6] = [9, 6, 4, 1, 5, 3, 2, 1] ∧
      is_heap default_less (make_heap default_less [3, 1, 4, 1, 5, 9, 2, 6]) = true ∧
      is_heap default_less [3, 1, 4, 1, 5, 9, 2, 6] = false :=
  ⟨default_less_strict_weak_order, by decide,
    (make_heap_is_heap default_less [3, 1, 4, 1, 5, 9, 2, 6] .par 0
      default_less_strict_weak_order).1, by decide⟩

end hpx

/-! ### Exceptions thrown by element accesses -/

namespace hpx

theorem decorate_cons {α : Type} (e : element_exception) (x : α) (rest : List α) :
    decorate e (x :: rest) = Except.error e :: decorate e rest := rfl

theorem decorate_length {α : Type} (e : element_exception) (c : List α) :
    (decorate e c).length = c.length := by
  simp [decorate]

theorem decorate_of_length {α : Type} (e : element_exception) (c : List α) (n : Nat)
    (h : c.length = n + 2) :
    ∃ second rest, decorate e c = Except.error e :: second :: rest := by
  match c, h with
  | x :: y :: rest, _ => exact ⟨_, _, rfl⟩

theorem find_if_decorated_reports {α : Type} (pred : α → Bool) (c : decorated_range α) :
    (∃ r, find_if_decorated pred c = .completed r) ∨
      ∃ e, Except.error e ∈ c ∧ find_if_decorated pred c = handle_exception e := by
  induction c with
  | nil => exact Or.inl ⟨0, rfl⟩
  | cons x rest ih =>
    cases x with
    | error e => exact Or.inr ⟨e, List.mem_cons_self _ _, rfl⟩
    | ok v =>
      rw [find_if_decorated]
      by_cases hp : pred v = true
      · rw [if_pos hp]
        exact Or.inl ⟨0, rfl⟩
      · rw [if_neg hp]
        rcases ih with ⟨r, hr⟩ | ⟨e, he, hr⟩
        · rw [hr]
          exact Or.inl ⟨r + 1, rfl⟩
        · right
          refine ⟨e, List.mem_cons_of_mem _ he, ?_⟩
          rw [hr]
          cases e <;> rfl

theorem is_sorted_until_decorated_reports {α : Type} (pred : α → α → Bool)
    (c : decorated_range α) :
    (∃ r, is_sorted_until_decorated pred c = .completed r) ∨
      ∃ e, Except.error e ∈ c ∧ is_sorted_until_decorated pred c = handle_exception e := by
  induction c with
  | nil => exact Or.inl ⟨0, rfl⟩
  | cons x rest ih =>
    cases rest with
    | nil => exact Or.inl ⟨1, by cases x <;> rfl⟩
    | cons y rest2 =>
      cases x with
      | error e => exact Or.inr ⟨e, List.mem_cons_self _ _, rfl⟩
      | ok a =>
        cases y with
        | error e =>
          exact Or.inr ⟨e, List.mem_cons_of_mem _ (List.mem_cons_self _ _), rfl⟩
        | ok b =>
          rw [is_sorted_until_decorated]
          by_cases hp : pred b a = true
          · rw [if_pos hp]
            exact Or.inl ⟨1, rfl⟩
          · rw [if_neg hp]
            rcases ih with ⟨r, hr⟩ | ⟨e, he, hr⟩
            · rw [hr]
              exact Or.inl ⟨r + 1, rfl⟩
            · right
              refine ⟨e, List.mem_cons_of_mem _ he, ?_⟩
              rw [hr]
              cases e <;> rfl

theorem read_all_error {α : Type} (c : decorated_range α) (e : element_exception)
    (h : read_all c = .error e) : Except.error e ∈ c := by
  induction c with
  | nil => cases h
  | cons x rest ih =>
    cases x with
    | error e1 =>
      simp only [read_all, Except.error.injEq] at h
      subst h
      exact List.mem_cons_self _ _
    | ok v =>
      rw [read_all] at h
      cases h_rest : read_all rest with
      | error e2 =>
        rw [h_rest] at h
        simp only [Except.error.injEq] at h
        subst h
        exact List.mem_cons_of_mem _ (ih h_rest)
      | ok values =>
        rw [h_rest] at h
        cases h

theorem make_heap_decorated_reports {α : Type} (comp : α → α → Bool)
    (c : decorated_range α) :
    (∃ r, make_heap_decorated comp c = .completed r) ∨
      ∃ e, Except.error e ∈ c ∧ make_heap_decorated comp c = handle_exception e := by
  unfold make_heap_decorated
  by_cases h_len : c.length < 2
  · rw [if_pos h_len]
    exact Or.inl ⟨c, rfl⟩
  · rw [if_neg h_len]
    cases h_read : read_all c with
    | error e => exact Or.inr ⟨e, read_all_error c e h_read, rfl⟩
    | ok values => exact Or.inl ⟨_, rfl⟩

theorem find_if_exception_vector_length (size : Nat) (first : Int) :
    (find_if_exception_vector size first).length = size := by
  unfold find_if_exception_vector
  simp only [List.length_set, List.length_map, List.length_range]

theorem sorted_until_exception_vector_length (size even odd : Nat) :
    (sorted_until_exception_vector size even odd).length = size := by
  unfold sorted_until_exception_vector
  rw [std_fill_length, std_fill_length, List.length_replicate]

theorem find_if_call_throws (policy : execution_policy) (e : element_exception)
    (c : List Int) (n : Nat) (h : c.length = n + 2) :
    find_if_call policy e c = handle_exception e := by
  obtain ⟨second, rest, h_c⟩ := decorate_of_length e c n h
  unfold find_if_call with_policy
  rw [h_c]
  rfl

theorem make_heap_decorated_first_throws {α : Type} (comp : α → α → Bool)
    (e : element_exception) (second : Except element_exception α)
    (rest : decorated_range α) :
    make_heap_decorated comp (Except.error e :: second :: rest) = handle_exception e := by
  unfold make_heap_decorated
  rw [if_neg (by simp)]
  rfl

theorem make_heap_call_throws (policy : execution_policy) (e : element_exception)
    (c : List Nat) (n : Nat) (h : c.length = n + 2) :
    make_heap_call policy e c = handle_exception e := by
  obtain ⟨second, rest, h_c⟩ := decorate_of_length e c n h
  unfold make_heap_call with_policy
  rw [h_c]
  exact make_heap_decorated_first_throws _ _ _ _

theorem make_heap_task_throws (p : execution_policy) (e : element_exception)
    (c : List Nat) (n : Nat) (h : c.length = n + 2) :
    (with_task_policy p (make_heap_decorated default_less (decorate e c))).get
      = handle_exception e := by
  obtain ⟨second, rest, h_c⟩ := decorate_of_length e c n h
  unfold with_task_policy future.get
  rw [h_c]
  exact make_heap_decorated_first_throws default_less e second rest

theorem is_sorted_until_call_throws (policy : execution_policy) (e : element_exception)
    (c : List Nat) (n : Nat) (h : c.length = n + 2) :
    is_sorted_until_call policy e c = handle_exception e := by
  obtain ⟨second, rest, h_c⟩ := decorate_of_length e c n h
  unfold is_sorted_until_call with_policy
  rw [h_c]
  rfl

theorem test_find_if_exception_passes (policy : execution_policy) (first : Int) :
    test_find_if_exception policy first = ⟨true, false, false⟩ := by
  unfold test_find_if_exception
  rw [find_if_call_throws policy _ _ 10005 (find_if_exception_vector_length _ _)]
  rfl

theorem test_find_if_bad_alloc_passes (policy : execution_policy) (first : Int) :
    test_find_if_bad_alloc policy first = ⟨true, false, false⟩ := by
  unfold test_find_if_bad_alloc
  rw [find_if_call_throws policy _ _ 100005 (find_if_exception_vector_length _ _)]
  rfl

theorem test_make_heap_exception_passes (policy : execution_policy) (first : Nat) :
    test_make_heap_exception policy first = ⟨true, false, false⟩ := by
  unfold test_make_heap_exception
  rw [make_heap_call_throws policy _ _ 10005 (by simp [experimental.iota_from])]
  rfl

theorem test_make_heap_exception_async_passes (p : execution_policy) (first : Nat) :
    test_make_heap_exception_async p first = ⟨true, true, false⟩ := by
  unfold test_make_heap_exception_async
  rw [make_heap_task_throws p _ _ 10005 (by simp [experimental.iota_from])]
  rfl

theorem test_sorted_until_bad_alloc_passes (policy : execution_policy) (even odd : Nat) :
    test_sorted_until_bad_alloc policy even odd = ⟨true, false, false⟩ := by
  unfold test_sorted_until_bad_alloc
  rw [is_sorted_until_call_throws policy _ _ 10005 (sorted_until_exception_vector_length _ _ _)]
  rfl

/-- C14: for `find_if`, `make_heap` and `is_sorted_until`, without a policy,
with `seq` or `par`, and through the future of a task policy: an exception
thrown by an element access is reported as `hpx::exception_list` when it is
`std::runtime_error` and as `std::bad_alloc` itself when it is
`std::bad_alloc`; every failure of the three algorithms is such a report, a
call whose first dereference throws does not complete, and the exception
tests of the sources end with the expected exception caught and no
`HPX_TEST(false)` reached. -/
theorem algorithms_report_element_exceptions {α ρ : Type} (pred : α → Bool)
    (order comp : α → α → Bool) (c : decorated_range α)
    (second : Except element_exception α) (rest : decorated_range α)
    (policy : execution_policy) (outcome : algorithm_outcome ρ) (first : Int)
    (start even odd : Nat) :
    (handle_exception .runtime_error : algorithm_outcome ρ)
      = .exception_list [.runtime_error] ∧
    (handle_exception .bad_alloc : algorithm_outcome ρ) = .bad_alloc ∧
    (∀ e (r : ρ), (handle_exception e : algorithm_outcome ρ) ≠ .completed r) ∧
    ((∃ r, find_if_decorated pred c = .completed r) ∨
      ∃ e, Except.error e ∈ c ∧ find_if_decorated pred c = handle_exception e) ∧
    ((∃ r, is_sorted_until_decorated order c = .completed r) ∨
      ∃ e, Except.error e ∈ c ∧ is_sorted_until_decorated order c = handle_exception e) ∧
    ((∃ r, make_heap_decorated comp c = .completed r) ∨
      ∃ e, Except.error e ∈ c ∧ make_heap_decorated comp c = handle_exception e) ∧
    (∀ e, find_if_decorated pred (Except.error e :: rest) = handle_exception e ∧
      is_sorted_until_decorated order (Except.error e :: second :: rest)
        = handle_exception e ∧
      make_heap_decorated comp (Except.error e :: second :: rest) = handle_exception e) ∧
    with_policy policy outcome = outcome ∧ (with_task_policy policy outcome).get = outcome ∧
    test_find_if_exception policy first = ⟨true, false, false⟩ ∧
    test_find_if_bad_alloc policy first = ⟨true, false, false⟩ ∧
    test_make_heap_exception policy start = ⟨true, false, false⟩ ∧
    test_make_heap_exception_async policy start = ⟨true, true, false⟩ ∧
    test_sorted_until_bad_alloc policy even odd = ⟨true, false, false⟩ := by
  refine ⟨rfl, rfl, ?_, find_if_decorated_reports pred c,
    is_sorted_until_decorated_reports order c, make_heap_decorated_reports comp c, ?_, rfl, rfl,
    test_find_if_exception_passes policy first, test_find_if_bad_alloc_passes policy first,
    test_make_heap_exception_passes policy start,
    test_make_heap_exception_async_passes policy start,
    test_sorted_until_bad_alloc_passes policy even odd⟩
  · intro e r h_eq
    cases e <;> cases h_eq
  · intro e
    exact ⟨rfl, rfl, make_heap_decorated_first_throws comp e second rest⟩

example : find_if_decorated (fun v => v == 1)
    [Except.ok 5, Except.error element_exception.bad_alloc, Except.ok 1]
    = algorithm_outcome.bad_alloc := by decide

example : find_if_decorated (fun v => v == 1)
    [Except.ok 5, Except.ok 1, Except.error element_exception.bad_alloc]
    = algorithm_outcome.completed 1 := by decide

end hpx

/-! ### The round trip of a polymorphic pointer -/

namespace hpx.serialization

theorem main_with_eq (a b d : Int) :
    main_with a b d = some ⟨a, 0, 1, 2, 4711, 4711, 4711⟩ := by
  rfl

theorem deref_lt (m : memory) (p : Nat) (o : object) (h : m.deref p = some o) :
    p < m.cells.length := by
  unfold memory.deref at h
  cases h_cell : m.cells[p]? with
  | none =>
    rw [h_cell] at h
    cases h
  | some cell => exact (List.getElem?_eq_some_iff.mp h_cell).1

theorem deref_store_self (m : memory) (p : Nat) (o : object) (h : p < m.cells.length) :
    (m.store p o).deref p = some o := by
  unfold memory.deref memory.store
  rw [List.getElem?_set_eq_of_lt _ h]

theorem deref_store_other (m : memory) (p q : Nat) (o : object) (h : p ≠ q) :
    (m.store p o).deref q = m.deref q := by
  unfold memory.deref memory.store
  rw [List.getElem?_set_ne h]

theorem store_length (m : memory) (p : Nat) (o : object) :
    (m.store p o).cells.length = m.cells.length := by
  simp [memory.store]

theorem deref_new_self (m : memory) (o : object) :
    (m.new o).1.deref (m.new o).2 = some o := by
  simp [memory.deref, memory.new]

theorem deref_new_other (m : memory) (o : object) (q : Nat) (h : q < m.cells.length) :
    (m.new o).1.deref q = m.deref q := by
  simp only [memory.deref, memory.new]
  rw [List.getElem?_append_left h]

theorem new_length (m : memory) (o : object) :
    (m.new o).1.cells.length = m.cells.length + 1 := by
  simp [memory.new]

/-- Writing the `D` at `p` through a raw pointer and reading the tokens back
allocates a new object at an address not in use, with the members written. -/
theorem raw_ptr_round_trip (m : memory) (p : Nat) (b d : Int) (tail : List token)
    (h : m.deref p = some (.D b d)) :
    save_raw_ptr m p [] = some (m.store p (.D 4711 d), [.type_tag "D", .int 4711, .int d]) ∧
    ∃ m2, load_raw_ptr (m.store p (.D 4711 d))
        ([.type_tag "D", .int 4711, .int d] ++ tail) = some (m2, tail, m.cells.length) ∧
      m.cells.length ≠ p ∧ m2.deref m.cells.length = some (.D 4711 d) ∧
      m2.deref p = some (.D 4711 d) ∧ m2.cells.length = m.cells.length + 1 := by
  have h_lt := deref_lt m p _ h
  constructor
  · simp only [save_raw_ptr, h, D_save, type_name, List.nil_append, List.singleton_append]
  · have h_new : ((m.store p (.D 4711 d)).new (.D 6 89)).2 = m.cells.length := by
      simp [memory.new, memory.store]
    have h_deref := deref_new_self (m.store p (.D 4711 d)) (.D 6 89)
    rw [h_new] at h_deref
    refine ⟨((((m.store p (.D 4711 d)).new (.D 6 89)).1.store m.cells.length
        (.D 4711 89)).store m.cells.length (.D 4711 d)), ?_, by omega, ?_, ?_, ?_⟩
    · simp [load_raw_ptr, factory, D_default, D_load, memory.new, memory.deref, memory.store]
    · apply deref_store_self
      rw [store_length, new_length, store_length]
      omega
    · rw [deref_store_other _ _ _ _ (by omega), deref_store_other _ _ _ _ (by omega),
        deref_new_other _ _ _ (by rw [store_length]; exact h_lt)]
      exact deref_store_self m p _ h_lt
    · rw [store_length, store_length, new_length, store_length]

/-- C15: in the test `main` (for any member values in the place of those of
`A()` and `new D`) the `A` is read back first with the member written, then two
`D` objects are read back at two new addresses, different from each other and
from `b1`, and `b2->b == b1->b` (both 4711, the value `D::serialize` assigns);
all five checks hold.  In any state of the free store, a `D` written through
a raw base pointer is read back as a newly allocated object, at an address
not in use before, with the members that were written. -/
theorem polymorphic_pointer_round_trip (a b d : Int) (m : memory) (p : Nat)
    (tail : List token) :
    main_with a b d = some ⟨a, 0, 1, 2, 4711, 4711, 4711⟩ ∧
    main = some ⟨8, 0, 1, 2, 4711, 4711, 4711⟩ ∧
    (main.map main_values.tests) = some [true, true, true, true, true] ∧
    (m.deref p = some (.D b d) →
      save_raw_ptr m p []
        = some (m.store p (.D 4711 d), [.type_tag "D", .int 4711, .int d]) ∧
      ∃ m2, load_raw_ptr (m.store p (.D 4711 d))
          ([.type_tag "D", .int 4711, .int d] ++ tail) = some (m2, tail, m.cells.length) ∧
        m.cells.length ≠ p ∧ m2.deref m.cells.length = some (.D 4711 d) ∧
        m2.deref p = some (.D 4711 d) ∧ m2.cells.length = m.cells.length + 1) :=
  ⟨main_with_eq a b d, main_with_eq 8 6 89, by decide,
    raw_ptr_round_trip m p b d tail⟩

example : main_with 8 6 89 = some ⟨8, 0, 1, 2, 4711, 4711, 4711⟩ := by decide

end hpx.serialization
